import Mathlib

/-!
# Sparse polynomial class: a shallow embedding of `polynomial-class-sparse.cpp`

The C++ class template `Polynomial<Num>` keeps its terms in a
`std::map<size_t, Num> coef_`.  Here the map is the list of its entries in
iteration order (ascending keys), the carrier `Num` is a type `N` with the
operations the template uses, and every constructor, member function and
operator is a Lean function named after it (`operator +=` is `addAssign`,
`operator []` is `coefficient`, `operator ,` is `gcd`, `operator &` is
`compose`, `operator ()` is `eval`).  Machine exponents (`size_t`, `int`) are modelled by `Nat` and
`Int`; the embedding is about exponents below `2^31`, where no conversion in
the source wraps.  The two `while` loops (in `divmod` and in `operator ,`)
take an explicit iteration budget and return `none` when it is exhausted.
The carrier's `operator /` is passed explicitly as `dv`, so that the integers
can be used with C++'s truncating division.
-/

namespace PolySparse

/-! ## The coefficient map -/

/-- Member `coef_.find(i)`: the value stored under key `i`, if there is one. -/
def find {N : Type} : List (Nat × N) → Nat → Option N
  | [], _ => none
  | (k, v) :: t, i => if i = k then some v else find t i

/-- Member `coef_[i] = v` of the ordered map: overwrite the entry with key `i`,
or insert it at its place in key order. -/
def assign {N : Type} : List (Nat × N) → Nat → N → List (Nat × N)
  | [], i, v => [(i, v)]
  | (k, w) :: t, i, v =>
    if i < k then (i, v) :: (k, w) :: t
    else if i = k then (i, v) :: t
    else (k, w) :: assign t i v

/-- The reference `coef_[i]` read as a value: the stored value, or the
value-initialised `Num()` that `std::map::operator[]` inserts when the key is
absent. -/
def slot {N : Type} [Zero N] (m : List (Nat × N)) (i : Nat) : N :=
  match find m i with
  | none => 0
  | some v => v

/-- Keys strictly ascending: the shape of a `std::map` in iteration order. -/
abbrev Asc {N : Type} (m : List (Nat × N)) : Prop :=
  m.Pairwise (fun a b => a.1 < b.1)

/-- The class `Polynomial<Num>`: its only data member is the map `coef_`. -/
structure Polynomial (N : Type) where
  coef_ : List (Nat × N)
deriving DecidableEq, Repr

namespace Polynomial

variable {N : Type}

/-- The ordering invariant of `std::map`: keys are unique and ascending. -/
def ordered (p : Polynomial N) : Prop :=
  Asc p.coef_

instance (p : Polynomial N) : Decidable p.ordered := by
  unfold ordered; infer_instance

/-- Invariant I1 (sparsity): no stored coefficient is the zero of `N`. -/
def noZero [Zero N] (p : Polynomial N) : Prop :=
  ∀ kv ∈ p.coef_, kv.2 ≠ 0

instance [Zero N] [DecidableEq N] (p : Polynomial N) : Decidable p.noZero := by
  unfold noZero; infer_instance

/-- Private member `normalize_coef`: erase every entry whose value is zero. -/
def normalize_coef [Zero N] [DecidableEq N] (p : Polynomial N) : Polynomial N :=
  ⟨p.coef_.filter (fun kv => decide (¬ kv.2 = 0))⟩

/-- The loop of the iterator-pair constructor: `coef_[i] = *first` for
successive `i`. -/
def ofIterLoop : List N → Nat → List (Nat × N) → List (Nat × N)
  | [], _, m => m
  | c :: cs, i, m => ofIterLoop cs (i + 1) (assign m i c)

/-- Constructor `Polynomial(ForwardIter first, ForwardIter last)`. -/
def ofIter [Zero N] [DecidableEq N] (cs : List N) : Polynomial N :=
  normalize_coef ⟨ofIterLoop cs 0 []⟩

/-- Constructor `Polynomial(const std::vector<Num>& coef)`. -/
def ofVector [Zero N] [DecidableEq N] (coef : List N) : Polynomial N :=
  ofIter coef

/-- Constructor `Polynomial(Num x = Num())` with its argument given. -/
def ofNum [Zero N] [DecidableEq N] (x : N) : Polynomial N :=
  ofVector [x]

/-- Constructor `Polynomial(Num x = Num())` with the argument defaulted: the
default constructor, also what `return {}` builds. -/
def zero [Zero N] [DecidableEq N] : Polynomial N :=
  ofNum 0

/-- Friend `operator ==`: equality of the two maps. -/
def eq [DecidableEq N] (that other : Polynomial N) : Bool :=
  decide (that.coef_ = other.coef_)

/-- Friend `operator !=`: inequality of the two maps. -/
def ne [DecidableEq N] (that other : Polynomial N) : Bool :=
  decide (that.coef_ ≠ other.coef_)

/-- Member `operator[]`: the stored coefficient, `Num()` when absent. -/
def coefficient [Zero N] (p : Polynomial N) (i : Nat) : N :=
  match find p.coef_ i with
  | none => 0
  | some v => v

/-- Member `Degree`: `-1` for the empty map, else the last (largest) key. -/
def Degree (p : Polynomial N) : Int :=
  match p.coef_.getLast? with
  | none => -1
  | some kv => (kv.1 : Int)

/-- Member `operator +=`. -/
def addAssign [Zero N] [Add N] [DecidableEq N] (this other : Polynomial N) :
    Polynomial N :=
  normalize_coef
    ⟨(List.range (other.Degree + 1).toNat).foldl
      (fun m i => assign m i (slot m i + other.coefficient i)) this.coef_⟩

/-- Friend `operator +`. -/
def add [Zero N] [Add N] [DecidableEq N] (that other : Polynomial N) :
    Polynomial N :=
  that.addAssign other

/-- Member `operator -=`. -/
def subAssign [Zero N] [Sub N] [DecidableEq N] (this other : Polynomial N) :
    Polynomial N :=
  normalize_coef
    ⟨(List.range (other.Degree + 1).toNat).foldl
      (fun m i => assign m i (slot m i - other.coefficient i)) this.coef_⟩

/-- Friend `operator -`. -/
def sub [Zero N] [Sub N] [DecidableEq N] (that other : Polynomial N) :
    Polynomial N :=
  that.subAssign other

/-- Friend `operator *`: the double loop over `j` (outer) and `i` (inner),
accumulating into `result.coef_[i + j]`. -/
def mul [Zero N] [Add N] [Mul N] [DecidableEq N] (that other : Polynomial N) :
    Polynomial N :=
  normalize_coef
    ⟨(List.range (other.Degree + 1).toNat).foldl
      (fun m j =>
        (List.range (that.Degree + 1).toNat).foldl
          (fun m i =>
            assign m (i + j) (slot m (i + j) + that.coefficient i * other.coefficient j))
          m)
      (zero : Polynomial N).coef_⟩

/-- Member `operator *=`. -/
def mulAssign [Zero N] [Add N] [Mul N] [DecidableEq N] (this other : Polynomial N) :
    Polynomial N :=
  this.mul other

/-- One pass of the loop body of `operator &` for the entry `cur` of
`that.coef_`: the inner `while (cur_pow < cur.first)` runs
`cur.first - cur_pow` times, then the term is accumulated.  The state is
`(result, other_pow, cur_pow)`. -/
def composeStep [Zero N] [One N] [Add N] [Mul N] [DecidableEq N]
    (other : Polynomial N) (st : Polynomial N × Polynomial N × Nat) (cur : Nat × N) :
    Polynomial N × Polynomial N × Nat :=
  let other_pow := (fun p => mulAssign p other)^[cur.1 - st.2.2] st.2.1
  let cur_pow := st.2.2 + (cur.1 - st.2.2)
  (st.1.addAssign ((ofNum cur.2).mul other_pow), other_pow, cur_pow)

/-- Friend `operator &`: composition `that(other(x))`. -/
def compose [Zero N] [One N] [Add N] [Mul N] [DecidableEq N]
    (that other : Polynomial N) : Polynomial N :=
  normalize_coef (that.coef_.foldl (composeStep other) (zero, ofNum 1, 0)).1

/-- Member `operator()`: evaluation at `x` with a running power. The state
of the loop is `(ans, px)`. -/
def eval [Zero N] [One N] [Add N] [Mul N] (p : Polynomial N) (x : N) : N :=
  ((List.range (p.Degree + 1).toNat).foldl
    (fun (st : N × N) i => (st.1 + st.2 * p.coefficient i, st.2 * x)) (0, 1)).1

/-- The expression `(--end())->second`: the value of the last entry. The
source only evaluates it on a nonempty map; on the empty map (undefined
behaviour in C++) the model returns zero. -/
def leading [Zero N] (p : Polynomial N) : N :=
  match p.coef_.getLast? with
  | none => 0
  | some kv => kv.2

/-- The statement `coef_.erase(--coef_.end())`: drop the last entry. -/
def eraseLast (p : Polynomial N) : Polynomial N :=
  ⟨p.coef_.dropLast⟩

/-- The body of the `while` loop of `divmod`, on the state `(*this, div)`. -/
def divmodStep [Zero N] [Add N] [Sub N] [Mul N] [DecidableEq N] (dv : N → N → N)
    (other : Polynomial N) (st : Polynomial N × Polynomial N) :
    Polynomial N × Polynomial N :=
  let old_rem_deg := st.1.Degree
  let cur_coef := dv st.1.leading other.leading
  let cur_deg := st.1.Degree - other.Degree
  let factor : Polynomial N := ⟨assign (zero : Polynomial N).coef_ cur_deg.toNat cur_coef⟩
  let div := st.2.addAssign factor
  let this := st.1.subAssign (other.mul factor)
  (if this.Degree = old_rem_deg then this.eraseLast else this, div)

/-- The `while (this->Degree() >= other.Degree())` loop of `divmod` with an
iteration budget: `none` when the budget runs out before the loop exits. -/
def divmodLoop [Zero N] [Add N] [Sub N] [Mul N] [DecidableEq N] (dv : N → N → N)
    (other : Polynomial N) :
    Nat → Polynomial N × Polynomial N → Option (Polynomial N × Polynomial N)
  | 0, st => if st.1.Degree ≥ other.Degree then none else some st
  | fuel + 1, st =>
    if st.1.Degree ≥ other.Degree then divmodLoop dv other fuel (divmodStep dv other st)
    else some st

/-- Private member `divmod`. The result is the pair (returned quotient,
value left in `*this`), or `none` when the loop budget is exhausted. -/
def divmod [Zero N] [Add N] [Sub N] [Mul N] [DecidableEq N] (dv : N → N → N)
    (fuel : Nat) (this other : Polynomial N) : Option (Polynomial N × Polynomial N) :=
  if other.Degree = -1 then some (zero, this)
  else
    match divmodLoop dv other fuel (this, zero) with
    | none => none
    | some st => some (st.2.normalize_coef, st.1.normalize_coef)

/-- Friend `operator /` (and member `operator /=`, which assigns it to
`*this`): the polynomial returned by `divmod`. -/
def div [Zero N] [Add N] [Sub N] [Mul N] [DecidableEq N] (dv : N → N → N)
    (fuel : Nat) (that other : Polynomial N) : Option (Polynomial N) :=
  (divmod dv fuel that other).map Prod.fst

/-- Friend `operator %` (and member `operator %=`): the value `divmod`
leaves in the dividend. -/
def mod [Zero N] [Add N] [Sub N] [Mul N] [DecidableEq N] (dv : N → N → N)
    (fuel : Nat) (that other : Polynomial N) : Option (Polynomial N) :=
  (divmod dv fuel that other).map Prod.snd

/-- The `while (other.Degree() != -1)` loop of `operator ,` on the state
`(that, other)`: swap, then `other.divmod(that)`.  `inner` is the budget of
each `divmod` call, the first argument the budget of this loop. -/
def gcdLoop [Zero N] [Add N] [Sub N] [Mul N] [DecidableEq N] (dv : N → N → N)
    (inner : Nat) : Nat → Polynomial N → Polynomial N → Option (Polynomial N)
  | 0, that, other => if other.Degree ≠ -1 then none else some that
  | fuel + 1, that, other =>
    if other.Degree ≠ -1 then
      match divmod dv inner that other with
      | none => none
      | some qr => gcdLoop dv inner fuel other qr.2
    else some that

/-- The tail of `operator ,`: divide every stored value by the leading one. -/
def makeMonic [Zero N] (dv : N → N → N) (that : Polynomial N) : Polynomial N :=
  if that.Degree ≠ -1 then
    let c := that.leading
    ⟨that.coef_.map (fun x => (x.1, dv x.2 c))⟩
  else that

/-- Member `operator ,`: the monic greatest common divisor. -/
def gcd [Zero N] [Add N] [Sub N] [Mul N] [DecidableEq N] (dv : N → N → N)
    (fuel : Nat) (this other : Polynomial N) : Option (Polynomial N) :=
  (gcdLoop dv fuel fuel this other).map (makeMonic dv)

/-- The loop body of `operator <<` for the entry `kv` (`power = kv.1`,
`cur = kv.2`) with the carrier `int`: the text it writes, given the current
value of the local string `plus_`. -/
def printTerm (plus_ : String) (kv : Nat × Int) : String :=
  let power := kv.1
  let sign := if kv.2 > 0 then plus_ else "-"
  let cur := if kv.2 > 0 then kv.2 else -kv.2
  let coefText := if cur ≠ 1 then toString cur ++ (if power > 0 then "*" else "") else ""
  let oneText := if cur = 1 ∧ power = 0 then toString cur else ""
  let varText :=
    if power > 0 then "x" ++ (if power > 1 then "^" ++ toString power else "") else ""
  sign ++ coefText ++ oneText ++ varText

/-- The `for` loop of `operator <<` over the entries from `crbegin()` to
`crend()`; the state is the local string `plus_` and the text written so
far. -/
def printLoop : List (Nat × Int) → String → String → String
  | [], _, out => out
  | kv :: rest, plus_, out => printLoop rest "+" (out ++ printTerm plus_ kv)

/-- Friend `operator <<` with the carrier `int`: the text written to the
stream. -/
def print (p : Polynomial Int) : String :=
  let out := printLoop p.coef_.reverse "" ""
  if p.Degree = -1 then out ++ toString (0 : Int) else out

/-- The loop body of `divmod` with the degeneracy guard (the `if` that erases
the last entry) removed, for comparison with `divmodStep`. -/
def divmodStepNoGuard [Zero N] [Add N] [Sub N] [Mul N] [DecidableEq N] (dv : N → N → N)
    (other : Polynomial N) (st : Polynomial N × Polynomial N) :
    Polynomial N × Polynomial N :=
  let cur_coef := dv st.1.leading other.leading
  let cur_deg := st.1.Degree - other.Degree
  let factor : Polynomial N := ⟨assign (zero : Polynomial N).coef_ cur_deg.toNat cur_coef⟩
  let div := st.2.addAssign factor
  let this := st.1.subAssign (other.mul factor)
  (this, div)

/-- The loop of `divmod` with the guard removed. -/
def divmodLoopNoGuard [Zero N] [Add N] [Sub N] [Mul N] [DecidableEq N] (dv : N → N → N)
    (other : Polynomial N) :
    Nat → Polynomial N × Polynomial N → Option (Polynomial N × Polynomial N)
  | 0, st => if st.1.Degree ≥ other.Degree then none else some st
  | fuel + 1, st =>
    if st.1.Degree ≥ other.Degree then
      divmodLoopNoGuard dv other fuel (divmodStepNoGuard dv other st)
    else some st

/-- Member `divmod` with the guard removed from its loop. -/
def divmodNoGuard [Zero N] [Add N] [Sub N] [Mul N] [DecidableEq N] (dv : N → N → N)
    (fuel : Nat) (this other : Polynomial N) : Option (Polynomial N × Polynomial N) :=
  if other.Degree = -1 then some (zero, this)
  else
    match divmodLoopNoGuard dv other fuel (this, zero) with
    | none => none
    | some st => some (st.2.normalize_coef, st.1.normalize_coef)

/-- The text of one term as the specification words it: the sign (`-` for a
negative coefficient, `+` for a positive one that is not the first term,
nothing for a positive first term), then with `m` the absolute value and `e`
the exponent: the decimal of `m` followed by `*` when `e > 0` if `m ≠ 1`, or
`1` if `m = 1` and `e = 0`; then `x` if `e > 0`; then `^` and the decimal of
`e` if `e > 1`. -/
def printSpecTerm (isFirst : Bool) (kv : Nat × Int) : String :=
  let m := kv.2.natAbs
  let e := kv.1
  (if kv.2 < 0 then "-" else if isFirst = false then "+" else "") ++
    (if m ≠ 1 then toString m ++ (if e > 0 then "*" else "")
      else if e = 0 then "1" else "") ++
    (if e > 0 then "x" else "") ++
    (if e > 1 then "^" ++ toString e else "")

/-- The rendering as the specification words it: `0` for the zero
polynomial, else the terms in descending exponent order, concatenated. -/
def printSpec (p : Polynomial Int) : String :=
  match p.coef_.reverse with
  | [] => "0"
  | kv :: rest =>
    printSpecTerm true kv ++ (rest.map (printSpecTerm false)).foldr (fun s acc => s ++ acc) ""

end Polynomial

end PolySparse

namespace PolySparseSpec

/-- The abstraction relation used in the proofs: the sparse value `p`
represents the mathematical polynomial `P` when `operator[]` of `p` gives the
coefficients of `P`. -/
def Represents {N : Type} [Semiring N] (p : PolySparse.Polynomial N) (P : Polynomial N) : Prop :=
  ∀ i : Nat, P.coeff i = p.coefficient i

end PolySparseSpec

namespace PolySparseSpec

open PolySparse (find assign slot Asc)

/-! ## Facts about the coefficient map -/

section MapFacts

variable {N : Type}

theorem assign_cons_lt {k i : Nat} (h : i < k) (w v : N) (t : List (Nat × N)) :
    assign ((k, w) :: t) i v = (i, v) :: (k, w) :: t := by
  simp [assign, h]

theorem assign_cons_eq (k : Nat) (w v : N) (t : List (Nat × N)) :
    assign ((k, w) :: t) k v = (k, v) :: t := by
  simp [assign]

theorem assign_cons_gt {k i : Nat} (h : k < i) (w v : N) (t : List (Nat × N)) :
    assign ((k, w) :: t) i v = (k, w) :: assign t i v := by
  have h1 : ¬ i < k := not_lt.2 (le_of_lt h)
  have h2 : ¬ i = k := ne_of_gt h
  simp [assign, h1, h2]

theorem find_cons_self (k : Nat) (w : N) (t : List (Nat × N)) :
    find ((k, w) :: t) k = some w := by
  simp [find]

theorem find_cons_ne {k j : Nat} (h : j ≠ k) (w : N) (t : List (Nat × N)) :
    find ((k, w) :: t) j = find t j := by
  simp [find, h]

theorem find_assign (m : List (Nat × N)) (i : Nat) (v : N) (j : Nat) :
    find (assign m i v) j = if j = i then some v else find m j := by
  induction m with
  | nil =>
    by_cases h : j = i
    · subst h; simp [assign, find]
    · simp [assign, find, h]
  | cons hd t ih =>
    obtain ⟨k, w⟩ := hd
    rcases lt_trichotomy i k with h1 | h1 | h1
    · rw [assign_cons_lt h1]
      by_cases h : j = i
      · subst h; simp [find_cons_self]
      · rw [find_cons_ne h, if_neg h]
    · subst h1
      rw [assign_cons_eq]
      by_cases h : j = i
      · subst h; simp [find_cons_self]
      · rw [find_cons_ne h, find_cons_ne h, if_neg h]
    · rw [assign_cons_gt h1]
      by_cases h : j = k
      · subst h
        rw [find_cons_self, find_cons_self, if_neg (ne_of_lt h1)]
      · rw [find_cons_ne h, find_cons_ne h, ih]

theorem slot_assign [Zero N] (m : List (Nat × N)) (i : Nat) (v : N) (j : Nat) :
    slot (assign m i v) j = if j = i then v else slot m j := by
  unfold slot
  rw [find_assign]
  by_cases h : j = i <;> simp [h]

theorem mem_assign {m : List (Nat × N)} {i : Nat} {v : N} {kv : Nat × N}
    (h : kv ∈ assign m i v) : kv = (i, v) ∨ kv ∈ m := by
  induction m with
  | nil => simpa [assign] using h
  | cons hd t ih =>
    obtain ⟨k, w⟩ := hd
    rcases lt_trichotomy i k with h1 | h1 | h1
    · rw [assign_cons_lt h1] at h
      rcases List.mem_cons.1 h with h | h
      · exact Or.inl h
      · exact Or.inr h
    · subst h1
      rw [assign_cons_eq] at h
      rcases List.mem_cons.1 h with h | h
      · exact Or.inl h
      · exact Or.inr (List.mem_cons_of_mem _ h)
    · rw [assign_cons_gt h1] at h
      rcases List.mem_cons.1 h with h | h
      · exact Or.inr (h ▸ List.mem_cons_self _ _)
      · rcases ih h with h | h
        · exact Or.inl h
        · exact Or.inr (List.mem_cons_of_mem _ h)

theorem asc_assign {m : List (Nat × N)} (hm : Asc m) (i : Nat) (v : N) :
    Asc (assign m i v) := by
  induction m with
  | nil => simp [assign]
  | cons hd t ih =>
    obtain ⟨k, w⟩ := hd
    have hm2 := List.pairwise_cons.1 hm
    rcases lt_trichotomy i k with h1 | h1 | h1
    · rw [assign_cons_lt h1]
      refine List.pairwise_cons.2 ⟨?_, hm⟩
      intro a ha
      rcases List.mem_cons.1 ha with ha | ha
      · subst ha; exact h1
      · exact lt_trans h1 (hm2.1 a ha)
    · subst h1
      rw [assign_cons_eq]
      exact List.pairwise_cons.2 ⟨fun a ha => hm2.1 a ha, hm2.2⟩
    · rw [assign_cons_gt h1]
      refine List.pairwise_cons.2 ⟨?_, ih hm2.2⟩
      intro a ha
      rcases mem_assign ha with ha | ha
      · subst ha; exact h1
      · exact hm2.1 a ha

theorem find_eq_none_of_not_mem {m : List (Nat × N)} {j : Nat}
    (h : ∀ kv ∈ m, kv.1 ≠ j) : find m j = none := by
  induction m with
  | nil => rfl
  | cons hd t ih =>
    obtain ⟨k, w⟩ := hd
    have hk : k ≠ j := h (k, w) (List.mem_cons_self _ _)
    rw [find_cons_ne (Ne.symm hk)]
    exact ih (fun kv hkv => h kv (List.mem_cons_of_mem _ hkv))

theorem find_eq_none_of_lt {m : List (Nat × N)} {j : Nat}
    (h : ∀ kv ∈ m, j < kv.1) : find m j = none :=
  find_eq_none_of_not_mem (fun kv hkv => ne_of_gt (h kv hkv))

theorem mem_of_find {m : List (Nat × N)} {j : Nat} {v : N}
    (h : find m j = some v) : (j, v) ∈ m := by
  induction m with
  | nil => simp [find] at h
  | cons hd t ih =>
    obtain ⟨k, w⟩ := hd
    by_cases hk : j = k
    · subst hk
      rw [find_cons_self] at h
      cases h
      exact List.mem_cons_self _ _
    · rw [find_cons_ne hk] at h
      exact List.mem_cons_of_mem _ (ih h)

theorem find_of_mem {m : List (Nat × N)} (hm : Asc m) {j : Nat} {v : N}
    (h : (j, v) ∈ m) : find m j = some v := by
  induction m with
  | nil => simp at h
  | cons hd t ih =>
    obtain ⟨k, w⟩ := hd
    have hm2 := List.pairwise_cons.1 hm
    rcases List.mem_cons.1 h with h | h
    · cases h; exact find_cons_self _ _ _
    · have : k < j := hm2.1 _ h
      rw [find_cons_ne (ne_of_gt this)]
      exact ih hm2.2 h

theorem slot_cons_self [Zero N] (k : Nat) (w : N) (t : List (Nat × N)) :
    slot ((k, w) :: t) k = w := by
  simp [slot, find_cons_self]

theorem slot_cons_ne [Zero N] {k j : Nat} (h : j ≠ k) (w : N) (t : List (Nat × N)) :
    slot ((k, w) :: t) j = slot t j := by
  simp [slot, find_cons_ne h]

theorem slot_eq_zero_of_lt [Zero N] {m : List (Nat × N)} {j : Nat}
    (h : ∀ kv ∈ m, j < kv.1) : slot m j = 0 := by
  simp [slot, find_eq_none_of_lt h]

theorem slot_filter [Zero N] [DecidableEq N] {m : List (Nat × N)} (hm : Asc m) (j : Nat) :
    slot (m.filter (fun kv => decide (¬ kv.2 = 0))) j = slot m j := by
  induction m with
  | nil => rfl
  | cons hd t ih =>
    obtain ⟨k, w⟩ := hd
    have hm2 := List.pairwise_cons.1 hm
    have ih := ih hm2.2
    by_cases hw : w = 0
    · rw [List.filter_cons_of_neg (by simp [hw]), ih]
      by_cases hj : j = k
      · subst hj
        rw [slot_cons_self, hw]
        exact slot_eq_zero_of_lt hm2.1
      · rw [slot_cons_ne hj]
    · rw [List.filter_cons_of_pos (by simp [hw])]
      by_cases hj : j = k
      · subst hj
        rw [slot_cons_self, slot_cons_self]
      · rw [slot_cons_ne hj, slot_cons_ne hj, ih]

end MapFacts

end PolySparseSpec

namespace PolySparseSpec

open PolySparse (find assign slot Asc)

/-! ## Facts about `Degree`, `operator[]` and `normalize_coef` -/

section DegreeFacts

variable {N : Type}

theorem coefficient_eq_slot [Zero N] (p : PolySparse.Polynomial N) (i : Nat) :
    p.coefficient i = slot p.coef_ i := rfl

theorem Degree_nil : (⟨[]⟩ : PolySparse.Polynomial N).Degree = -1 := rfl

theorem Degree_concat (ys : List (Nat × N)) (k : Nat) (v : N) :
    (⟨ys ++ [(k, v)]⟩ : PolySparse.Polynomial N).Degree = (k : Int) := by
  simp [PolySparse.Polynomial.Degree, List.getLast?_concat]

theorem leading_concat [Zero N] (ys : List (Nat × N)) (k : Nat) (v : N) :
    (⟨ys ++ [(k, v)]⟩ : PolySparse.Polynomial N).leading = v := by
  simp [PolySparse.Polynomial.leading, List.getLast?_concat]

theorem coef_cases (p : PolySparse.Polynomial N) :
    p.coef_ = [] ∨ ∃ ys k v, p.coef_ = ys ++ [(k, v)] := by
  rcases List.eq_nil_or_concat p.coef_ with h | ⟨L, b, h⟩
  · exact Or.inl h
  · exact Or.inr ⟨L, b.1, b.2, by simpa using h⟩

theorem Degree_ge (p : PolySparse.Polynomial N) : -1 ≤ p.Degree := by
  obtain ⟨m⟩ := p
  rcases coef_cases ⟨m⟩ with h | ⟨ys, k, v, h⟩
  · simp only at h; subst h; simp [Degree_nil]
  · simp only at h; subst h; rw [Degree_concat]; omega

theorem Degree_eq_neg_one_iff (p : PolySparse.Polynomial N) :
    p.Degree = -1 ↔ p.coef_ = [] := by
  obtain ⟨m⟩ := p
  rcases coef_cases ⟨m⟩ with h | ⟨ys, k, v, h⟩
  · simp only at h; subst h; simp [Degree_nil]
  · simp only at h; subst h
    rw [Degree_concat]
    constructor
    · intro h; omega
    · intro h; simp at h

theorem Degree_le_of_keys {p : PolySparse.Polynomial N} {d : Int} (hd : -1 ≤ d)
    (h : ∀ kv ∈ p.coef_, (kv.1 : Int) ≤ d) : p.Degree ≤ d := by
  obtain ⟨m⟩ := p
  rcases coef_cases ⟨m⟩ with h0 | ⟨ys, k, v, h0⟩
  · simp only at h0; subst h0; simpa [Degree_nil] using hd
  · simp only at h0; subst h0
    rw [Degree_concat]
    exact h (k, v) (by simp)

theorem key_le_Degree {p : PolySparse.Polynomial N} (hp : p.ordered) {kv : Nat × N}
    (h : kv ∈ p.coef_) : (kv.1 : Int) ≤ p.Degree := by
  obtain ⟨m⟩ := p
  rcases coef_cases ⟨m⟩ with h0 | ⟨ys, k, v, h0⟩
  · simp only at h0; subst h0; simp at h
  · simp only at h0; subst h0
    rw [Degree_concat]
    have hp2 := List.pairwise_append.1 hp
    rcases List.mem_append.1 h with h | h
    · have := hp2.2.2 kv h (k, v) (by simp)
      exact_mod_cast le_of_lt this
    · simp at h; subst h; simp

theorem coefficient_eq_zero_of_Degree_lt [Zero N] {p : PolySparse.Polynomial N}
    (hp : p.ordered) {i : Nat} (h : p.Degree < (i : Int)) : p.coefficient i = 0 := by
  unfold PolySparse.Polynomial.coefficient
  rw [find_eq_none_of_not_mem]
  intro kv hkv hi
  have := key_le_Degree hp hkv
  rw [hi] at this
  omega

theorem coefficient_Degree [Zero N] {p : PolySparse.Polynomial N} (hp : p.ordered)
    (h : p.coef_ ≠ []) : p.coefficient p.Degree.toNat = p.leading := by
  obtain ⟨m⟩ := p
  rcases coef_cases ⟨m⟩ with h0 | ⟨ys, k, v, h0⟩
  · exact absurd h0 h
  · simp only at h0; subst h0
    rw [Degree_concat, leading_concat]
    unfold PolySparse.Polynomial.coefficient
    rw [find_of_mem hp (by simp : ((k : Int).toNat, v) ∈ ys ++ [(k, v)])]

theorem leading_ne_zero [Zero N] {p : PolySparse.Polynomial N} (hz : p.noZero)
    (h : p.coef_ ≠ []) : p.leading ≠ 0 := by
  obtain ⟨m⟩ := p
  rcases coef_cases ⟨m⟩ with h0 | ⟨ys, k, v, h0⟩
  · exact absurd h0 h
  · simp only at h0; subst h0
    rw [leading_concat]
    exact hz (k, v) (by simp)

theorem ordered_eraseLast {p : PolySparse.Polynomial N} (hp : p.ordered) :
    p.eraseLast.ordered :=
  List.Pairwise.sublist (List.dropLast_sublist _) hp

theorem Degree_eraseLast_lt {p : PolySparse.Polynomial N} (hp : p.ordered)
    (h : p.coef_ ≠ []) : p.eraseLast.Degree < p.Degree := by
  obtain ⟨m⟩ := p
  rcases coef_cases ⟨m⟩ with h0 | ⟨ys, k, v, h0⟩
  · exact absurd h0 h
  · simp only at h0; subst h0
    have hp2 := List.pairwise_append.1 hp
    have he : (⟨ys ++ [(k, v)]⟩ : PolySparse.Polynomial N).eraseLast = ⟨ys⟩ := by
      simp [PolySparse.Polynomial.eraseLast]
    rw [he, Degree_concat]
    have : (⟨ys⟩ : PolySparse.Polynomial N).Degree ≤ (k : Int) - 1 := by
      apply Degree_le_of_keys (by omega)
      intro kv hkv
      have := hp2.2.2 kv hkv (k, v) (by simp)
      have : kv.1 < k := this
      omega
    omega

theorem noZero_eraseLast [Zero N] {p : PolySparse.Polynomial N} (hz : p.noZero) :
    p.eraseLast.noZero :=
  fun kv hkv => hz kv (List.mem_of_mem_dropLast hkv)

theorem ordered_normalize [Zero N] [DecidableEq N] {p : PolySparse.Polynomial N}
    (hp : p.ordered) : p.normalize_coef.ordered :=
  List.Pairwise.filter _ hp

theorem noZero_normalize [Zero N] [DecidableEq N] (p : PolySparse.Polynomial N) :
    p.normalize_coef.noZero := by
  intro kv hkv
  have := (List.mem_filter.1 hkv).2
  simpa using this

theorem normalize_of_noZero [Zero N] [DecidableEq N] {p : PolySparse.Polynomial N}
    (hz : p.noZero) : p.normalize_coef = p := by
  obtain ⟨m⟩ := p
  unfold PolySparse.Polynomial.normalize_coef
  congr 1
  apply List.filter_eq_self.2
  intro kv hkv
  simpa using hz kv hkv

theorem coefficient_normalize [Zero N] [DecidableEq N] {p : PolySparse.Polynomial N}
    (hp : p.ordered) (i : Nat) : p.normalize_coef.coefficient i = p.coefficient i :=
  slot_filter hp i

theorem mem_normalize [Zero N] [DecidableEq N] {p : PolySparse.Polynomial N}
    {kv : Nat × N} (h : kv ∈ p.normalize_coef.coef_) : kv ∈ p.coef_ :=
  (List.mem_filter.1 h).1

theorem Degree_normalize_le [Zero N] [DecidableEq N] (p : PolySparse.Polynomial N)
    (hp : p.ordered) : p.normalize_coef.Degree ≤ p.Degree :=
  Degree_le_of_keys (Degree_ge p) (fun _ hkv => key_le_Degree hp (mem_normalize hkv))

/-- Two ordered maps without stored zeros that give the same coefficients
are the same list. -/
theorem asc_ext [Zero N] {m₁ m₂ : List (Nat × N)} (h₁ : Asc m₁) (h₂ : Asc m₂)
    (z₁ : ∀ kv ∈ m₁, kv.2 ≠ 0) (z₂ : ∀ kv ∈ m₂, kv.2 ≠ 0)
    (h : ∀ j, slot m₁ j = slot m₂ j) : m₁ = m₂ := by
  induction m₁ generalizing m₂ with
  | nil =>
    cases m₂ with
    | nil => rfl
    | cons hd t =>
      obtain ⟨k, w⟩ := hd
      have := h k
      rw [slot_cons_self] at this
      exact absurd this.symm (z₂ (k, w) (by simp))
  | cons hd t ih =>
    obtain ⟨k, w⟩ := hd
    have h₁' := List.pairwise_cons.1 h₁
    cases m₂ with
    | nil =>
      have := h k
      rw [slot_cons_self] at this
      exact absurd this (z₁ (k, w) (by simp))
    | cons hd' t' =>
      obtain ⟨k', w'⟩ := hd'
      have h₂' := List.pairwise_cons.1 h₂
      rcases lt_trichotomy k k' with hk | hk | hk
      · have := h k
        rw [slot_cons_self, slot_eq_zero_of_lt] at this
        · exact absurd this (z₁ (k, w) (by simp))
        · intro kv hkv
          rcases List.mem_cons.1 hkv with e | e
          · subst e; exact hk
          · exact lt_trans hk (h₂'.1 kv e)
      · subst hk
        have hw := h k
        rw [slot_cons_self, slot_cons_self] at hw
        subst hw
        have : t = t' := by
          apply ih h₁'.2 h₂'.2 (fun kv hkv => z₁ kv (List.mem_cons_of_mem _ hkv))
            (fun kv hkv => z₂ kv (List.mem_cons_of_mem _ hkv))
          intro j
          by_cases hj : j = k
          · subst hj
            rw [slot_eq_zero_of_lt h₁'.1, slot_eq_zero_of_lt h₂'.1]
          · have := h j
            rwa [slot_cons_ne hj, slot_cons_ne hj] at this
        rw [this]
      · have := h k'
        rw [slot_cons_self, slot_eq_zero_of_lt] at this
        · exact absurd this.symm (z₂ (k', w') (by simp))
        · intro kv hkv
          rcases List.mem_cons.1 hkv with e | e
          · subst e; exact hk
          · exact lt_trans hk (h₁'.1 kv e)

theorem polynomial_ext [Zero N] {a b : PolySparse.Polynomial N} (ha : a.ordered)
    (hb : b.ordered) (za : a.noZero) (zb : b.noZero)
    (h : ∀ i, a.coefficient i = b.coefficient i) : a = b := by
  obtain ⟨m₁⟩ := a
  obtain ⟨m₂⟩ := b
  congr 1
  exact asc_ext ha hb za zb h

end DegreeFacts

end PolySparseSpec

namespace PolySparseSpec

open PolySparse (find assign slot Asc)

/-! ## The accumulation loops -/

section Loops

variable {N : Type}

theorem asc_foldl_assign (g : Nat → Nat) (u : List (Nat × N) → Nat → N) (l : List Nat)
    {m : List (Nat × N)} (hm : Asc m) :
    Asc (l.foldl (fun m i => assign m (g i) (u m i)) m) := by
  induction l generalizing m with
  | nil => exact hm
  | cons i t ih => exact ih (asc_assign hm _ _)

theorem key_foldl_assign (g : Nat → Nat) (u : List (Nat × N) → Nat → N) (l : List Nat)
    {m : List (Nat × N)} {kv : Nat × N}
    (h : kv ∈ l.foldl (fun m i => assign m (g i) (u m i)) m) :
    (∃ kv' ∈ m, kv'.1 = kv.1) ∨ ∃ i ∈ l, g i = kv.1 := by
  induction l generalizing m with
  | nil => exact Or.inl ⟨kv, h, rfl⟩
  | cons i t ih =>
    rcases ih h with ⟨kv', hkv', e⟩ | ⟨i', hi', e⟩
    · rcases mem_assign hkv' with h1 | h1
      · right
        refine ⟨i, List.mem_cons_self _ _, ?_⟩
        rw [← e, h1]
      · exact Or.inl ⟨kv', h1, e⟩
    · exact Or.inr ⟨i', List.mem_cons_of_mem _ hi', e⟩

theorem slot_foldl_range [AddCommMonoid N] (g : Nat → Nat) (f : Nat → N) (n : Nat)
    (m : List (Nat × N)) (k : Nat) :
    slot ((List.range n).foldl (fun m i => assign m (g i) (slot m (g i) + f i)) m) k
      = slot m k + ∑ i ∈ Finset.range n, if g i = k then f i else 0 := by
  induction n with
  | zero => simp
  | succ n ih =>
    rw [List.range_succ, List.foldl_append, Finset.sum_range_succ]
    simp only [List.foldl_cons, List.foldl_nil]
    rw [slot_assign]
    by_cases h : k = g n
    · subst h
      rw [if_pos rfl, if_pos rfl, ih, add_assoc]
    · rw [if_neg h, if_neg (Ne.symm h), ih, add_zero]

theorem zero_coef [Zero N] [DecidableEq N] :
    (PolySparse.Polynomial.zero : PolySparse.Polynomial N).coef_ = [] := by
  simp [PolySparse.Polynomial.zero, PolySparse.Polynomial.ofNum,
    PolySparse.Polynomial.ofVector, PolySparse.Polynomial.ofIter,
    PolySparse.Polynomial.ofIterLoop, PolySparse.Polynomial.normalize_coef, assign]

theorem zero_eq [Zero N] [DecidableEq N] :
    (PolySparse.Polynomial.zero : PolySparse.Polynomial N) = ⟨[]⟩ := by
  have := zero_coef (N := N)
  cases h : (PolySparse.Polynomial.zero : PolySparse.Polynomial N) with
  | mk m => rw [h] at this; simpa using this

theorem ordered_nil : (⟨[]⟩ : PolySparse.Polynomial N).ordered := List.Pairwise.nil

theorem noZero_nil [Zero N] : (⟨[]⟩ : PolySparse.Polynomial N).noZero := by
  intro kv hkv; simp at hkv

theorem ordered_zero [Zero N] [DecidableEq N] :
    (PolySparse.Polynomial.zero : PolySparse.Polynomial N).ordered := by
  rw [zero_eq]; exact ordered_nil

theorem noZero_zero [Zero N] [DecidableEq N] :
    (PolySparse.Polynomial.zero : PolySparse.Polynomial N).noZero := by
  rw [zero_eq]; exact noZero_nil

theorem coefficient_nil [Zero N] (i : Nat) :
    (⟨[]⟩ : PolySparse.Polynomial N).coefficient i = 0 := rfl

/-! ### `+=` and `-=` for an arbitrary carrier: shape of the result -/

theorem ordered_addAssign [Zero N] [Add N] [DecidableEq N]
    {a : PolySparse.Polynomial N} (b : PolySparse.Polynomial N) (ha : a.ordered) :
    (a.addAssign b).ordered :=
  ordered_normalize (asc_foldl_assign id _ _ ha)

theorem ordered_subAssign [Zero N] [Sub N] [DecidableEq N]
    {a : PolySparse.Polynomial N} (b : PolySparse.Polynomial N) (ha : a.ordered) :
    (a.subAssign b).ordered :=
  ordered_normalize (asc_foldl_assign id _ _ ha)

theorem ordered_mul [Zero N] [Add N] [Mul N] [DecidableEq N]
    (a b : PolySparse.Polynomial N) : (a.mul b).ordered := by
  apply ordered_normalize
  show Asc _
  rw [zero_coef]
  generalize (List.range (b.Degree + 1).toNat) = l
  have : ∀ (m : List (Nat × N)), Asc m → Asc (l.foldl (fun m j =>
      (List.range (a.Degree + 1).toNat).foldl
        (fun m i => assign m (i + j) (slot m (i + j) + a.coefficient i * b.coefficient j)) m) m) := by
    induction l with
    | nil => intro m hm; exact hm
    | cons j t ih =>
      intro m hm
      exact ih _ (asc_foldl_assign (fun i => i + j) _ _ hm)
  exact this [] List.Pairwise.nil

theorem noZero_addAssign [Zero N] [Add N] [DecidableEq N]
    (a b : PolySparse.Polynomial N) : (a.addAssign b).noZero :=
  noZero_normalize _

theorem noZero_subAssign [Zero N] [Sub N] [DecidableEq N]
    (a b : PolySparse.Polynomial N) : (a.subAssign b).noZero :=
  noZero_normalize _

theorem noZero_mul [Zero N] [Add N] [Mul N] [DecidableEq N]
    (a b : PolySparse.Polynomial N) : (a.mul b).noZero :=
  noZero_normalize _

/-- Every key of `a -= b` is a key of `a` or at most `Degree b`. -/
theorem key_subAssign [Zero N] [Sub N] [DecidableEq N]
    {a b : PolySparse.Polynomial N} {kv : Nat × N} (h : kv ∈ (a.subAssign b).coef_) :
    (∃ kv' ∈ a.coef_, kv'.1 = kv.1) ∨ (kv.1 : Int) ≤ b.Degree := by
  rcases key_foldl_assign id _ _ (mem_normalize h) with h1 | ⟨i, hi, e⟩
  · exact Or.inl h1
  · right
    have := List.mem_range.1 hi
    simp only [id] at e
    omega

theorem key_addAssign [Zero N] [Add N] [DecidableEq N]
    {a b : PolySparse.Polynomial N} {kv : Nat × N} (h : kv ∈ (a.addAssign b).coef_) :
    (∃ kv' ∈ a.coef_, kv'.1 = kv.1) ∨ (kv.1 : Int) ≤ b.Degree := by
  rcases key_foldl_assign id _ _ (mem_normalize h) with h1 | ⟨i, hi, e⟩
  · exact Or.inl h1
  · right
    have := List.mem_range.1 hi
    simp only [id] at e
    omega

/-- Every key of `a * b` is at most `Degree a + Degree b`. -/
theorem key_mul [Zero N] [Add N] [Mul N] [DecidableEq N]
    {a b : PolySparse.Polynomial N} {kv : Nat × N} (h : kv ∈ (a.mul b).coef_) :
    (kv.1 : Int) ≤ a.Degree + b.Degree := by
  have h := mem_normalize h
  simp only at h
  rw [zero_coef] at h
  have key : ∀ (l : List Nat) (m : List (Nat × N)),
      kv ∈ l.foldl (fun m j => (List.range (a.Degree + 1).toNat).foldl
        (fun m i => assign m (i + j) (slot m (i + j) + a.coefficient i * b.coefficient j)) m) m →
      (∃ kv' ∈ m, kv'.1 = kv.1) ∨
        ∃ j ∈ l, ∃ i ∈ List.range (a.Degree + 1).toNat, i + j = kv.1 := by
    intro l
    induction l with
    | nil => intro m hm; exact Or.inl ⟨kv, hm, rfl⟩
    | cons j t ih =>
      intro m hm
      rcases ih _ hm with ⟨kv', hkv', e⟩ | ⟨j', hj', i, hi, e⟩
      · rcases key_foldl_assign (fun i => i + j) _ _ hkv' with h1 | ⟨i, hi, e'⟩
        · obtain ⟨kv'', h2, e''⟩ := h1
          exact Or.inl ⟨kv'', h2, e''.trans e⟩
        · exact Or.inr ⟨j, List.mem_cons_self _ _, i, hi, e'.trans e⟩
      · exact Or.inr ⟨j', List.mem_cons_of_mem _ hj', i, hi, e⟩
  rcases key _ _ h with ⟨kv', hkv', _⟩ | ⟨j, hj, i, hi, e⟩
  · simp at hkv'
  · have h1 := List.mem_range.1 hj
    have h2 := List.mem_range.1 hi
    omega

end Loops

end PolySparseSpec

namespace PolySparseSpec

open PolySparse (find assign slot Asc)

/-! ## Coefficients of sums, differences and products -/

section RingFacts

variable {N : Type}

theorem asc_foldl_assign_id (u : List (Nat × N) → Nat → N) (l : List Nat)
    {m : List (Nat × N)} (hm : Asc m) :
    Asc (l.foldl (fun m i => assign m i (u m i)) m) :=
  asc_foldl_assign id u l hm

theorem slot_foldl_range_id [AddCommMonoid N] (f : Nat → N) (n : Nat)
    (m : List (Nat × N)) (k : Nat) :
    slot ((List.range n).foldl (fun m i => assign m i (slot m i + f i)) m) k
      = slot m k + if k < n then f k else 0 := by
  have := slot_foldl_range id f n m k
  simp only [id] at this
  rw [this, Finset.sum_ite_eq' (Finset.range n) k]
  simp

theorem coefficient_addAssign [AddCommMonoid N] [DecidableEq N]
    {a b : PolySparse.Polynomial N} (ha : a.ordered) (hb : b.ordered) (i : Nat) :
    (a.addAssign b).coefficient i = a.coefficient i + b.coefficient i := by
  unfold PolySparse.Polynomial.addAssign
  refine (coefficient_normalize (p := ⟨_⟩) (asc_foldl_assign_id _ _ ha) i).trans ?_
  rw [coefficient_eq_slot]
  simp only
  rw [slot_foldl_range_id (fun i => b.coefficient i), ← coefficient_eq_slot]
  by_cases h : i < (b.Degree + 1).toNat
  · rw [if_pos h]
  · rw [if_neg h, coefficient_eq_zero_of_Degree_lt hb]
    omega

theorem coefficient_subAssign [AddCommGroup N] [DecidableEq N]
    {a b : PolySparse.Polynomial N} (ha : a.ordered) (hb : b.ordered) (i : Nat) :
    (a.subAssign b).coefficient i = a.coefficient i - b.coefficient i := by
  unfold PolySparse.Polynomial.subAssign
  refine (coefficient_normalize (p := ⟨_⟩) (asc_foldl_assign_id _ _ ha) i).trans ?_
  rw [coefficient_eq_slot]
  simp only
  have e : (fun (m : List (Nat × N)) i => assign m i (slot m i - b.coefficient i))
      = (fun m i => assign m i (slot m i + (fun i => - b.coefficient i) i)) := by
    funext m i
    simp [sub_eq_add_neg]
  rw [e, slot_foldl_range_id (fun i => - b.coefficient i), ← coefficient_eq_slot]
  by_cases h : i < (b.Degree + 1).toNat
  · rw [if_pos h, sub_eq_add_neg]
  · rw [if_neg h, coefficient_eq_zero_of_Degree_lt hb]
    · simp
    · omega

theorem slot_mul_loop [Semiring N] (f g : Nat → N) (na nb : Nat) (m : List (Nat × N))
    (k : Nat) :
    slot ((List.range nb).foldl (fun m j => (List.range na).foldl
        (fun m i => assign m (i + j) (slot m (i + j) + f i * g j)) m) m) k
      = slot m k + ∑ j ∈ Finset.range nb, ∑ i ∈ Finset.range na,
          if i + j = k then f i * g j else 0 := by
  induction nb with
  | zero => simp
  | succ n ih =>
    rw [List.range_succ, List.foldl_append, Finset.sum_range_succ]
    simp only [List.foldl_cons, List.foldl_nil]
    rw [slot_foldl_range (fun i => i + n) (fun i => f i * g n), ih, add_assoc]

theorem coefficient_mul_sum [Semiring N] [DecidableEq N]
    (a b : PolySparse.Polynomial N) (k : Nat) :
    (a.mul b).coefficient k
      = ∑ j ∈ Finset.range (b.Degree + 1).toNat, ∑ i ∈ Finset.range (a.Degree + 1).toNat,
          if i + j = k then a.coefficient i * b.coefficient j else 0 := by
  have hord : (⟨(List.range (b.Degree + 1).toNat).foldl (fun m j =>
      (List.range (a.Degree + 1).toNat).foldl
        (fun m i => assign m (i + j) (slot m (i + j) + a.coefficient i * b.coefficient j)) m)
      (PolySparse.Polynomial.zero : PolySparse.Polynomial N).coef_⟩ :
        PolySparse.Polynomial N).ordered := by
    have := ordered_mul a b
    unfold PolySparse.Polynomial.mul at this
    rw [zero_coef]
    show Asc _
    generalize (List.range (b.Degree + 1).toNat) = l
    have : ∀ (m : List (Nat × N)), Asc m → Asc (l.foldl (fun m j =>
        (List.range (a.Degree + 1).toNat).foldl
          (fun m i => assign m (i + j) (slot m (i + j) + a.coefficient i * b.coefficient j)) m) m) := by
      induction l with
      | nil => intro m hm; exact hm
      | cons j t ih =>
        intro m hm
        exact ih _ (asc_foldl_assign (fun i => i + j) _ _ hm)
    exact this [] List.Pairwise.nil
  unfold PolySparse.Polynomial.mul
  rw [coefficient_normalize hord, coefficient_eq_slot]
  simp only
  rw [zero_coef, slot_mul_loop]
  simp [slot, find]

/-- A polynomial over `N` is the sum of its monomials below any bound past
which its coefficients vanish. -/
theorem poly_eq_sum_range [Semiring N] (P : Polynomial N) (n : Nat)
    (h : ∀ i, n ≤ i → P.coeff i = 0) :
    P = ∑ i ∈ Finset.range n, Polynomial.monomial i (P.coeff i) := by
  ext k
  rw [Polynomial.finset_sum_coeff]
  simp only [Polynomial.coeff_monomial]
  rw [Finset.sum_ite_eq' (Finset.range n) k]
  by_cases hk : k ∈ Finset.range n
  · rw [if_pos hk]
  · rw [if_neg hk]
    exact h k (not_lt.1 (Finset.mem_range.not.1 hk))

theorem represents_vanish [Semiring N] {p : PolySparse.Polynomial N} {P : Polynomial N}
    (hp : p.ordered) (h : Represents p P) (i : Nat) (hi : (p.Degree + 1).toNat ≤ i) :
    P.coeff i = 0 := by
  rw [h i]
  apply coefficient_eq_zero_of_Degree_lt hp
  omega

theorem represents_addAssign [Semiring N] [DecidableEq N]
    {a b : PolySparse.Polynomial N} {A B : Polynomial N} (ha : a.ordered) (hb : b.ordered)
    (hA : Represents a A) (hB : Represents b B) : Represents (a.addAssign b) (A + B) := by
  intro i
  rw [Polynomial.coeff_add, hA i, hB i, coefficient_addAssign ha hb]

theorem represents_subAssign [Ring N] [DecidableEq N]
    {a b : PolySparse.Polynomial N} {A B : Polynomial N} (ha : a.ordered) (hb : b.ordered)
    (hA : Represents a A) (hB : Represents b B) : Represents (a.subAssign b) (A - B) := by
  intro i
  rw [Polynomial.coeff_sub, hA i, hB i, coefficient_subAssign ha hb]

theorem represents_mul [Semiring N] [DecidableEq N]
    {a b : PolySparse.Polynomial N} {A B : Polynomial N} (ha : a.ordered) (hb : b.ordered)
    (hA : Represents a A) (hB : Represents b B) : Represents (a.mul b) (A * B) := by
  intro k
  rw [coefficient_mul_sum]
  conv_lhs =>
    rw [poly_eq_sum_range A _ (represents_vanish ha hA),
      poly_eq_sum_range B _ (represents_vanish hb hB), Finset.sum_mul_sum]
  rw [Polynomial.finset_sum_coeff, Finset.sum_comm]
  refine Finset.sum_congr rfl (fun j _ => ?_)
  rw [Polynomial.finset_sum_coeff]
  refine Finset.sum_congr rfl (fun i _ => ?_)
  rw [Polynomial.monomial_mul_monomial, Polynomial.coeff_monomial, hA, hB]

theorem represents_nil [Semiring N] : Represents (⟨[]⟩ : PolySparse.Polynomial N) 0 := by
  intro i; simp [coefficient_nil]

theorem represents_zero [Semiring N] [DecidableEq N] :
    Represents (PolySparse.Polynomial.zero : PolySparse.Polynomial N) 0 := by
  rw [zero_eq]; exact represents_nil

/-- Every ordered sparse value represents a polynomial. -/
theorem represents_exists [Semiring N] (p : PolySparse.Polynomial N) (hp : p.ordered) :
    ∃ P : Polynomial N, Represents p P := by
  refine ⟨∑ i ∈ Finset.range (p.Degree + 1).toNat, Polynomial.monomial i (p.coefficient i), ?_⟩
  intro k
  rw [Polynomial.finset_sum_coeff]
  simp only [Polynomial.coeff_monomial]
  rw [Finset.sum_ite_eq' (Finset.range (p.Degree + 1).toNat) k]
  by_cases hk : k ∈ Finset.range (p.Degree + 1).toNat
  · rw [if_pos hk]
  · rw [if_neg hk, coefficient_eq_zero_of_Degree_lt hp]
    have := Finset.mem_range.not.1 hk
    omega

theorem represents_unique [Semiring N] {p : PolySparse.Polynomial N} {P Q : Polynomial N}
    (hP : Represents p P) (hQ : Represents p Q) : P = Q := by
  ext i; rw [hP i, hQ i]

/-- Canonical values representing the same polynomial are structurally equal. -/
theorem eq_of_represents [Semiring N] {a b : PolySparse.Polynomial N} {P : Polynomial N}
    (ha : a.ordered) (hb : b.ordered) (za : a.noZero) (zb : b.noZero)
    (hA : Represents a P) (hB : Represents b P) : a = b :=
  polynomial_ext ha hb za zb (fun i => by rw [← hA i, ← hB i])

theorem represents_zero_iff [Semiring N] {p : PolySparse.Polynomial N} {P : Polynomial N}
    (hp : p.ordered) (zp : p.noZero) (h : Represents p P) : P = 0 ↔ p.coef_ = [] := by
  constructor
  · intro h0
    subst h0
    have := eq_of_represents hp ordered_nil zp noZero_nil h represents_nil
    rw [this]
  · intro h0
    obtain ⟨m⟩ := p
    simp only at h0
    subst h0
    exact represents_unique h represents_nil

end RingFacts

end PolySparseSpec

namespace PolySparseSpec

open PolySparse (find assign slot Asc)

/-! ## The long-division loop, for an arbitrary carrier -/

/-- The one-term polynomial `factor` built in the loop body of `divmod`. -/
theorem factor_eq {N : Type} [Zero N] [DecidableEq N] (n : Nat) (c : N) :
    (⟨assign (PolySparse.Polynomial.zero : PolySparse.Polynomial N).coef_ n c⟩ :
      PolySparse.Polynomial N) = ⟨[(n, c)]⟩ := by
  rw [zero_coef]; rfl

theorem Degree_single {N : Type} (n : Nat) (c : N) :
    (⟨[(n, c)]⟩ : PolySparse.Polynomial N).Degree = (n : Int) := rfl

theorem ordered_single {N : Type} (n : Nat) (c : N) :
    (⟨[(n, c)]⟩ : PolySparse.Polynomial N).ordered := List.pairwise_singleton _ _

section DivmodGeneral

variable {N : Type} [Zero N] [Add N] [Sub N] [Mul N] [DecidableEq N]

theorem divmodStep_snd (dv : N → N → N) (other : PolySparse.Polynomial N)
    (st : PolySparse.Polynomial N × PolySparse.Polynomial N) :
    (PolySparse.Polynomial.divmodStep dv other st).2
      = st.2.addAssign ⟨[((st.1.Degree - other.Degree).toNat,
          dv st.1.leading other.leading)]⟩ := by
  simp only [PolySparse.Polynomial.divmodStep, factor_eq]

theorem divmodStep_fst (dv : N → N → N) (other : PolySparse.Polynomial N)
    (st : PolySparse.Polynomial N × PolySparse.Polynomial N) :
    (PolySparse.Polynomial.divmodStep dv other st).1
      = if (st.1.subAssign (other.mul ⟨[((st.1.Degree - other.Degree).toNat,
            dv st.1.leading other.leading)]⟩)).Degree = st.1.Degree
        then (st.1.subAssign (other.mul ⟨[((st.1.Degree - other.Degree).toNat,
            dv st.1.leading other.leading)]⟩)).eraseLast
        else st.1.subAssign (other.mul ⟨[((st.1.Degree - other.Degree).toNat,
            dv st.1.leading other.leading)]⟩) := by
  simp only [PolySparse.Polynomial.divmodStep, factor_eq]

/-- Subtracting `other * factor` leaves no key above the old degree. -/
theorem Degree_sub_mul_le (dv : N → N → N) (other this : PolySparse.Polynomial N)
    (ht : this.ordered) (hge : this.Degree ≥ other.Degree) :
    (this.subAssign (other.mul ⟨[((this.Degree - other.Degree).toNat,
        dv this.leading other.leading)]⟩)).Degree ≤ this.Degree := by
  have ho := Degree_ge other
  apply Degree_le_of_keys (by omega)
  intro kv hkv
  rcases key_subAssign hkv with ⟨kv', hkv', e⟩ | h
  · rw [← e]; exact key_le_Degree ht hkv'
  · refine le_trans h ?_
    apply Degree_le_of_keys (by omega)
    intro kv2 hkv2
    have := key_mul hkv2
    rw [Degree_single] at this
    omega

theorem divmodStep_ordered (dv : N → N → N) (other : PolySparse.Polynomial N)
    (st : PolySparse.Polynomial N × PolySparse.Polynomial N)
    (h1 : st.1.ordered) (h2 : st.2.ordered) :
    (PolySparse.Polynomial.divmodStep dv other st).1.ordered ∧
      (PolySparse.Polynomial.divmodStep dv other st).2.ordered := by
  rw [divmodStep_fst, divmodStep_snd]
  refine ⟨?_, ordered_addAssign _ h2⟩
  split
  · exact ordered_eraseLast (ordered_subAssign _ h1)
  · exact ordered_subAssign _ h1

theorem divmodStep_noZero (dv : N → N → N) (other : PolySparse.Polynomial N)
    (st : PolySparse.Polynomial N × PolySparse.Polynomial N) :
    (PolySparse.Polynomial.divmodStep dv other st).1.noZero ∧
      (PolySparse.Polynomial.divmodStep dv other st).2.noZero := by
  rw [divmodStep_fst, divmodStep_snd]
  refine ⟨?_, noZero_addAssign _ _⟩
  split
  · exact noZero_eraseLast (noZero_subAssign _ _)
  · exact noZero_subAssign _ _

/-- Every pass of the loop body strictly lowers the degree of the running
remainder, whatever the carrier. -/
theorem divmodStep_Degree_lt (dv : N → N → N) (other : PolySparse.Polynomial N)
    (st : PolySparse.Polynomial N × PolySparse.Polynomial N)
    (h1 : st.1.ordered) (hge : st.1.Degree ≥ other.Degree) (h0 : other.Degree ≠ -1) :
    (PolySparse.Polynomial.divmodStep dv other st).1.Degree < st.1.Degree := by
  rw [divmodStep_fst]
  have hle := Degree_sub_mul_le dv other st.1 h1 hge
  split
  · rename_i heq
    have ho := Degree_ge other
    have hne : (st.1.subAssign (other.mul ⟨[((st.1.Degree - other.Degree).toNat,
        dv st.1.leading other.leading)]⟩)).coef_ ≠ [] := by
      intro hnil
      have := (Degree_eq_neg_one_iff _).2 hnil
      omega
    have := Degree_eraseLast_lt (ordered_subAssign _ h1) hne
    omega
  · rename_i hne
    omega

/-- Loop rule: a property kept by the body holds of the final state, where
the loop condition is false. -/
theorem divmodLoop_rule (dv : N → N → N) (other : PolySparse.Polynomial N)
    (P : PolySparse.Polynomial N × PolySparse.Polynomial N → Prop)
    (hstep : ∀ st, P st → st.1.Degree ≥ other.Degree →
      P (PolySparse.Polynomial.divmodStep dv other st))
    (fuel : Nat) (st r : PolySparse.Polynomial N × PolySparse.Polynomial N)
    (hst : P st) (h : PolySparse.Polynomial.divmodLoop dv other fuel st = some r) :
    P r ∧ r.1.Degree < other.Degree := by
  induction fuel generalizing st with
  | zero =>
    unfold PolySparse.Polynomial.divmodLoop at h
    split at h
    · cases h
    · rename_i hc
      cases h
      exact ⟨hst, not_le.1 hc⟩
  | succ n ih =>
    unfold PolySparse.Polynomial.divmodLoop at h
    split at h
    · rename_i hc
      exact ih _ (hstep st hst hc) h
    · rename_i hc
      cases h
      exact ⟨hst, not_le.1 hc⟩

/-- The loop exits within `Degree this - Degree other + 1` passes. -/
theorem divmodLoop_terminates (dv : N → N → N) (other : PolySparse.Polynomial N)
    (h0 : other.Degree ≠ -1) (fuel : Nat)
    (st : PolySparse.Polynomial N × PolySparse.Polynomial N) (h1 : st.1.ordered)
    (h2 : st.2.ordered) (hf : (st.1.Degree - other.Degree + 1).toNat ≤ fuel) :
    ∃ r, PolySparse.Polynomial.divmodLoop dv other fuel st = some r := by
  induction fuel generalizing st with
  | zero =>
    unfold PolySparse.Polynomial.divmodLoop
    split
    · rename_i hc
      omega
    · exact ⟨st, rfl⟩
  | succ n ih =>
    unfold PolySparse.Polynomial.divmodLoop
    split
    · rename_i hc
      have hlt := divmodStep_Degree_lt dv other st h1 hc h0
      have hord := divmodStep_ordered dv other st h1 h2
      exact ih _ hord.1 hord.2 (by omega)
    · exact ⟨st, rfl⟩

/-- More budget never changes a result already reached. -/
theorem divmodLoop_mono (dv : N → N → N) (other : PolySparse.Polynomial N)
    (fuel k : Nat) (st r : PolySparse.Polynomial N × PolySparse.Polynomial N)
    (h : PolySparse.Polynomial.divmodLoop dv other fuel st = some r) :
    PolySparse.Polynomial.divmodLoop dv other (fuel + k) st = some r := by
  induction fuel generalizing st with
  | zero =>
    unfold PolySparse.Polynomial.divmodLoop at h
    split at h
    · cases h
    · rename_i hc
      cases h
      cases k with
      | zero => simp [PolySparse.Polynomial.divmodLoop, hc]
      | succ k => simp [PolySparse.Polynomial.divmodLoop, hc]
  | succ n ih =>
    unfold PolySparse.Polynomial.divmodLoop at h
    rw [Nat.succ_add_eq_add_succ, Nat.add_succ]
    unfold PolySparse.Polynomial.divmodLoop
    split at h
    · rename_i hc
      rw [if_pos hc]
      have := ih _ h
      rwa [Nat.add_comm n k] at this ⊢
    · rename_i hc
      rw [if_neg hc]
      exact h

theorem divmodLoop_unique (dv : N → N → N) (other : PolySparse.Polynomial N)
    (f₁ f₂ : Nat) (st r₁ r₂ : PolySparse.Polynomial N × PolySparse.Polynomial N)
    (h₁ : PolySparse.Polynomial.divmodLoop dv other f₁ st = some r₁)
    (h₂ : PolySparse.Polynomial.divmodLoop dv other f₂ st = some r₂) : r₁ = r₂ := by
  have e₁ := divmodLoop_mono dv other f₁ f₂ st r₁ h₁
  have e₂ := divmodLoop_mono dv other f₂ f₁ st r₂ h₂
  rw [Nat.add_comm] at e₂
  rw [e₁] at e₂
  exact Option.some.inj e₂

theorem divmod_mono (dv : N → N → N) (fuel k : Nat) (a b : PolySparse.Polynomial N)
    (r : PolySparse.Polynomial N × PolySparse.Polynomial N)
    (h : a.divmod dv fuel b = some r) : a.divmod dv (fuel + k) b = some r := by
  unfold PolySparse.Polynomial.divmod at h ⊢
  split at h
  · rename_i hc; rw [if_pos hc]; exact h
  · rename_i hc
    rw [if_neg hc]
    cases hl : PolySparse.Polynomial.divmodLoop dv b fuel (a, PolySparse.Polynomial.zero) with
    | none => rw [hl] at h; cases h
    | some s =>
      rw [hl] at h
      rw [divmodLoop_mono dv b fuel k _ s hl]
      exact h

/-- The result of `divmod` does not depend on the budget. -/
theorem divmod_unique (dv : N → N → N) (f₁ f₂ : Nat) (a b : PolySparse.Polynomial N)
    (r₁ r₂ : PolySparse.Polynomial N × PolySparse.Polynomial N)
    (h₁ : a.divmod dv f₁ b = some r₁) (h₂ : a.divmod dv f₂ b = some r₂) : r₁ = r₂ := by
  have e₁ := divmod_mono dv f₁ f₂ a b r₁ h₁
  have e₂ := divmod_mono dv f₂ f₁ a b r₂ h₂
  rw [Nat.add_comm] at e₂
  rw [e₁] at e₂
  exact Option.some.inj e₂

/-- Member `divmod` returns within a budget of `Degree a + 1` passes. -/
theorem divmod_terminates (dv : N → N → N) (a b : PolySparse.Polynomial N)
    (ha : a.ordered) (fuel : Nat) (hf : (a.Degree + 1).toNat ≤ fuel) :
    ∃ r, a.divmod dv fuel b = some r := by
  unfold PolySparse.Polynomial.divmod
  split
  · exact ⟨_, rfl⟩
  · rename_i hc
    have hb := Degree_ge b
    obtain ⟨r, hr⟩ := divmodLoop_terminates dv b hc fuel (a, PolySparse.Polynomial.zero)
      ha ordered_zero (by simp only; omega)
    rw [hr]
    exact ⟨_, rfl⟩

/-- What `divmod` returns for a nonzero divisor, for any carrier: both parts
ordered and free of stored zeros, and the remainder of lower degree. -/
theorem divmod_shape (dv : N → N → N) (fuel : Nat) (a b : PolySparse.Polynomial N)
    (ha : a.ordered) (h0 : b.Degree ≠ -1)
    (r : PolySparse.Polynomial N × PolySparse.Polynomial N)
    (h : a.divmod dv fuel b = some r) :
    r.1.ordered ∧ r.1.noZero ∧ r.2.ordered ∧ r.2.noZero ∧ r.2.Degree < b.Degree := by
  unfold PolySparse.Polynomial.divmod at h
  rw [if_neg h0] at h
  cases hl : PolySparse.Polynomial.divmodLoop dv b fuel (a, PolySparse.Polynomial.zero) with
  | none => rw [hl] at h; cases h
  | some s =>
    rw [hl] at h
    cases h
    have := divmodLoop_rule dv b (fun st => st.1.ordered ∧ st.2.ordered)
      (fun st hst _ => divmodStep_ordered dv b st hst.1 hst.2) fuel _ s
      ⟨ha, ordered_zero⟩ hl
    refine ⟨ordered_normalize this.1.2, noZero_normalize _, ordered_normalize this.1.1,
      noZero_normalize _, ?_⟩
    exact lt_of_le_of_lt (Degree_normalize_le _ this.1.1) this.2

end DivmodGeneral

end PolySparseSpec

namespace PolySparseSpec

open PolySparse (find assign slot Asc)

/-! ## Long division over a field -/

section DivmodField

variable {N : Type}

theorem represents_single [Semiring N] (n : Nat) (c : N) :
    Represents (⟨[(n, c)]⟩ : PolySparse.Polynomial N) (Polynomial.monomial n c) := by
  intro i
  rw [Polynomial.coeff_monomial, coefficient_eq_slot]
  by_cases h : i = n
  · subst h; rw [if_pos rfl, slot_cons_self]
  · rw [if_neg (Ne.symm h), slot_cons_ne h]; rfl

theorem represents_normalize [Semiring N] [DecidableEq N] {p : PolySparse.Polynomial N}
    {P : Polynomial N} (hp : p.ordered) (h : Represents p P) :
    Represents p.normalize_coef P := by
  intro i; rw [h i, coefficient_normalize hp]

theorem Degree_nonneg {p : PolySparse.Polynomial N} (h : p.Degree ≠ -1) : 0 ≤ p.Degree := by
  have := Degree_ge p
  omega

theorem natDegree_eq_Degree [Semiring N] {p : PolySparse.Polynomial N} {P : Polynomial N}
    (hp : p.ordered) (zp : p.noZero) (h : Represents p P) (hne : p.Degree ≠ -1) :
    (P.natDegree : Int) = p.Degree := by
  have hnn := Degree_nonneg hne
  have hne' : p.coef_ ≠ [] := fun e => hne ((Degree_eq_neg_one_iff p).2 e)
  have hc : P.coeff p.Degree.toNat ≠ 0 := by
    rw [h, coefficient_Degree hp hne']
    exact leading_ne_zero zp hne'
  have h1 := Polynomial.le_natDegree_of_ne_zero hc
  have h2 : P.natDegree ≤ p.Degree.toNat := by
    rw [Polynomial.natDegree_le_iff_coeff_eq_zero]
    intro i hi
    rw [h]
    apply coefficient_eq_zero_of_Degree_lt hp
    omega
  omega

theorem degree_lt_of_Degree_lt [Semiring N] {r d : PolySparse.Polynomial N}
    {R D : Polynomial N} (hr : r.ordered) (zr : r.noZero) (hd : d.ordered) (zd : d.noZero)
    (hR : Represents r R) (hD : Represents d D) (h : r.Degree < d.Degree) :
    R.degree < D.degree := by
  have hr1 := Degree_ge r
  have hd0 : d.Degree ≠ -1 := by omega
  have hD0 : D ≠ 0 := fun e =>
    hd0 ((Degree_eq_neg_one_iff d).2 ((represents_zero_iff hd zd hD).1 e))
  by_cases hr0 : r.Degree = -1
  · have : R = 0 := (represents_zero_iff hr zr hR).2 ((Degree_eq_neg_one_iff r).1 hr0)
    rw [this, Polynomial.degree_zero]
    exact bot_lt_iff_ne_bot.2 (fun e => hD0 (Polynomial.degree_eq_bot.1 e))
  · apply Polynomial.degree_lt_degree
    have e1 := natDegree_eq_Degree hr zr hR hr0
    have e2 := natDegree_eq_Degree hd zd hD hd0
    omega

/-- Over a field the subtraction in the loop body cancels the leading term,
so the branch that erases it is not taken, and the body keeps
`A = div * B + this`. -/
theorem divmodStep_field [Field N] [DecidableEq N] (other : PolySparse.Polynomial N)
    (st : PolySparse.Polynomial N × PolySparse.Polynomial N)
    (ho : other.ordered) (zo : other.noZero) (h0 : other.Degree ≠ -1)
    (h1 : st.1.ordered) (h2 : st.2.ordered) (hge : st.1.Degree ≥ other.Degree)
    {B R Q : Polynomial N} (hB : Represents other B) (hR : Represents st.1 R)
    (hQ : Represents st.2 Q) :
    (PolySparse.Polynomial.divmodStep (fun x y => x / y) other st).1
        = st.1.subAssign (other.mul ⟨[((st.1.Degree - other.Degree).toNat,
            st.1.leading / other.leading)]⟩) ∧
      Represents (PolySparse.Polynomial.divmodStep (fun x y => x / y) other st).1
        (R - B * Polynomial.monomial (st.1.Degree - other.Degree).toNat
          (st.1.leading / other.leading)) ∧
      Represents (PolySparse.Polynomial.divmodStep (fun x y => x / y) other st).2
        (Q + Polynomial.monomial (st.1.Degree - other.Degree).toNat
          (st.1.leading / other.leading)) := by
  have hT := represents_single (st.1.Degree - other.Degree).toNat
    (st.1.leading / other.leading)
  have hprod := represents_mul ho (ordered_single _ _) hB hT
  have hsub := represents_subAssign h1 (ordered_mul _ _) hR hprod
  have hnn := Degree_nonneg h0
  have hone : other.coef_ ≠ [] := fun e => h0 ((Degree_eq_neg_one_iff other).2 e)
  have hst0 : st.1.Degree ≠ -1 := by omega
  have hstne : st.1.coef_ ≠ [] := fun e => hst0 ((Degree_eq_neg_one_iff st.1).2 e)
  have hguard : (st.1.subAssign (other.mul ⟨[((st.1.Degree - other.Degree).toNat,
      st.1.leading / other.leading)]⟩)).Degree ≠ st.1.Degree := by
    intro heq
    have hne : (st.1.subAssign (other.mul ⟨[((st.1.Degree - other.Degree).toNat,
        st.1.leading / other.leading)]⟩)).coef_ ≠ [] := by
      intro hnil
      have := (Degree_eq_neg_one_iff _).2 hnil
      omega
    have hlead := leading_ne_zero (noZero_subAssign st.1 _) hne
    rw [← coefficient_Degree (ordered_subAssign _ h1) hne, heq, ← hsub] at hlead
    apply hlead
    have hidx : st.1.Degree.toNat
        = other.Degree.toNat + (st.1.Degree - other.Degree).toNat := by omega
    rw [Polynomial.coeff_sub]
    conv_lhs => rw [hidx, Polynomial.coeff_mul_monomial, ← hidx]
    rw [hR, hB, coefficient_Degree h1 hstne, coefficient_Degree ho hone]
    have := leading_ne_zero zo hone
    field_simp
  have hfst : (PolySparse.Polynomial.divmodStep (fun x y => x / y) other st).1
      = st.1.subAssign (other.mul ⟨[((st.1.Degree - other.Degree).toNat,
          st.1.leading / other.leading)]⟩) := by
    rw [divmodStep_fst, if_neg hguard]
  refine ⟨hfst, ?_, ?_⟩
  · rw [hfst]; exact hsub
  · rw [divmodStep_snd]
    exact represents_addAssign h2 (ordered_single _ _) hQ hT

/-- Over a field `divmod` by a nonzero divisor returns a quotient and a
remainder that represent `Q` and `R` with `A = Q * B + R`. -/
theorem divmod_field [Field N] [DecidableEq N] (fuel : Nat)
    (a b : PolySparse.Polynomial N) (ha : a.ordered) (hb : b.ordered) (zb : b.noZero)
    (h0 : b.Degree ≠ -1) {A B : Polynomial N} (hA : Represents a A) (hB : Represents b B)
    (r : PolySparse.Polynomial N × PolySparse.Polynomial N)
    (h : a.divmod (fun x y => x / y) fuel b = some r) :
    ∃ Q R : Polynomial N, Represents r.1 Q ∧ Represents r.2 R ∧ A = Q * B + R := by
  unfold PolySparse.Polynomial.divmod at h
  rw [if_neg h0] at h
  cases hl : PolySparse.Polynomial.divmodLoop (fun x y => x / y) b fuel
      (a, PolySparse.Polynomial.zero) with
  | none => rw [hl] at h; cases h
  | some s =>
    rw [hl] at h
    cases h
    have := divmodLoop_rule (fun x y => x / y) b
      (fun st => st.1.ordered ∧ st.2.ordered ∧
        ∃ Q R : Polynomial N, Represents st.2 Q ∧ Represents st.1 R ∧ A = Q * B + R)
      (fun st hst hge => by
        obtain ⟨h1, h2, Q, R, hQ, hR, e⟩ := hst
        have hord := divmodStep_ordered (fun x y => x / y) b st h1 h2
        have hf := divmodStep_field b st hb zb h0 h1 h2 hge hB hR hQ
        refine ⟨hord.1, hord.2, _, _, hf.2.2, hf.2.1, ?_⟩
        rw [e]; ring)
      fuel _ s ⟨ha, ordered_zero, 0, A, represents_zero, hA, by ring⟩ hl
    obtain ⟨⟨h1, h2, Q, R, hQ, hR, e⟩, _⟩ := this
    exact ⟨Q, R, represents_normalize h2 hQ, represents_normalize h1 hR, e⟩

end DivmodField

end PolySparseSpec

namespace PolySparseSpec

open PolySparse (find assign slot Asc)

/-! ## The Euclidean loop of `operator ,` -/

section GcdGeneral

variable {N : Type} [Zero N] [Add N] [Sub N] [Mul N] [DecidableEq N]

/-- Loop rule for `operator ,`: a property of `(that, other)` kept by every
pass holds on exit together with `other.Degree = -1`. -/
theorem gcdLoop_rule (dv : N → N → N) (inner : Nat)
    (P : PolySparse.Polynomial N → PolySparse.Polynomial N → Prop)
    (hstep : ∀ that other qr, P that other → other.Degree ≠ -1 →
      that.divmod dv inner other = some qr → P other qr.2)
    (fuel : Nat) (that other g : PolySparse.Polynomial N) (h : P that other)
    (hg : PolySparse.Polynomial.gcdLoop dv inner fuel that other = some g) :
    ∃ o, P g o ∧ o.Degree = -1 := by
  induction fuel generalizing that other with
  | zero =>
    unfold PolySparse.Polynomial.gcdLoop at hg
    split at hg
    · cases hg
    · rename_i hc
      cases hg
      exact ⟨other, h, not_not.1 hc⟩
  | succ n ih =>
    unfold PolySparse.Polynomial.gcdLoop at hg
    split at hg
    · rename_i hc
      cases hd : that.divmod dv inner other with
      | none => rw [hd] at hg; cases hg
      | some qr =>
        rw [hd] at hg
        exact ih other qr.2 (hstep that other qr h hc hd) hg
    · rename_i hc
      cases hg
      exact ⟨other, h, not_not.1 hc⟩

/-- The loop of `operator ,` exits: every pass strictly lowers the degree of
`other`. -/
theorem gcdLoop_terminates (dv : N → N → N) (inner fuel : Nat)
    (that other : PolySparse.Polynomial N) (h1 : that.ordered) (h2 : other.ordered)
    (hi1 : (that.Degree + 1).toNat ≤ inner) (hi2 : (other.Degree + 1).toNat ≤ inner)
    (hf : (other.Degree + 1).toNat ≤ fuel) :
    ∃ g, PolySparse.Polynomial.gcdLoop dv inner fuel that other = some g := by
  induction fuel generalizing that other with
  | zero =>
    unfold PolySparse.Polynomial.gcdLoop
    split
    · rename_i hc
      have := Degree_ge other
      omega
    · exact ⟨_, rfl⟩
  | succ n ih =>
    unfold PolySparse.Polynomial.gcdLoop
    split
    · rename_i hc
      obtain ⟨qr, hqr⟩ := divmod_terminates dv that other h1 inner hi1
      rw [hqr]
      obtain ⟨_, _, o2, _, hdeg⟩ := divmod_shape dv inner that other h1 hc qr hqr
      have := Degree_ge qr.2
      exact ih other qr.2 h2 o2 hi2 (by omega) (by omega)
    · exact ⟨_, rfl⟩

theorem gcdLoop_mono (dv : N → N → N) (inner fuel k j : Nat)
    (that other g : PolySparse.Polynomial N)
    (h : PolySparse.Polynomial.gcdLoop dv inner fuel that other = some g) :
    PolySparse.Polynomial.gcdLoop dv (inner + k) (fuel + j) that other = some g := by
  induction fuel generalizing that other with
  | zero =>
    unfold PolySparse.Polynomial.gcdLoop at h
    split at h
    · cases h
    · rename_i hc
      cases h
      cases j with
      | zero => simp [PolySparse.Polynomial.gcdLoop, hc]
      | succ j => simp [PolySparse.Polynomial.gcdLoop, hc]
  | succ n ih =>
    unfold PolySparse.Polynomial.gcdLoop at h
    rw [Nat.succ_add_eq_add_succ, Nat.add_succ]
    unfold PolySparse.Polynomial.gcdLoop
    split at h
    · rename_i hc
      rw [if_pos hc]
      cases hd : that.divmod dv inner other with
      | none => rw [hd] at h; cases h
      | some qr =>
        rw [hd] at h
        rw [divmod_mono dv inner k that other qr hd]
        have := ih _ _ h
        rwa [Nat.add_comm n j] at this ⊢
    · rename_i hc
      rw [if_neg hc]
      exact h

theorem gcd_mono (dv : N → N → N) (fuel k : Nat) (a b g : PolySparse.Polynomial N)
    (h : a.gcd dv fuel b = some g) : a.gcd dv (fuel + k) b = some g := by
  unfold PolySparse.Polynomial.gcd at h ⊢
  cases hl : PolySparse.Polynomial.gcdLoop dv fuel fuel a b with
  | none => rw [hl] at h; cases h
  | some t =>
    rw [hl] at h
    rw [gcdLoop_mono dv fuel fuel k k a b t hl]
    exact h

/-- The result of `operator ,` does not depend on the budget. -/
theorem gcd_unique (dv : N → N → N) (f₁ f₂ : Nat) (a b g₁ g₂ : PolySparse.Polynomial N)
    (h₁ : a.gcd dv f₁ b = some g₁) (h₂ : a.gcd dv f₂ b = some g₂) : g₁ = g₂ := by
  have e₁ := gcd_mono dv f₁ f₂ a b g₁ h₁
  have e₂ := gcd_mono dv f₂ f₁ a b g₂ h₂
  rw [Nat.add_comm] at e₂
  rw [e₁] at e₂
  exact Option.some.inj e₂

/-- Member `operator ,` returns, for every carrier. -/
theorem gcd_terminates (dv : N → N → N) (a b : PolySparse.Polynomial N)
    (ha : a.ordered) (hb : b.ordered) (fuel : Nat)
    (hf1 : (a.Degree + 1).toNat ≤ fuel) (hf2 : (b.Degree + 1).toNat ≤ fuel) :
    ∃ g, a.gcd dv fuel b = some g := by
  obtain ⟨t, ht⟩ := gcdLoop_terminates dv fuel fuel a b ha hb hf1 hf2 hf2
  exact ⟨_, by rw [PolySparse.Polynomial.gcd, ht]; rfl⟩

end GcdGeneral

end PolySparseSpec

namespace PolySparseSpec

open PolySparse (find assign slot Asc)

/-! ## The greatest common divisor over a field -/

section GcdField

variable {N : Type}

theorem ne_zero_iff_Degree [Zero N] [DecidableEq N] (p : PolySparse.Polynomial N) :
    p ≠ PolySparse.Polynomial.zero ↔ p.Degree ≠ -1 := by
  rw [zero_eq, Ne, Ne, Degree_eq_neg_one_iff]
  obtain ⟨m⟩ := p
  simp

theorem eq_zero_iff_Degree [Zero N] [DecidableEq N] (p : PolySparse.Polynomial N) :
    p = PolySparse.Polynomial.zero ↔ p.Degree = -1 := by
  have := ne_zero_iff_Degree p
  constructor
  · intro h; by_contra hc; exact this.2 hc h
  · intro h; by_contra hc; exact this.1 hc h

theorem represents_eq_zero_iff [Semiring N] [DecidableEq N] {p : PolySparse.Polynomial N}
    {P : Polynomial N} (hp : p.ordered) (zp : p.noZero) (h : Represents p P) :
    P = 0 ↔ p = PolySparse.Polynomial.zero := by
  rw [represents_zero_iff hp zp h, eq_zero_iff_Degree, Degree_eq_neg_one_iff]

theorem find_map (f : N → N) (m : List (Nat × N)) (i : Nat) :
    find (m.map (fun x => (x.1, f x.2))) i = (find m i).map f := by
  induction m with
  | nil => rfl
  | cons hd t ih =>
    obtain ⟨k, w⟩ := hd
    by_cases h : i = k
    · subst h
      simp [find_cons_self]
    · simp only [List.map_cons]
      rw [find_cons_ne h, find_cons_ne h, ih]

theorem makeMonic_of_zero [Zero N] (dv : N → N → N) {p : PolySparse.Polynomial N}
    (h : p.Degree = -1) : PolySparse.Polynomial.makeMonic dv p = p := by
  simp [PolySparse.Polynomial.makeMonic, h]

theorem makeMonic_of_ne [Zero N] (dv : N → N → N) {p : PolySparse.Polynomial N}
    (h : p.Degree ≠ -1) :
    PolySparse.Polynomial.makeMonic dv p
      = ⟨p.coef_.map (fun x => (x.1, dv x.2 p.leading))⟩ := by
  simp [PolySparse.Polynomial.makeMonic, h]

theorem ordered_makeMonic [Zero N] (dv : N → N → N) {p : PolySparse.Polynomial N}
    (hp : p.ordered) : (PolySparse.Polynomial.makeMonic dv p).ordered := by
  by_cases h : p.Degree = -1
  · rw [makeMonic_of_zero dv h]; exact hp
  · rw [makeMonic_of_ne dv h]
    exact List.Pairwise.map _ (fun _ _ hab => hab) hp

theorem Degree_makeMonic [Zero N] (dv : N → N → N) (p : PolySparse.Polynomial N) :
    (PolySparse.Polynomial.makeMonic dv p).Degree = p.Degree := by
  by_cases h : p.Degree = -1
  · rw [makeMonic_of_zero dv h]
  · rw [makeMonic_of_ne dv h]
    obtain ⟨m⟩ := p
    rcases coef_cases ⟨m⟩ with h0 | ⟨ys, k, v, h0⟩
    · simp only at h0; subst h0; rfl
    · simp only at h0; subst h0
      simp only [List.map_append, List.map_cons, List.map_nil]
      rw [Degree_concat, Degree_concat]

theorem leading_makeMonic [Zero N] (dv : N → N → N) {p : PolySparse.Polynomial N}
    (h : p.Degree ≠ -1) :
    (PolySparse.Polynomial.makeMonic dv p).leading = dv p.leading p.leading := by
  rw [makeMonic_of_ne dv h]
  obtain ⟨m⟩ := p
  rcases coef_cases ⟨m⟩ with h0 | ⟨ys, k, v, h0⟩
  · simp only at h0; subst h0; exact absurd rfl h
  · simp only at h0; subst h0
    simp only [List.map_append, List.map_cons, List.map_nil]
    rw [leading_concat, leading_concat]

theorem noZero_makeMonic [Field N] {p : PolySparse.Polynomial N} (zp : p.noZero) :
    (PolySparse.Polynomial.makeMonic (fun x y => x / y) p).noZero := by
  by_cases h : p.Degree = -1
  · rw [makeMonic_of_zero _ h]; exact zp
  · rw [makeMonic_of_ne _ h]
    have hne : p.coef_ ≠ [] := fun e => h ((Degree_eq_neg_one_iff p).2 e)
    have hc := leading_ne_zero zp hne
    intro kv hkv
    obtain ⟨x, hx, e⟩ := List.mem_map.1 hkv
    subst e
    exact div_ne_zero (zp x hx) hc

theorem represents_makeMonic [Field N] {p : PolySparse.Polynomial N} {P : Polynomial N}
    (h : p.Degree ≠ -1) (hP : Represents p P) :
    Represents (PolySparse.Polynomial.makeMonic (fun x y => x / y) p)
      (Polynomial.C p.leading⁻¹ * P) := by
  rw [makeMonic_of_ne _ h]
  intro i
  rw [Polynomial.coeff_C_mul, hP i]
  unfold PolySparse.Polynomial.coefficient
  simp only
  rw [find_map (fun v => v / p.leading)]
  cases find p.coef_ i with
  | none => simp
  | some v => simp [div_eq_inv_mul]

/-- Over a field the remainder of `a` by a nonzero `d` is the zero polynomial
exactly when the polynomial of `d` divides that of `a`. -/
theorem mod_zero_iff_dvd [Field N] [DecidableEq N] (a d : PolySparse.Polynomial N)
    (ha : a.ordered) (hd : d.ordered) (zd : d.noZero) (h0 : d.Degree ≠ -1)
    {A D : Polynomial N} (hA : Represents a A) (hD : Represents d D) :
    (∃ f, a.mod (fun x y => x / y) f d = some PolySparse.Polynomial.zero) ↔ D ∣ A := by
  constructor
  · rintro ⟨f, hf⟩
    cases hr : a.divmod (fun x y => x / y) f d with
    | none => simp [PolySparse.Polynomial.mod, hr] at hf
    | some r =>
      simp only [PolySparse.Polynomial.mod, hr, Option.map_some', Option.some.injEq] at hf
      obtain ⟨Q, R, hQ, hR, e⟩ := divmod_field f a d ha hd zd h0 hA hD r hr
      rw [hf] at hR
      have : R = 0 := represents_unique hR represents_zero
      rw [e, this, add_zero]
      exact Dvd.intro_left Q rfl
  · intro hdvd
    obtain ⟨r, hr⟩ := divmod_terminates (fun x y => x / y) a d ha _ (le_refl _)
    refine ⟨(a.Degree + 1).toNat, ?_⟩
    obtain ⟨Q, R, hQ, hR, e⟩ := divmod_field _ a d ha hd zd h0 hA hD r hr
    obtain ⟨o1, z1, o2, z2, hdeg⟩ := divmod_shape (fun x y => x / y) _ a d ha h0 r hr
    have hRd : D ∣ R := by
      have : R = A - Q * D := by rw [e]; ring
      rw [this]
      exact dvd_sub hdvd (Dvd.intro_left Q rfl)
    have hlt := degree_lt_of_Degree_lt o2 z2 hd zd hR hD hdeg
    have hR0 : R = 0 := Polynomial.eq_zero_of_dvd_of_degree_lt hRd hlt
    have : r.2 = PolySparse.Polynomial.zero := (represents_eq_zero_iff o2 z2 hR).1 hR0
    rw [PolySparse.Polynomial.mod, hr, Option.map_some', this]

/-- Over a field the loop of `operator ,` ends with a canonical `that` whose
polynomial has exactly the common divisors of the two inputs. -/
theorem gcdLoop_field [Field N] [DecidableEq N] (inner fuel : Nat)
    (a b t : PolySparse.Polynomial N) (ha : a.ordered) (za : a.noZero) (hb : b.ordered)
    (zb : b.noZero) {A B : Polynomial N} (hA : Represents a A) (hB : Represents b B)
    (h : PolySparse.Polynomial.gcdLoop (fun x y => x / y) inner fuel a b = some t) :
    t.ordered ∧ t.noZero ∧ ∃ U : Polynomial N, Represents t U ∧
      ∀ d : Polynomial N, d ∣ U ↔ (d ∣ A ∧ d ∣ B) := by
  have := gcdLoop_rule (fun x y => x / y) inner
    (fun that other => that.ordered ∧ that.noZero ∧ other.ordered ∧ other.noZero ∧
      ∃ U V : Polynomial N, Represents that U ∧ Represents other V ∧
        ∀ d : Polynomial N, (d ∣ U ∧ d ∣ V) ↔ (d ∣ A ∧ d ∣ B))
    (fun that other qr hP hc hd => by
      obtain ⟨o1, z1, o2, z2, U, V, hU, hV, hdvd⟩ := hP
      obtain ⟨Q, R, hQ, hR, e⟩ := divmod_field inner that other o1 o2 z2 hc hU hV qr hd
      obtain ⟨_, _, o4, z4, _⟩ := divmod_shape (fun x y => x / y) inner that other o1 hc qr hd
      refine ⟨o2, z2, o4, z4, V, R, hV, hR, ?_⟩
      intro d
      rw [← hdvd d]
      constructor
      · rintro ⟨h1, h2⟩
        refine ⟨?_, h1⟩
        rw [e]
        exact dvd_add (Dvd.dvd.mul_left h1 Q) h2
      · rintro ⟨h1, h2⟩
        refine ⟨h2, ?_⟩
        have : R = U - Q * V := by rw [e]; ring
        rw [this]
        exact dvd_sub h1 (Dvd.dvd.mul_left h2 Q))
    fuel a b t ⟨ha, za, hb, zb, A, B, hA, hB, fun d => Iff.rfl⟩ h
  obtain ⟨o, ⟨o1, z1, o2, z2, U, V, hU, hV, hdvd⟩, ho⟩ := this
  refine ⟨o1, z1, U, hU, ?_⟩
  have hV0 : V = 0 := (represents_zero_iff o2 z2 hV).2 ((Degree_eq_neg_one_iff o).1 ho)
  intro d
  rw [← hdvd d, hV0]
  simp

/-- Over a field `operator ,` returns a canonical value; when its loop ends
in a nonzero `t` the result represents `t` scaled by the inverse of its
leading coefficient, with the common divisors of the inputs as divisors. -/
theorem gcd_field [Field N] [DecidableEq N] (fuel : Nat)
    (a b g : PolySparse.Polynomial N) (ha : a.ordered) (za : a.noZero) (hb : b.ordered)
    (zb : b.noZero) {A B : Polynomial N} (hA : Represents a A) (hB : Represents b B)
    (h : a.gcd (fun x y => x / y) fuel b = some g) :
    g.ordered ∧ g.noZero ∧ (g.Degree ≠ -1 → g.leading = 1) ∧
      ∃ G : Polynomial N, Represents g G ∧ ∀ d : Polynomial N, d ∣ G ↔ (d ∣ A ∧ d ∣ B) := by
  unfold PolySparse.Polynomial.gcd at h
  cases hl : PolySparse.Polynomial.gcdLoop (fun x y => x / y) fuel fuel a b with
  | none => rw [hl] at h; cases h
  | some t =>
    rw [hl, Option.map_some', Option.some.injEq] at h
    subst h
    obtain ⟨o, z, U, hU, hdvd⟩ := gcdLoop_field fuel fuel a b t ha za hb zb hA hB hl
    refine ⟨ordered_makeMonic _ o, noZero_makeMonic z, ?_, ?_⟩
    · intro hne
      rw [Degree_makeMonic] at hne
      have hne' : t.coef_ ≠ [] := fun e => hne ((Degree_eq_neg_one_iff t).2 e)
      rw [leading_makeMonic _ hne]
      exact div_self (leading_ne_zero z hne')
    · by_cases ht : t.Degree = -1
      · rw [makeMonic_of_zero _ ht]
        exact ⟨U, hU, hdvd⟩
      · have hne' : t.coef_ ≠ [] := fun e => ht ((Degree_eq_neg_one_iff t).2 e)
        have hc := leading_ne_zero z hne'
        refine ⟨_, represents_makeMonic ht hU, ?_⟩
        intro d
        rw [← hdvd d]
        have hu : IsUnit (Polynomial.C t.leading⁻¹ : Polynomial N) :=
          Polynomial.isUnit_C.2 (IsUnit.mk0 _ (inv_ne_zero hc))
        exact IsUnit.dvd_mul_left hu

end GcdField

end PolySparseSpec

namespace PolySparseSpec

open PolySparse (find assign slot Asc)

/-! ## Scalars, the friend operators and point evaluation -/

section EvalFacts

variable {N : Type}

theorem ofNum_eq [Zero N] [DecidableEq N] (c : N) :
    PolySparse.Polynomial.ofNum c
      = PolySparse.Polynomial.normalize_coef ⟨[(0, c)]⟩ := rfl

theorem ordered_ofNum [Zero N] [DecidableEq N] (c : N) :
    (PolySparse.Polynomial.ofNum c).ordered := by
  rw [ofNum_eq]; exact ordered_normalize (ordered_single 0 c)

theorem noZero_ofNum [Zero N] [DecidableEq N] (c : N) :
    (PolySparse.Polynomial.ofNum c).noZero := by
  rw [ofNum_eq]; exact noZero_normalize _

theorem represents_ofNum [Semiring N] [DecidableEq N] (c : N) :
    Represents (PolySparse.Polynomial.ofNum c) (Polynomial.C c) := by
  rw [ofNum_eq, ← Polynomial.monomial_zero_left]
  exact represents_normalize (ordered_single 0 c) (represents_single 0 c)

theorem ordered_add [Zero N] [Add N] [DecidableEq N]
    {a : PolySparse.Polynomial N} (b : PolySparse.Polynomial N) (ha : a.ordered) :
    (a.add b).ordered := ordered_addAssign b ha

theorem ordered_sub [Zero N] [Sub N] [DecidableEq N]
    {a : PolySparse.Polynomial N} (b : PolySparse.Polynomial N) (ha : a.ordered) :
    (a.sub b).ordered := ordered_subAssign b ha

theorem noZero_add [Zero N] [Add N] [DecidableEq N]
    (a b : PolySparse.Polynomial N) : (a.add b).noZero := noZero_addAssign a b

theorem noZero_sub [Zero N] [Sub N] [DecidableEq N]
    (a b : PolySparse.Polynomial N) : (a.sub b).noZero := noZero_subAssign a b

theorem represents_add [Semiring N] [DecidableEq N]
    {a b : PolySparse.Polynomial N} {A B : Polynomial N} (ha : a.ordered) (hb : b.ordered)
    (hA : Represents a A) (hB : Represents b B) : Represents (a.add b) (A + B) :=
  represents_addAssign ha hb hA hB

theorem represents_sub [Ring N] [DecidableEq N]
    {a b : PolySparse.Polynomial N} {A B : Polynomial N} (ha : a.ordered) (hb : b.ordered)
    (hA : Represents a A) (hB : Represents b B) : Represents (a.sub b) (A - B) :=
  represents_subAssign ha hb hA hB

/-- Canonical values representing equal polynomials compare equal under
`operator ==`. -/
theorem eq_true_of_represents [Semiring N] [DecidableEq N]
    {a b : PolySparse.Polynomial N} {P Q : Polynomial N}
    (ha : a.ordered) (za : a.noZero) (hb : b.ordered) (zb : b.noZero)
    (hA : Represents a P) (hB : Represents b Q) (h : P = Q) : a.eq b = true := by
  subst h
  have := eq_of_represents ha hb za zb hA hB
  simp only [PolySparse.Polynomial.eq, decide_eq_true_eq]
  exact congrArg _ this

/-- The state of the evaluation loop after `n` passes. -/
theorem eval_loop [Semiring N] (c : Nat → N) (x : N) (n : Nat) :
    (List.range n).foldl (fun (st : N × N) i => (st.1 + st.2 * c i, st.2 * x)) (0, 1)
      = (∑ i ∈ Finset.range n, x ^ i * c i, x ^ n) := by
  induction n with
  | zero => simp
  | succ n ih =>
    rw [List.range_succ, List.foldl_append, ih, Finset.sum_range_succ]
    simp [pow_succ]

theorem eval_eq_sum [Semiring N] (p : PolySparse.Polynomial N) (x : N) :
    p.eval x = ∑ i ∈ Finset.range (p.Degree + 1).toNat, x ^ i * p.coefficient i := by
  unfold PolySparse.Polynomial.eval
  rw [eval_loop (fun i => p.coefficient i) x]

/-- Member `operator()` computes the value of the represented polynomial. -/
theorem eval_represents [CommSemiring N] {p : PolySparse.Polynomial N} {P : Polynomial N}
    (hp : p.ordered) (h : Represents p P) (x : N) : p.eval x = P.eval x := by
  rw [eval_eq_sum]
  conv_rhs => rw [poly_eq_sum_range P _ (represents_vanish hp h)]
  rw [Polynomial.eval_finset_sum]
  refine Finset.sum_congr rfl (fun i _ => ?_)
  rw [Polynomial.eval_monomial, h i, mul_comm]

end EvalFacts

end PolySparseSpec

namespace PolySparseSpec

open PolySparse (find assign slot Asc)

/-! ## Composition -/

section ComposeFacts

variable {N : Type}

/-- Repeating `other_pow *= other` multiplies the represented polynomial by
a power. -/
theorem represents_iterate_mul [Semiring N] [DecidableEq N]
    {other : PolySparse.Polynomial N} {B : Polynomial N} (ho : other.ordered)
    (hB : Represents other B) (n : Nat) {p : PolySparse.Polynomial N} {P : Polynomial N}
    (hp : p.ordered) (hP : Represents p P) :
    ((fun q => PolySparse.Polynomial.mulAssign q other)^[n] p).ordered ∧
      Represents ((fun q => PolySparse.Polynomial.mulAssign q other)^[n] p) (P * B ^ n) := by
  induction n generalizing p P with
  | zero => simpa using ⟨hp, hP⟩
  | succ n ih =>
    rw [Function.iterate_succ_apply]
    have := ih (ordered_mul p other) (represents_mul hp ho hP hB)
    rw [mul_assoc, ← pow_succ'] at this
    exact this

/-- One pass of the loop of `operator &` adds the term `cur.2 * B ^ cur.1`
and leaves `other_pow` at `B ^ cur.1`. -/
theorem composeStep_represents [Semiring N] [DecidableEq N]
    {other : PolySparse.Polynomial N} {B R : Polynomial N} (ho : other.ordered)
    (hB : Represents other B)
    (st : PolySparse.Polynomial N × PolySparse.Polynomial N × Nat) (cur : Nat × N)
    (h1 : st.1.ordered) (h2 : st.2.1.ordered) (hR : Represents st.1 R)
    (hpow : Represents st.2.1 (B ^ st.2.2)) (hle : st.2.2 ≤ cur.1) :
    (PolySparse.Polynomial.composeStep other st cur).1.ordered ∧
      (PolySparse.Polynomial.composeStep other st cur).2.1.ordered ∧
      Represents (PolySparse.Polynomial.composeStep other st cur).1
        (R + Polynomial.C cur.2 * B ^ cur.1) ∧
      Represents (PolySparse.Polynomial.composeStep other st cur).2.1 (B ^ cur.1) ∧
      (PolySparse.Polynomial.composeStep other st cur).2.2 = cur.1 := by
  have hit := represents_iterate_mul ho hB (cur.1 - st.2.2) h2 hpow
  rw [← pow_add, Nat.add_sub_cancel' hle] at hit
  simp only [PolySparse.Polynomial.composeStep]
  refine ⟨ordered_addAssign _ h1, hit.1, ?_, hit.2, Nat.add_sub_cancel' hle⟩
  exact represents_addAssign h1 (ordered_mul _ _) hR
    (represents_mul (ordered_ofNum _) hit.1 (represents_ofNum _) hit.2)

theorem compose_fold_represents [Semiring N] [DecidableEq N]
    {other : PolySparse.Polynomial N} {B : Polynomial N} (ho : other.ordered)
    (hB : Represents other B) (l : List (Nat × N)) (hl : Asc l)
    (st : PolySparse.Polynomial N × PolySparse.Polynomial N × Nat) {R : Polynomial N}
    (h1 : st.1.ordered) (h2 : st.2.1.ordered) (hR : Represents st.1 R)
    (hpow : Represents st.2.1 (B ^ st.2.2)) (hle : ∀ kv ∈ l, st.2.2 ≤ kv.1) :
    (l.foldl (PolySparse.Polynomial.composeStep other) st).1.ordered ∧
      Represents (l.foldl (PolySparse.Polynomial.composeStep other) st).1
        (R + (l.map (fun kv => Polynomial.C kv.2 * B ^ kv.1)).sum) := by
  induction l generalizing st R with
  | nil => simpa using ⟨h1, hR⟩
  | cons cur t ih =>
    have hl2 := List.pairwise_cons.1 hl
    obtain ⟨s1, s2, sR, sP, sk⟩ := composeStep_represents ho hB st cur h1 h2 hR hpow
      (hle cur (List.mem_cons_self _ _))
    rw [← sk] at sP
    have := ih hl2.2 (PolySparse.Polynomial.composeStep other st cur) s1 s2 sR sP
      (fun kv hkv => by rw [sk]; exact le_of_lt (hl2.1 kv hkv))
    simp only [List.foldl_cons, List.map_cons, List.sum_cons]
    rw [← add_assoc]
    exact this

theorem represents_list_sum [Semiring N] (m : List (Nat × N)) (hm : Asc m) :
    Represents (⟨m⟩ : PolySparse.Polynomial N)
      (m.map (fun kv => Polynomial.monomial kv.1 kv.2)).sum := by
  induction m with
  | nil => simpa using represents_nil
  | cons hd t ih =>
    obtain ⟨k, v⟩ := hd
    have hm2 := List.pairwise_cons.1 hm
    intro i
    simp only [List.map_cons, List.sum_cons, Polynomial.coeff_add, Polynomial.coeff_monomial]
    rw [ih hm2.2 i, coefficient_eq_slot, coefficient_eq_slot]
    by_cases h : i = k
    · subst h
      rw [if_pos rfl, slot_cons_self, slot_eq_zero_of_lt hm2.1, add_zero]
    · rw [if_neg (Ne.symm h), slot_cons_ne h, zero_add]

theorem comp_list_sum [Semiring N] (m : List (Nat × N)) (B : Polynomial N) :
    ((m.map (fun kv => Polynomial.monomial kv.1 kv.2)).sum).comp B
      = (m.map (fun kv => Polynomial.C kv.2 * B ^ kv.1)).sum := by
  induction m with
  | nil => simp
  | cons hd t ih =>
    simp only [List.map_cons, List.sum_cons, Polynomial.add_comp, Polynomial.monomial_comp, ih]

/-- Friend `operator &` represents the composition of the polynomials. -/
theorem represents_compose [Semiring N] [DecidableEq N]
    {a b : PolySparse.Polynomial N} {A B : Polynomial N} (ha : a.ordered) (hb : b.ordered)
    (hA : Represents a A) (hB : Represents b B) :
    (a.compose b).ordered ∧ Represents (a.compose b) (A.comp B) := by
  have hA' : A = (a.coef_.map (fun kv => Polynomial.monomial kv.1 kv.2)).sum :=
    represents_unique hA (represents_list_sum a.coef_ ha)
  have h1 : Represents (PolySparse.Polynomial.ofNum (1 : N)) (B ^ 0) := by
    rw [pow_zero, ← Polynomial.C_1]; exact represents_ofNum 1
  have := compose_fold_represents hb hB a.coef_ ha
    (PolySparse.Polynomial.zero, PolySparse.Polynomial.ofNum 1, 0)
    ordered_zero (ordered_ofNum 1) represents_zero h1 (fun _ _ => Nat.zero_le _)
  rw [zero_add, ← comp_list_sum, ← hA'] at this
  exact ⟨ordered_normalize this.1, represents_normalize this.1 this.2⟩

end ComposeFacts

end PolySparseSpec

namespace PolySparseSpec

open PolySparse (find assign slot Asc)

/-! ## The dense-sequence constructor -/

section ConstructorFacts

variable {N : Type}

theorem asc_ofIterLoop (cs : List N) (i : Nat) {m : List (Nat × N)} (hm : Asc m) :
    Asc (PolySparse.Polynomial.ofIterLoop cs i m) := by
  induction cs generalizing i m with
  | nil => exact hm
  | cons c t ih => exact ih (i + 1) (asc_assign hm i c)

/-- After the constructor loop, key `j` holds the element of the sequence at
position `j - i`, and keys outside the range are untouched. -/
theorem find_ofIterLoop (cs : List N) (i : Nat) (m : List (Nat × N)) (j : Nat) :
    find (PolySparse.Polynomial.ofIterLoop cs i m) j
      = if i ≤ j ∧ j - i < cs.length then cs[j - i]? else find m j := by
  induction cs generalizing i m with
  | nil => simp [PolySparse.Polynomial.ofIterLoop]
  | cons c t ih =>
    simp only [PolySparse.Polynomial.ofIterLoop, List.length_cons]
    rw [ih, find_assign]
    by_cases h1 : i + 1 ≤ j
    · have e : j - i = (j - (i + 1)) + 1 := by omega
      by_cases h2 : j - (i + 1) < t.length
      · rw [if_pos ⟨h1, h2⟩, if_pos ⟨by omega, by omega⟩, e, List.getElem?_cons_succ]
      · rw [if_neg (fun h => h2 h.2), if_neg (by omega), if_neg (fun h => by omega)]
    · rw [if_neg (fun h => h1 h.1)]
      by_cases h3 : j = i
      · subst h3
        rw [if_pos rfl, if_pos ⟨le_refl _, by omega⟩]
        simp
      · rw [if_neg h3, if_neg (fun h => by omega)]

theorem find_ofIterLoop_zero (cs : List N) (j : Nat) :
    find (PolySparse.Polynomial.ofIterLoop cs 0 []) j = cs[j]? := by
  rw [find_ofIterLoop]
  by_cases h : j < cs.length
  · rw [if_pos ⟨Nat.zero_le _, by simpa using h⟩]; simp
  · rw [if_neg (fun hh => h (by simpa using hh.2))]
    simp only [find]
    exact (List.getElem?_eq_none (not_lt.1 h)).symm

theorem ordered_ofIter [Zero N] [DecidableEq N] (cs : List N) :
    (PolySparse.Polynomial.ofIter cs).ordered :=
  ordered_normalize (asc_ofIterLoop cs 0 List.Pairwise.nil)

theorem mem_ofIter [Zero N] [DecidableEq N] (cs : List N) (i : Nat) (v : N) :
    (i, v) ∈ (PolySparse.Polynomial.ofIter cs).coef_ ↔ (cs[i]? = some v ∧ v ≠ 0) := by
  have hasc := asc_ofIterLoop cs 0 (List.Pairwise.nil (R := fun a b : Nat × N => a.1 < b.1))
  unfold PolySparse.Polynomial.ofIter PolySparse.Polynomial.normalize_coef
  simp only [List.mem_filter, decide_eq_true_eq]
  constructor
  · rintro ⟨h1, h2⟩
    exact ⟨by rw [← find_ofIterLoop_zero]; exact find_of_mem hasc h1, h2⟩
  · rintro ⟨h1, h2⟩
    exact ⟨mem_of_find (by rw [find_ofIterLoop_zero]; exact h1), h2⟩

theorem coefficient_ofIter [Zero N] [DecidableEq N] (cs : List N) (i : Nat) :
    (PolySparse.Polynomial.ofIter cs).coefficient i = cs.getD i 0 := by
  unfold PolySparse.Polynomial.ofIter
  rw [coefficient_normalize (p := ⟨_⟩) (asc_ofIterLoop cs 0 List.Pairwise.nil)]
  unfold PolySparse.Polynomial.coefficient
  simp only
  rw [find_ofIterLoop_zero, List.getD_eq_getElem?_getD]
  cases cs[i]? <;> rfl

end ConstructorFacts

/-! ## The text written by `operator <<` -/

section PrintFacts

theorem toString_natCast (n : Nat) : toString ((n : Nat) : Int) = toString n := rfl

theorem printTerm_sign (isFirst : Bool) (c : Int) (h : c ≠ 0) :
    (if c > 0 then (if isFirst = false then "+" else "") else "-")
      = (if c < 0 then "-" else if isFirst = false then "+" else "") := by
  rcases lt_or_gt_of_ne h with hneg | hpos
  · rw [if_neg (show ¬ c > 0 by omega), if_pos hneg]
  · rw [if_pos hpos, if_neg (show ¬ c < 0 by omega)]

theorem printTerm_cur (c : Int) (h : c ≠ 0) :
    (if c > 0 then c else -c) = ((c.natAbs : Nat) : Int) := by
  rcases lt_or_gt_of_ne h with hneg | hpos
  · rw [if_neg (show ¬ c > 0 by omega)]; omega
  · rw [if_pos hpos]; omega

theorem printTerm_coef (m e : Nat) :
    (if ((m : Nat) : Int) ≠ 1 then toString ((m : Nat) : Int) ++ (if e > 0 then "*" else "")
        else "") ++
      (if ((m : Nat) : Int) = 1 ∧ e = 0 then toString ((m : Nat) : Int) else "")
      = (if m ≠ 1 then toString m ++ (if e > 0 then "*" else "")
          else if e = 0 then "1" else "") := by
  by_cases hm : m = 1
  · subst hm
    have h1 : ((1 : Nat) : Int) = 1 := rfl
    rw [if_neg (not_not.2 h1), if_neg (not_not.2 rfl), String.empty_append]
    by_cases he : e = 0
    · rw [if_pos ⟨h1, he⟩, if_pos he]; rfl
    · rw [if_neg (show ¬ (((1 : Nat) : Int) = 1 ∧ e = 0) from fun hh => he hh.2), if_neg he]
  · have h1 : ((m : Nat) : Int) ≠ 1 := by omega
    rw [if_pos h1, if_pos hm,
      if_neg (show ¬ (((m : Nat) : Int) = 1 ∧ e = 0) from fun hh => h1 hh.1),
      String.append_empty, toString_natCast]

theorem printTerm_var (e : Nat) (s : String) :
    (if e > 0 then "x" ++ (if e > 1 then s else "") else "")
      = (if e > 0 then "x" else "") ++ (if e > 1 then s else "") := by
  by_cases he : e > 0
  · rw [if_pos he, if_pos he]
  · rw [if_neg he, if_neg he, if_neg (show ¬ e > 1 by omega), String.append_empty]

/-- On a nonzero coefficient the loop body of `operator <<` writes the term
as the specification words it. -/
theorem printTerm_eq (isFirst : Bool) (kv : Nat × Int) (h : kv.2 ≠ 0) :
    PolySparse.Polynomial.printTerm (if isFirst = false then "+" else "") kv
      = PolySparse.Polynomial.printSpecTerm isFirst kv := by
  obtain ⟨e, c⟩ := kv
  simp only at h
  unfold PolySparse.Polynomial.printTerm PolySparse.Polynomial.printSpecTerm
  simp only
  rw [printTerm_cur c h, printTerm_sign isFirst c h, printTerm_var,
    String.append_assoc _ _ (if ((c.natAbs : Nat) : Int) = 1 ∧ e = 0 then _ else _),
    printTerm_coef, ← String.append_assoc _ (if e > 0 then "x" else "")]

theorem printLoop_eq (l : List (Nat × Int)) (h : ∀ kv ∈ l, kv.2 ≠ 0) (out : String) :
    PolySparse.Polynomial.printLoop l "+" out
      = out ++ (l.map (PolySparse.Polynomial.printSpecTerm false)).foldr
          (fun s acc => s ++ acc) "" := by
  induction l generalizing out with
  | nil => simp [PolySparse.Polynomial.printLoop]
  | cons kv t ih =>
    simp only [PolySparse.Polynomial.printLoop, List.map_cons, List.foldr_cons]
    rw [ih (fun kv' hkv' => h kv' (List.mem_cons_of_mem _ hkv'))]
    have := printTerm_eq false kv (h kv (List.mem_cons_self _ _))
    simp only [if_true] at this
    rw [this, String.append_assoc]

/-- On a value without stored zeros `operator <<` writes the text the
specification describes. -/
theorem print_eq_printSpec (p : PolySparse.Polynomial Int) (zp : p.noZero) :
    p.print = p.printSpec := by
  unfold PolySparse.Polynomial.print PolySparse.Polynomial.printSpec
  cases hrev : p.coef_.reverse with
  | nil =>
    have hnil : p.coef_ = [] := List.reverse_eq_nil_iff.1 hrev
    have hd : p.Degree = -1 := (Degree_eq_neg_one_iff p).2 hnil
    simp only [hd, if_true, PolySparse.Polynomial.printLoop]
    rfl
  | cons kv rest =>
    have hne : p.coef_ ≠ [] := by
      intro e; rw [e] at hrev; simp at hrev
    have hd : ¬ p.Degree = -1 := fun e => hne ((Degree_eq_neg_one_iff p).1 e)
    have hmem : ∀ kv' ∈ kv :: rest, kv'.2 ≠ 0 := by
      intro kv' hkv'
      rw [← hrev] at hkv'
      exact zp kv' (List.mem_reverse.1 hkv')
    simp only [hd, if_false, PolySparse.Polynomial.printLoop]
    rw [printLoop_eq rest (fun kv' hkv' => hmem kv' (List.mem_cons_of_mem _ hkv'))]
    have := printTerm_eq true kv (hmem kv (List.mem_cons_self _ _))
    simp only [Bool.true_eq_false, if_false] at this
    rw [this, String.empty_append]

end PrintFacts

end PolySparseSpec

namespace PolySparseSpec

open PolySparse (find assign slot Asc)

/-! ## Exact leading-coefficient division: the guard is not taken -/

section ExactDivision

variable {N : Type}

/-- When `dv` divides the leading coefficient of the remainder exactly, the
subtraction in the loop body cancels the leading term: the guard is not
taken and the body keeps `A = div * B + this`. -/
theorem divmodStep_exact [CommRing N] [DecidableEq N] (dv : N → N → N)
    (other : PolySparse.Polynomial N)
    (st : PolySparse.Polynomial N × PolySparse.Polynomial N)
    (ho : other.ordered) (h0 : other.Degree ≠ -1)
    (h1 : st.1.ordered) (h2 : st.2.ordered) (hge : st.1.Degree ≥ other.Degree)
    (hex : other.leading * dv st.1.leading other.leading = st.1.leading)
    {B R Q : Polynomial N} (hB : Represents other B) (hR : Represents st.1 R)
    (hQ : Represents st.2 Q) :
    (st.1.subAssign (other.mul ⟨[((st.1.Degree - other.Degree).toNat,
          dv st.1.leading other.leading)]⟩)).Degree < st.1.Degree ∧
      (PolySparse.Polynomial.divmodStep dv other st).1
        = st.1.subAssign (other.mul ⟨[((st.1.Degree - other.Degree).toNat,
            dv st.1.leading other.leading)]⟩) ∧
      Represents (PolySparse.Polynomial.divmodStep dv other st).1
        (R - B * Polynomial.monomial (st.1.Degree - other.Degree).toNat
          (dv st.1.leading other.leading)) ∧
      Represents (PolySparse.Polynomial.divmodStep dv other st).2
        (Q + Polynomial.monomial (st.1.Degree - other.Degree).toNat
          (dv st.1.leading other.leading)) := by
  have hT := represents_single (st.1.Degree - other.Degree).toNat
    (dv st.1.leading other.leading)
  have hprod := represents_mul ho (ordered_single _ _) hB hT
  have hsub := represents_subAssign h1 (ordered_mul _ _) hR hprod
  have hnn := Degree_nonneg h0
  have hone : other.coef_ ≠ [] := fun e => h0 ((Degree_eq_neg_one_iff other).2 e)
  have hst0 : st.1.Degree ≠ -1 := by omega
  have hstne : st.1.coef_ ≠ [] := fun e => hst0 ((Degree_eq_neg_one_iff st.1).2 e)
  have hguard : (st.1.subAssign (other.mul ⟨[((st.1.Degree - other.Degree).toNat,
      dv st.1.leading other.leading)]⟩)).Degree ≠ st.1.Degree := by
    intro heq
    have hne : (st.1.subAssign (other.mul ⟨[((st.1.Degree - other.Degree).toNat,
        dv st.1.leading other.leading)]⟩)).coef_ ≠ [] := by
      intro hnil
      have := (Degree_eq_neg_one_iff _).2 hnil
      omega
    have hlead := leading_ne_zero (noZero_subAssign st.1 _) hne
    rw [← coefficient_Degree (ordered_subAssign _ h1) hne, heq, ← hsub] at hlead
    apply hlead
    have hidx : st.1.Degree.toNat
        = other.Degree.toNat + (st.1.Degree - other.Degree).toNat := by omega
    rw [Polynomial.coeff_sub]
    conv_lhs => rw [hidx, Polynomial.coeff_mul_monomial, ← hidx]
    rw [hR, hB, coefficient_Degree h1 hstne, coefficient_Degree ho hone, hex, sub_self]
  have hle := Degree_sub_mul_le dv other st.1 h1 hge
  have hfst : (PolySparse.Polynomial.divmodStep dv other st).1
      = st.1.subAssign (other.mul ⟨[((st.1.Degree - other.Degree).toNat,
          dv st.1.leading other.leading)]⟩) := by
    rw [divmodStep_fst, if_neg hguard]
  refine ⟨lt_of_le_of_ne hle hguard, hfst, ?_, ?_⟩
  · rw [hfst]; exact hsub
  · rw [divmodStep_snd]
    exact represents_addAssign h2 (ordered_single _ _) hQ hT

theorem divmodStepNoGuard_eq [Zero N] [Add N] [Sub N] [Mul N] [DecidableEq N]
    (dv : N → N → N) (other : PolySparse.Polynomial N)
    (st : PolySparse.Polynomial N × PolySparse.Polynomial N) :
    PolySparse.Polynomial.divmodStepNoGuard dv other st
      = (st.1.subAssign (other.mul ⟨[((st.1.Degree - other.Degree).toNat,
            dv st.1.leading other.leading)]⟩),
          st.2.addAssign ⟨[((st.1.Degree - other.Degree).toNat,
            dv st.1.leading other.leading)]⟩) := by
  simp only [PolySparse.Polynomial.divmodStepNoGuard, factor_eq]

/-- If the guard is not taken in any pass from states satisfying `P`, the
loop and the loop without the guard agree. -/
theorem divmodLoop_eq_noGuard [Zero N] [Add N] [Sub N] [Mul N] [DecidableEq N]
    (dv : N → N → N) (other : PolySparse.Polynomial N)
    (P : PolySparse.Polynomial N × PolySparse.Polynomial N → Prop)
    (hstep : ∀ st, P st → st.1.Degree ≥ other.Degree →
      PolySparse.Polynomial.divmodStep dv other st
          = PolySparse.Polynomial.divmodStepNoGuard dv other st ∧
        P (PolySparse.Polynomial.divmodStep dv other st))
    (fuel : Nat) (st : PolySparse.Polynomial N × PolySparse.Polynomial N) (hst : P st) :
    PolySparse.Polynomial.divmodLoop dv other fuel st
      = PolySparse.Polynomial.divmodLoopNoGuard dv other fuel st := by
  induction fuel generalizing st with
  | zero => rfl
  | succ n ih =>
    unfold PolySparse.Polynomial.divmodLoop PolySparse.Polynomial.divmodLoopNoGuard
    by_cases hc : st.1.Degree ≥ other.Degree
    · rw [if_pos hc, if_pos hc, ← (hstep st hst hc).1]
      exact ih _ (hstep st hst hc).2
    · rw [if_neg hc, if_neg hc]

/-- With exact leading-coefficient division `divmod` agrees with `divmod`
without the guard. -/
theorem divmod_eq_noGuard [CommRing N] [DecidableEq N] (dv : N → N → N)
    (a b : PolySparse.Polynomial N) (ha : a.ordered) (hb : b.ordered)
    (hex : ∀ x, b.leading * dv x b.leading = x) (fuel : Nat) :
    a.divmod dv fuel b = a.divmodNoGuard dv fuel b := by
  unfold PolySparse.Polynomial.divmod PolySparse.Polynomial.divmodNoGuard
  by_cases h0 : b.Degree = -1
  · rw [if_pos h0, if_pos h0]
  · rw [if_neg h0, if_neg h0]
    rw [divmodLoop_eq_noGuard dv b (fun st => st.1.ordered ∧ st.2.ordered)
      (fun st hst hge => by
        obtain ⟨B, hB⟩ := represents_exists b hb
        obtain ⟨R, hR⟩ := represents_exists st.1 hst.1
        obtain ⟨Q, hQ⟩ := represents_exists st.2 hst.2
        have := divmodStep_exact dv b st hb h0 hst.1 hst.2 hge (hex _) hB hR hQ
        refine ⟨?_, divmodStep_ordered dv b st hst.1 hst.2⟩
        rw [divmodStepNoGuard_eq]
        exact Prod.ext this.2.1 (divmodStep_snd dv b st))
      fuel _ ⟨ha, ordered_zero⟩]

/-- With exact leading-coefficient division `divmod` by a nonzero divisor
returns a quotient and a remainder representing `Q` and `R` with
`A = Q * B + R`. -/
theorem divmod_exact [CommRing N] [DecidableEq N] (dv : N → N → N) (fuel : Nat)
    (a b : PolySparse.Polynomial N) (ha : a.ordered) (hb : b.ordered)
    (h0 : b.Degree ≠ -1) (hex : ∀ x, b.leading * dv x b.leading = x)
    {A B : Polynomial N} (hA : Represents a A) (hB : Represents b B)
    (r : PolySparse.Polynomial N × PolySparse.Polynomial N)
    (h : a.divmod dv fuel b = some r) :
    ∃ Q R : Polynomial N, Represents r.1 Q ∧ Represents r.2 R ∧ A = Q * B + R := by
  unfold PolySparse.Polynomial.divmod at h
  rw [if_neg h0] at h
  cases hl : PolySparse.Polynomial.divmodLoop dv b fuel (a, PolySparse.Polynomial.zero) with
  | none => rw [hl] at h; cases h
  | some s =>
    rw [hl] at h
    cases h
    have := divmodLoop_rule dv b
      (fun st => st.1.ordered ∧ st.2.ordered ∧
        ∃ Q R : Polynomial N, Represents st.2 Q ∧ Represents st.1 R ∧ A = Q * B + R)
      (fun st hst hge => by
        obtain ⟨h1, h2, Q, R, hQ, hR, e⟩ := hst
        have hord := divmodStep_ordered dv b st h1 h2
        have hf := divmodStep_exact dv b st hb h0 h1 h2 hge (hex _) hB hR hQ
        refine ⟨hord.1, hord.2, _, _, hf.2.2.2, hf.2.2.1, ?_⟩
        rw [e]; ring)
      fuel _ s ⟨ha, ordered_zero, 0, A, represents_zero, hA, by ring⟩ hl
    obtain ⟨⟨h1, h2, Q, R, hQ, hR, e⟩, _⟩ := this
    exact ⟨Q, R, represents_normalize h2 hQ, represents_normalize h1 hR, e⟩

theorem field_exact [Field N] {b : PolySparse.Polynomial N} (zb : b.noZero)
    (h0 : b.Degree ≠ -1) (x : N) : b.leading * (fun u v => u / v) x b.leading = x := by
  have hne : b.coef_ ≠ [] := fun e => h0 ((Degree_eq_neg_one_iff b).2 e)
  have := leading_ne_zero zb hne
  simp only
  field_simp

end ExactDivision

/-! ## The degree of the quotient, for an arbitrary carrier -/

section QuotientDegree

variable {N : Type} [Zero N] [Add N] [Sub N] [Mul N] [DecidableEq N]

theorem divmod_of_Degree_lt (dv : N → N → N) (fuel : Nat) (a b : PolySparse.Polynomial N)
    (h0 : b.Degree ≠ -1) (hlt : a.Degree < b.Degree) :
    a.divmod dv fuel b
      = some ((PolySparse.Polynomial.zero : PolySparse.Polynomial N).normalize_coef,
          a.normalize_coef) := by
  unfold PolySparse.Polynomial.divmod
  rw [if_neg h0]
  have hc : ¬ a.Degree ≥ b.Degree := not_le.2 hlt
  cases fuel with
  | zero => simp [PolySparse.Polynomial.divmodLoop, hc]
  | succ n => simp [PolySparse.Polynomial.divmodLoop, hc]

/-- The quotient returned by `divmod` has no key above
`Degree a - Degree b`. -/
theorem divmod_quotient_keys (dv : N → N → N) (fuel : Nat) (a b : PolySparse.Polynomial N)
    (ha : a.ordered) (h0 : b.Degree ≠ -1)
    (r : PolySparse.Polynomial N × PolySparse.Polynomial N)
    (h : a.divmod dv fuel b = some r) :
    ∀ kv ∈ r.1.coef_, (kv.1 : Int) ≤ a.Degree - b.Degree := by
  unfold PolySparse.Polynomial.divmod at h
  rw [if_neg h0] at h
  cases hl : PolySparse.Polynomial.divmodLoop dv b fuel (a, PolySparse.Polynomial.zero) with
  | none => rw [hl] at h; cases h
  | some s =>
    rw [hl] at h
    cases h
    have := divmodLoop_rule dv b
      (fun st => st.1.ordered ∧ st.2.ordered ∧ st.1.Degree ≤ a.Degree ∧
        ∀ kv ∈ st.2.coef_, (kv.1 : Int) ≤ a.Degree - b.Degree)
      (fun st hst hge => by
        obtain ⟨h1, h2, hd, hk⟩ := hst
        have hord := divmodStep_ordered dv b st h1 h2
        have hlt := divmodStep_Degree_lt dv b st h1 hge h0
        refine ⟨hord.1, hord.2, by omega, ?_⟩
        intro kv hkv
        rw [divmodStep_snd] at hkv
        rcases key_addAssign hkv with ⟨kv', hkv', e⟩ | hle
        · rw [← e]; exact hk kv' hkv'
        · rw [Degree_single] at hle
          omega)
      fuel _ s ⟨ha, ordered_zero, le_refl _, by rw [zero_coef]; simp⟩ hl
    intro kv hkv
    exact this.1.2.2.2 kv (mem_normalize hkv)

end QuotientDegree

end PolySparseSpec

namespace PolySparseSpec

open PolySparse (find assign slot Asc)

section Claims

variable {N : Type}

/-- C1: over a field, for canonical `A` and nonzero canonical `B`, `divmod`
returns, and the quotient `Q = A / B` and remainder `R = A % B` satisfy
`A == Q * B + R` and `Degree R < Degree B`. -/
theorem divmod_quotient_remainder [Field N] [DecidableEq N]
    (A B : PolySparse.Polynomial N) (hA : A.ordered) (zA : A.noZero) (hB : B.ordered)
    (zB : B.noZero) (hB0 : B ≠ PolySparse.Polynomial.zero) :
    (∃ fuel Q R, A.div (fun x y => x / y) fuel B = some Q ∧
        A.mod (fun x y => x / y) fuel B = some R) ∧
      ∀ fuel Q R, A.div (fun x y => x / y) fuel B = some Q →
        A.mod (fun x y => x / y) fuel B = some R →
        A.eq ((Q.mul B).add R) = true ∧ R.Degree < B.Degree := by
  have h0 := (ne_zero_iff_Degree B).1 hB0
  constructor
  · obtain ⟨r, hr⟩ := divmod_terminates (fun x y => x / y) A B hA _ (le_refl _)
    exact ⟨(A.Degree + 1).toNat, r.1, r.2, by rw [PolySparse.Polynomial.div, hr]; rfl,
      by rw [PolySparse.Polynomial.mod, hr]; rfl⟩
  · intro fuel Q R hQ hR
    cases hr : A.divmod (fun x y => x / y) fuel B with
    | none => simp [PolySparse.Polynomial.div, hr] at hQ
    | some r =>
      simp only [PolySparse.Polynomial.div, hr, Option.map_some', Option.some.injEq] at hQ
      simp only [PolySparse.Polynomial.mod, hr, Option.map_some', Option.some.injEq] at hR
      subst hQ hR
      obtain ⟨PA, hPA⟩ := represents_exists A hA
      obtain ⟨PB, hPB⟩ := represents_exists B hB
      obtain ⟨Q, R, hQ, hR, e⟩ := divmod_field fuel A B hA hB zB h0 hPA hPB r hr
      obtain ⟨o1, z1, o2, z2, hdeg⟩ := divmod_shape (fun x y => x / y) fuel A B hA h0 r hr
      refine ⟨?_, hdeg⟩
      have hsum : Represents ((r.1.mul B).add r.2) PA := by
        rw [e]
        exact represents_addAssign (ordered_mul _ _) o2 (represents_mul o1 hB hQ hPB) hR
      have := eq_of_represents hA (ordered_addAssign _ (ordered_mul _ _)) zA
        (noZero_addAssign _ _) hPA hsum
      simp only [PolySparse.Polynomial.eq, decide_eq_true_eq]
      exact congrArg _ this

/-- C1 at `A = x^3 - 1`, `B = x - 1` over the rationals. -/
theorem divmod_quotient_remainder_witness :
    (∃ fuel Q R,
        PolySparse.Polynomial.div (fun x y : ℚ => x / y) fuel ⟨[(0, -1), (3, 1)]⟩
          ⟨[(0, -1), (1, 1)]⟩ = some Q ∧
        PolySparse.Polynomial.mod (fun x y : ℚ => x / y) fuel ⟨[(0, -1), (3, 1)]⟩
          ⟨[(0, -1), (1, 1)]⟩ = some R) ∧
      ∀ fuel Q R,
        PolySparse.Polynomial.div (fun x y : ℚ => x / y) fuel ⟨[(0, -1), (3, 1)]⟩
          ⟨[(0, -1), (1, 1)]⟩ = some Q →
        PolySparse.Polynomial.mod (fun x y : ℚ => x / y) fuel ⟨[(0, -1), (3, 1)]⟩
          ⟨[(0, -1), (1, 1)]⟩ = some R →
        PolySparse.Polynomial.eq (⟨[(0, -1), (3, 1)]⟩ : PolySparse.Polynomial ℚ)
            ((Q.mul ⟨[(0, -1), (1, 1)]⟩).add R) = true ∧
          R.Degree < (⟨[(0, -1), (1, 1)]⟩ : PolySparse.Polynomial ℚ).Degree :=
  divmod_quotient_remainder ⟨[(0, -1), (3, 1)]⟩ ⟨[(0, -1), (1, 1)]⟩
    (by decide) (by decide) (by decide) (by decide) (by decide)

end Claims

end PolySparseSpec

namespace PolySparseSpec

open PolySparse (find assign slot Asc)

section ClaimsGcd

variable {N : Type}

theorem mod_by_zero [Zero N] [Add N] [Sub N] [Mul N] [DecidableEq N] (dv : N → N → N)
    (f : Nat) (a g : PolySparse.Polynomial N) (hg : g.Degree = -1) :
    a.mod dv f g = some a := by
  simp [PolySparse.Polynomial.mod, PolySparse.Polynomial.divmod, hg]

/-- C2: over a field, for canonical `a` and `b`, `operator ,` returns, and
the value `g` it returns divides both inputs: `a % g` and `b % g` are the
zero polynomial. -/
theorem gcd_divides_both [Field N] [DecidableEq N] (a b : PolySparse.Polynomial N)
    (ha : a.ordered) (za : a.noZero) (hb : b.ordered) (zb : b.noZero) :
    (∃ fuel g, a.gcd (fun x y => x / y) fuel b = some g) ∧
      ∀ fuel g, a.gcd (fun x y => x / y) fuel b = some g →
        (∃ f, a.mod (fun x y => x / y) f g = some PolySparse.Polynomial.zero) ∧
        (∃ f, b.mod (fun x y => x / y) f g = some PolySparse.Polynomial.zero) := by
  constructor
  · obtain ⟨g, hg⟩ := gcd_terminates (fun x y => x / y) a b ha hb
      (max (a.Degree + 1).toNat (b.Degree + 1).toNat) (le_max_left _ _) (le_max_right _ _)
    exact ⟨_, g, hg⟩
  · intro fuel g hg
    obtain ⟨A, hA⟩ := represents_exists a ha
    obtain ⟨B, hB⟩ := represents_exists b hb
    obtain ⟨og, zg, _, G, hG, hdvd⟩ := gcd_field fuel a b g ha za hb zb hA hB hg
    have hGAB := (hdvd G).1 (dvd_refl G)
    by_cases h0 : g.Degree = -1
    · have hG0 : G = 0 := (represents_zero_iff og zg hG).2 ((Degree_eq_neg_one_iff g).1 h0)
      rw [hG0] at hGAB
      have hA0 : A = 0 := zero_dvd_iff.1 hGAB.1
      have hB0 : B = 0 := zero_dvd_iff.1 hGAB.2
      refine ⟨⟨0, ?_⟩, ⟨0, ?_⟩⟩
      · rw [mod_by_zero _ _ _ _ h0, (represents_eq_zero_iff ha za hA).1 hA0]
      · rw [mod_by_zero _ _ _ _ h0, (represents_eq_zero_iff hb zb hB).1 hB0]
    · exact ⟨(mod_zero_iff_dvd a g ha og zg h0 hA hG).2 hGAB.1,
        (mod_zero_iff_dvd b g hb og zg h0 hB hG).2 hGAB.2⟩

/-- C2 at `a = x^2 - 1`, `b = x^2 - 2x + 1` over the rationals, where
`gcd(a, b) = x - 1`. -/
theorem gcd_divides_both_witness :
    PolySparse.Polynomial.gcd (fun x y : ℚ => x / y) 3 ⟨[(0, -1), (2, 1)]⟩
        ⟨[(0, 1), (1, -2), (2, 1)]⟩ = some ⟨[(0, -1), (1, 1)]⟩ ∧
      ((∃ fuel g, PolySparse.Polynomial.gcd (fun x y : ℚ => x / y) fuel
          ⟨[(0, -1), (2, 1)]⟩ ⟨[(0, 1), (1, -2), (2, 1)]⟩ = some g) ∧
        ∀ fuel g, PolySparse.Polynomial.gcd (fun x y : ℚ => x / y) fuel
            ⟨[(0, -1), (2, 1)]⟩ ⟨[(0, 1), (1, -2), (2, 1)]⟩ = some g →
          (∃ f, PolySparse.Polynomial.mod (fun x y : ℚ => x / y) f ⟨[(0, -1), (2, 1)]⟩ g
            = some PolySparse.Polynomial.zero) ∧
          (∃ f, PolySparse.Polynomial.mod (fun x y : ℚ => x / y) f
            ⟨[(0, 1), (1, -2), (2, 1)]⟩ g = some PolySparse.Polynomial.zero)) :=
  ⟨by with_unfolding_all decide,
    gcd_divides_both ⟨[(0, -1), (2, 1)]⟩ ⟨[(0, 1), (1, -2), (2, 1)]⟩
      (by decide) (by decide) (by decide) (by decide)⟩

/-- C3: over a field, for canonical `a` and `b`, the value `g` returned by
`operator ,` is the zero polynomial exactly when `a` and `b` are both zero,
and otherwise its coefficient at `Degree` is the one of `N`. -/
theorem gcd_monic_or_zero [Field N] [DecidableEq N] (a b : PolySparse.Polynomial N)
    (ha : a.ordered) (za : a.noZero) (hb : b.ordered) (zb : b.noZero) :
    (∃ fuel g, a.gcd (fun x y => x / y) fuel b = some g) ∧
      ∀ fuel g, a.gcd (fun x y => x / y) fuel b = some g →
        (g = PolySparse.Polynomial.zero ↔
          (a = PolySparse.Polynomial.zero ∧ b = PolySparse.Polynomial.zero)) ∧
        (g ≠ PolySparse.Polynomial.zero → g.coefficient g.Degree.toNat = 1) := by
  constructor
  · obtain ⟨g, hg⟩ := gcd_terminates (fun x y => x / y) a b ha hb
      (max (a.Degree + 1).toNat (b.Degree + 1).toNat) (le_max_left _ _) (le_max_right _ _)
    exact ⟨_, g, hg⟩
  · intro fuel g hg
    obtain ⟨A, hA⟩ := represents_exists a ha
    obtain ⟨B, hB⟩ := represents_exists b hb
    obtain ⟨og, zg, hlead, G, hG, hdvd⟩ := gcd_field fuel a b g ha za hb zb hA hB hg
    constructor
    · rw [← represents_eq_zero_iff og zg hG, ← represents_eq_zero_iff ha za hA,
        ← represents_eq_zero_iff hb zb hB]
      constructor
      · intro h0
        have := (hdvd G).1 (dvd_refl G)
        rw [h0] at this
        exact ⟨zero_dvd_iff.1 this.1, zero_dvd_iff.1 this.2⟩
      · rintro ⟨hA0, hB0⟩
        have := (hdvd 0).2 ⟨by rw [hA0], by rw [hB0]⟩
        exact zero_dvd_iff.1 this
    · intro hne
      have h0 := (ne_zero_iff_Degree g).1 hne
      have hne' : g.coef_ ≠ [] := fun e => h0 ((Degree_eq_neg_one_iff g).2 e)
      rw [coefficient_Degree og hne']
      exact hlead h0

/-- C3 at `a = x^2 - 1`, `b = x^2 - 2x + 1` over the rationals. -/
theorem gcd_monic_or_zero_witness :
    (∃ fuel g, PolySparse.Polynomial.gcd (fun x y : ℚ => x / y) fuel
        ⟨[(0, -1), (2, 1)]⟩ ⟨[(0, 1), (1, -2), (2, 1)]⟩ = some g) ∧
      ∀ fuel g, PolySparse.Polynomial.gcd (fun x y : ℚ => x / y) fuel
          ⟨[(0, -1), (2, 1)]⟩ ⟨[(0, 1), (1, -2), (2, 1)]⟩ = some g →
        (g = PolySparse.Polynomial.zero ↔
          ((⟨[(0, -1), (2, 1)]⟩ : PolySparse.Polynomial ℚ) = PolySparse.Polynomial.zero ∧
            (⟨[(0, 1), (1, -2), (2, 1)]⟩ : PolySparse.Polynomial ℚ)
              = PolySparse.Polynomial.zero)) ∧
        (g ≠ PolySparse.Polynomial.zero → g.coefficient g.Degree.toNat = 1) :=
  gcd_monic_or_zero ⟨[(0, -1), (2, 1)]⟩ ⟨[(0, 1), (1, -2), (2, 1)]⟩
    (by decide) (by decide) (by decide) (by decide)

/-- Over a field the value returned by `operator ,` leaves remainder zero
in both inputs. -/
theorem gcd_remainders_zero [Field N] [DecidableEq N] (fuel : Nat)
    (a b g : PolySparse.Polynomial N) (ha : a.ordered) (za : a.noZero) (hb : b.ordered)
    (zb : b.noZero) (hg : a.gcd (fun x y => x / y) fuel b = some g) :
    (∃ f, a.mod (fun x y => x / y) f g = some PolySparse.Polynomial.zero) ∧
      (∃ f, b.mod (fun x y => x / y) f g = some PolySparse.Polynomial.zero) := by
  obtain ⟨A, hA⟩ := represents_exists a ha
  obtain ⟨B, hB⟩ := represents_exists b hb
  obtain ⟨og, zg, _, G, hG, hdvd⟩ := gcd_field fuel a b g ha za hb zb hA hB hg
  have hGAB := (hdvd G).1 (dvd_refl G)
  by_cases h0 : g.Degree = -1
  · have hG0 : G = 0 := (represents_zero_iff og zg hG).2 ((Degree_eq_neg_one_iff g).1 h0)
    rw [hG0] at hGAB
    have hA0 : A = 0 := zero_dvd_iff.1 hGAB.1
    have hB0 : B = 0 := zero_dvd_iff.1 hGAB.2
    refine ⟨⟨0, ?_⟩, ⟨0, ?_⟩⟩
    · rw [mod_by_zero _ _ _ _ h0, (represents_eq_zero_iff ha za hA).1 hA0]
    · rw [mod_by_zero _ _ _ _ h0, (represents_eq_zero_iff hb zb hB).1 hB0]
  · exact ⟨(mod_zero_iff_dvd a g ha og zg h0 hA hG).2 hGAB.1,
      (mod_zero_iff_dvd b g hb og zg h0 hB hG).2 hGAB.2⟩

/-- C4: over a field, for canonical `a`, `b` and nonzero canonical `d` with
`a % d` and `b % d` zero: `operator ,` returns, the value `g` it returns is a
common divisor of the inputs (`a % g` and `b % g` are zero), and `d` divides
it (`g % d` is zero); so `g` is the greatest common divisor, and it is
nonzero unless both inputs are zero. -/
theorem gcd_greatest [Field N] [DecidableEq N] (a b d : PolySparse.Polynomial N)
    (ha : a.ordered) (za : a.noZero) (hb : b.ordered) (zb : b.noZero)
    (hd : d.ordered) (zd : d.noZero) (hd0 : d ≠ PolySparse.Polynomial.zero)
    (hda : ∃ f, a.mod (fun x y => x / y) f d = some PolySparse.Polynomial.zero)
    (hdb : ∃ f, b.mod (fun x y => x / y) f d = some PolySparse.Polynomial.zero) :
    (∃ fuel g, a.gcd (fun x y => x / y) fuel b = some g) ∧
      ∀ fuel g, a.gcd (fun x y => x / y) fuel b = some g →
        (∃ f, a.mod (fun x y => x / y) f g = some PolySparse.Polynomial.zero) ∧
        (∃ f, b.mod (fun x y => x / y) f g = some PolySparse.Polynomial.zero) ∧
        (∃ f, g.mod (fun x y => x / y) f d = some PolySparse.Polynomial.zero) ∧
        (g = PolySparse.Polynomial.zero →
          a = PolySparse.Polynomial.zero ∧ b = PolySparse.Polynomial.zero) := by
  constructor
  · obtain ⟨g, hg⟩ := gcd_terminates (fun x y => x / y) a b ha hb
      (max (a.Degree + 1).toNat (b.Degree + 1).toNat) (le_max_left _ _) (le_max_right _ _)
    exact ⟨_, g, hg⟩
  · intro fuel g hg
    have h0 := (ne_zero_iff_Degree d).1 hd0
    obtain ⟨A, hA⟩ := represents_exists a ha
    obtain ⟨B, hB⟩ := represents_exists b hb
    obtain ⟨D, hD⟩ := represents_exists d hd
    obtain ⟨og, zg, _, G, hG, hdvd⟩ := gcd_field fuel a b g ha za hb zb hA hB hg
    have h1 := (mod_zero_iff_dvd a d ha hd zd h0 hA hD).1 hda
    have h2 := (mod_zero_iff_dvd b d hb hd zd h0 hB hD).1 hdb
    have hrem := gcd_remainders_zero fuel a b g ha za hb zb hg
    refine ⟨hrem.1, hrem.2,
      (mod_zero_iff_dvd g d og hd zd h0 hG hD).2 ((hdvd D).2 ⟨h1, h2⟩), ?_⟩
    intro hg0
    have hG0 : G = 0 := (represents_eq_zero_iff og zg hG).2 hg0
    have hGAB := (hdvd G).1 (dvd_refl G)
    rw [hG0] at hGAB
    exact ⟨(represents_eq_zero_iff ha za hA).1 (zero_dvd_iff.1 hGAB.1),
      (represents_eq_zero_iff hb zb hB).1 (zero_dvd_iff.1 hGAB.2)⟩

/-- C4 at `a = x^3 - x`, `b = x^2 + 2x + 1`, `d = 3x + 3` over the rationals:
`gcd(a, b) = x + 1`, which leaves remainder zero in `a` and `b` and is
divided by `d`. -/
theorem gcd_greatest_witness :
    PolySparse.Polynomial.gcd (fun x y : ℚ => x / y) 4 ⟨[(1, -1), (3, 1)]⟩
        ⟨[(0, 1), (1, 2), (2, 1)]⟩ = some ⟨[(0, 1), (1, 1)]⟩ ∧
      PolySparse.Polynomial.mod (fun x y : ℚ => x / y) 4 ⟨[(1, -1), (3, 1)]⟩
        ⟨[(0, 1), (1, 1)]⟩ = some PolySparse.Polynomial.zero ∧
      PolySparse.Polynomial.mod (fun x y : ℚ => x / y) 4 ⟨[(0, 1), (1, 2), (2, 1)]⟩
        ⟨[(0, 1), (1, 1)]⟩ = some PolySparse.Polynomial.zero ∧
      PolySparse.Polynomial.mod (fun x y : ℚ => x / y) 4 ⟨[(0, 1), (1, 1)]⟩
        ⟨[(0, 3), (1, 3)]⟩ = some PolySparse.Polynomial.zero ∧
      ((∃ fuel g, PolySparse.Polynomial.gcd (fun x y : ℚ => x / y) fuel
          ⟨[(1, -1), (3, 1)]⟩ ⟨[(0, 1), (1, 2), (2, 1)]⟩ = some g) ∧
        ∀ fuel g, PolySparse.Polynomial.gcd (fun x y : ℚ => x / y) fuel
            ⟨[(1, -1), (3, 1)]⟩ ⟨[(0, 1), (1, 2), (2, 1)]⟩ = some g →
          (∃ f, PolySparse.Polynomial.mod (fun x y : ℚ => x / y) f ⟨[(1, -1), (3, 1)]⟩ g
            = some PolySparse.Polynomial.zero) ∧
          (∃ f, PolySparse.Polynomial.mod (fun x y : ℚ => x / y) f
            ⟨[(0, 1), (1, 2), (2, 1)]⟩ g = some PolySparse.Polynomial.zero) ∧
          (∃ f, g.mod (fun x y : ℚ => x / y) f ⟨[(0, 3), (1, 3)]⟩
            = some PolySparse.Polynomial.zero) ∧
          (g = PolySparse.Polynomial.zero →
            (⟨[(1, -1), (3, 1)]⟩ : PolySparse.Polynomial ℚ) = PolySparse.Polynomial.zero ∧
            (⟨[(0, 1), (1, 2), (2, 1)]⟩ : PolySparse.Polynomial ℚ)
              = PolySparse.Polynomial.zero)) :=
  ⟨by with_unfolding_all decide, by with_unfolding_all decide,
    by with_unfolding_all decide, by with_unfolding_all decide,
    gcd_greatest ⟨[(1, -1), (3, 1)]⟩ ⟨[(0, 1), (1, 2), (2, 1)]⟩ ⟨[(0, 3), (1, 3)]⟩
      (by decide) (by decide) (by decide) (by decide) (by decide) (by decide) (by decide)
      ⟨4, by with_unfolding_all decide⟩ ⟨4, by with_unfolding_all decide⟩⟩

end ClaimsGcd

end PolySparseSpec

namespace PolySparseSpec

open PolySparse (find assign slot Asc)

section ClaimsSparsity

variable {N : Type}

/-- C5: for every carrier (no algebraic law assumed, any `operator /`), the
constructors build values without stored zeros, and `+=`, `+`, `-=`, `-`,
`*`, `*=`, `&` and `divmod` (so `/`, `/=`, `%`, `%=`) applied to a canonical
left operand return values without stored zeros; `divmod` does return. -/
theorem sparsity_established_and_preserved [Zero N] [One N] [Add N] [Sub N] [Mul N]
    [DecidableEq N] (dv : N → N → N) (x : N) (cs : List N)
    (a b : PolySparse.Polynomial N) (ha : a.ordered) (za : a.noZero) :
    (PolySparse.Polynomial.zero : PolySparse.Polynomial N).noZero ∧
      (PolySparse.Polynomial.ofNum x).noZero ∧
      (PolySparse.Polynomial.ofVector cs).noZero ∧
      (PolySparse.Polynomial.ofIter cs).noZero ∧
      (a.addAssign b).noZero ∧ (a.add b).noZero ∧
      (a.subAssign b).noZero ∧ (a.sub b).noZero ∧
      (a.mul b).noZero ∧ (a.mulAssign b).noZero ∧
      (a.compose b).noZero ∧
      (∃ fuel qr, a.divmod dv fuel b = some qr) ∧
      (∀ fuel qr, a.divmod dv fuel b = some qr → qr.1.noZero ∧ qr.2.noZero) ∧
      (∀ fuel q, a.div dv fuel b = some q → q.noZero) ∧
      (∀ fuel r, a.mod dv fuel b = some r → r.noZero) := by
  have hdm : ∀ fuel qr, a.divmod dv fuel b = some qr → qr.1.noZero ∧ qr.2.noZero := by
    intro fuel qr h
    by_cases h0 : b.Degree = -1
    · simp only [PolySparse.Polynomial.divmod, h0, if_true, Option.some.injEq] at h
      subst h
      exact ⟨noZero_zero, za⟩
    · obtain ⟨_, z1, _, z2, _⟩ := divmod_shape dv fuel a b ha h0 qr h
      exact ⟨z1, z2⟩
  refine ⟨noZero_zero, noZero_normalize _, noZero_normalize _, noZero_normalize _,
    noZero_addAssign _ _, noZero_addAssign _ _, noZero_subAssign _ _, noZero_subAssign _ _,
    noZero_mul _ _, noZero_mul _ _, noZero_normalize _, ?_, hdm, ?_, ?_⟩
  · obtain ⟨r, hr⟩ := divmod_terminates dv a b ha _ (le_refl _)
    exact ⟨_, r, hr⟩
  · intro fuel q h
    cases hr : a.divmod dv fuel b with
    | none => simp [PolySparse.Polynomial.div, hr] at h
    | some qr =>
      simp only [PolySparse.Polynomial.div, hr, Option.map_some', Option.some.injEq] at h
      subst h
      exact (hdm fuel qr hr).1
  · intro fuel r h
    cases hr : a.divmod dv fuel b with
    | none => simp [PolySparse.Polynomial.mod, hr] at h
    | some qr =>
      simp only [PolySparse.Polynomial.mod, hr, Option.map_some', Option.some.injEq] at h
      subst h
      exact (hdm fuel qr hr).2

/-- C5 at the integers with truncating division, `a = x`, `b = 2x`. -/
theorem sparsity_established_and_preserved_witness :
    (PolySparse.Polynomial.zero : PolySparse.Polynomial ℤ).noZero ∧
      (PolySparse.Polynomial.ofNum (0 : ℤ)).noZero ∧
      (PolySparse.Polynomial.ofVector [0, 0, 3, 0, (-1 : ℤ)]).noZero ∧
      (PolySparse.Polynomial.ofIter [0, 0, 3, 0, (-1 : ℤ)]).noZero ∧
      (PolySparse.Polynomial.addAssign (⟨[(1, 1)]⟩ : PolySparse.Polynomial ℤ)
        ⟨[(1, 2)]⟩).noZero ∧
      (PolySparse.Polynomial.add (⟨[(1, 1)]⟩ : PolySparse.Polynomial ℤ) ⟨[(1, 2)]⟩).noZero ∧
      (PolySparse.Polynomial.subAssign (⟨[(1, 1)]⟩ : PolySparse.Polynomial ℤ)
        ⟨[(1, 2)]⟩).noZero ∧
      (PolySparse.Polynomial.sub (⟨[(1, 1)]⟩ : PolySparse.Polynomial ℤ) ⟨[(1, 2)]⟩).noZero ∧
      (PolySparse.Polynomial.mul (⟨[(1, 1)]⟩ : PolySparse.Polynomial ℤ) ⟨[(1, 2)]⟩).noZero ∧
      (PolySparse.Polynomial.mulAssign (⟨[(1, 1)]⟩ : PolySparse.Polynomial ℤ)
        ⟨[(1, 2)]⟩).noZero ∧
      (PolySparse.Polynomial.compose (⟨[(1, 1)]⟩ : PolySparse.Polynomial ℤ)
        ⟨[(1, 2)]⟩).noZero ∧
      (∃ fuel qr, PolySparse.Polynomial.divmod Int.tdiv fuel
        (⟨[(1, 1)]⟩ : PolySparse.Polynomial ℤ) ⟨[(1, 2)]⟩ = some qr) ∧
      (∀ fuel qr, PolySparse.Polynomial.divmod Int.tdiv fuel
        (⟨[(1, 1)]⟩ : PolySparse.Polynomial ℤ) ⟨[(1, 2)]⟩ = some qr →
          qr.1.noZero ∧ qr.2.noZero) ∧
      (∀ fuel q, PolySparse.Polynomial.div Int.tdiv fuel
        (⟨[(1, 1)]⟩ : PolySparse.Polynomial ℤ) ⟨[(1, 2)]⟩ = some q → q.noZero) ∧
      (∀ fuel r, PolySparse.Polynomial.mod Int.tdiv fuel
        (⟨[(1, 1)]⟩ : PolySparse.Polynomial ℤ) ⟨[(1, 2)]⟩ = some r → r.noZero) :=
  sparsity_established_and_preserved Int.tdiv 0 [0, 0, 3, 0, -1] ⟨[(1, 1)]⟩ ⟨[(1, 2)]⟩
    (by decide) (by decide)

/-- C6 fails on the code: with the integers and truncating division,
`gcd(2x + 1, 0)` is returned as the map `{0 ↦ 0, 1 ↦ 1}`, for every budget;
`1 / 2` truncates to a stored zero that `operator ,` never erases. -/
theorem gcd_int_stores_zero :
    PolySparse.Polynomial.ofVector [(1 : ℤ), 2] = ⟨[(0, 1), (1, 2)]⟩ ∧
      (∀ fuel, PolySparse.Polynomial.gcd Int.tdiv fuel
        (PolySparse.Polynomial.ofVector [(1 : ℤ), 2]) PolySparse.Polynomial.zero
          = some ⟨[(0, 0), (1, 1)]⟩) ∧
      ¬ (⟨[(0, 0), (1, 1)]⟩ : PolySparse.Polynomial ℤ).noZero := by
  refine ⟨by decide, ?_, by decide⟩
  intro fuel
  cases fuel with
  | zero => decide
  | succ n =>
    have h : (PolySparse.Polynomial.zero : PolySparse.Polynomial ℤ).Degree = -1 := by decide
    simp only [PolySparse.Polynomial.gcd, PolySparse.Polynomial.gcdLoop, h, ne_eq,
      not_true_eq_false, if_false, Option.map_some', Option.some.injEq]
    decide

end ClaimsSparsity

end PolySparseSpec

namespace PolySparseSpec

open PolySparse (find assign slot Asc)

section ClaimsRing

variable {N : Type}

/-- C7: over a commutative ring the coefficient of `a * b` at `k` is the
convolution, the sum of `a[i] * b[j]` over all pairs with `i + j = k`. -/
theorem mul_coefficient_convolution [CommRing N] [DecidableEq N]
    (a b : PolySparse.Polynomial N) (ha : a.ordered) (hb : b.ordered) (k : Nat) :
    (a.mul b).coefficient k
      = ∑ ij ∈ Finset.antidiagonal k, a.coefficient ij.1 * b.coefficient ij.2 := by
  obtain ⟨A, hA⟩ := represents_exists a ha
  obtain ⟨B, hB⟩ := represents_exists b hb
  rw [← represents_mul ha hb hA hB k, Polynomial.coeff_mul]
  exact Finset.sum_congr rfl (fun ij _ => by rw [hA, hB])

/-- C7 at `a = x - 1`, `b = x + 1` over the integers, exponent `2`. -/
theorem mul_coefficient_convolution_witness :
    (PolySparse.Polynomial.mul (⟨[(0, -1), (1, 1)]⟩ : PolySparse.Polynomial ℤ)
        ⟨[(0, 1), (1, 1)]⟩).coefficient 2
      = ∑ ij ∈ Finset.antidiagonal 2,
          (⟨[(0, -1), (1, 1)]⟩ : PolySparse.Polynomial ℤ).coefficient ij.1
            * (⟨[(0, 1), (1, 1)]⟩ : PolySparse.Polynomial ℤ).coefficient ij.2 :=
  mul_coefficient_convolution ⟨[(0, -1), (1, 1)]⟩ ⟨[(0, 1), (1, 1)]⟩
    (by decide) (by decide) 2

/-- C8: over a commutative ring, for canonical `a`, `b`, `c`, the ring laws
hold as equalities of maps (`operator ==`). -/
theorem ring_laws [CommRing N] [DecidableEq N] (a b c : PolySparse.Polynomial N)
    (ha : a.ordered) (za : a.noZero) (hb : b.ordered) (hc : c.ordered) :
    (a.add b).eq (b.add a) = true ∧
      ((a.add b).add c).eq (a.add (b.add c)) = true ∧
      (a.add PolySparse.Polynomial.zero).eq a = true ∧
      (a.sub a).eq PolySparse.Polynomial.zero = true ∧
      (a.mul (PolySparse.Polynomial.ofNum 1)).eq a = true ∧
      (a.mul b).eq (b.mul a) = true ∧
      ((a.mul b).mul c).eq (a.mul (b.mul c)) = true ∧
      (a.mul (b.add c)).eq ((a.mul b).add (a.mul c)) = true := by
  obtain ⟨A, hA⟩ := represents_exists a ha
  obtain ⟨B, hB⟩ := represents_exists b hb
  obtain ⟨C, hC⟩ := represents_exists c hc
  refine ⟨?_, ?_, ?_, ?_, ?_, ?_, ?_, ?_⟩
  · exact eq_true_of_represents (ordered_add _ ha) (noZero_add _ _) (ordered_add _ hb)
      (noZero_add _ _) (represents_add ha hb hA hB) (represents_add hb ha hB hA)
      (add_comm A B)
  · exact eq_true_of_represents (ordered_add _ (ordered_add _ ha)) (noZero_add _ _)
      (ordered_add _ ha) (noZero_add _ _)
      (represents_add (ordered_add _ ha) hc (represents_add ha hb hA hB) hC)
      (represents_add ha (ordered_add _ hb) hA (represents_add hb hc hB hC))
      (add_assoc A B C)
  · exact eq_true_of_represents (ordered_add _ ha) (noZero_add _ _) ha za
      (represents_add ha ordered_zero hA represents_zero) hA (add_zero A)
  · exact eq_true_of_represents (ordered_sub _ ha) (noZero_sub _ _) ordered_zero
      noZero_zero (represents_sub ha ha hA hA) represents_zero (sub_self A)
  · exact eq_true_of_represents (ordered_mul _ _) (noZero_mul _ _) ha za
      (represents_mul ha (ordered_ofNum 1) hA (represents_ofNum 1)) hA
      (by rw [Polynomial.C_1, mul_one])
  · exact eq_true_of_represents (ordered_mul _ _) (noZero_mul _ _) (ordered_mul _ _)
      (noZero_mul _ _) (represents_mul ha hb hA hB) (represents_mul hb ha hB hA)
      (mul_comm A B)
  · exact eq_true_of_represents (ordered_mul _ _) (noZero_mul _ _) (ordered_mul _ _)
      (noZero_mul _ _)
      (represents_mul (ordered_mul _ _) hc (represents_mul ha hb hA hB) hC)
      (represents_mul ha (ordered_mul _ _) hA (represents_mul hb hc hB hC))
      (mul_assoc A B C)
  · exact eq_true_of_represents (ordered_mul _ _) (noZero_mul _ _)
      (ordered_add _ (ordered_mul _ _)) (noZero_add _ _)
      (represents_mul ha (ordered_add _ hb) hA (represents_add hb hc hB hC))
      (represents_add (ordered_mul _ _) (ordered_mul _ _) (represents_mul ha hb hA hB)
        (represents_mul ha hc hA hC))
      (mul_add A B C)

/-- C8 at `a = x - 1`, `b = x + 1`, `c = 2x^2` over the integers. -/
theorem ring_laws_witness :
    PolySparse.Polynomial.eq
        (PolySparse.Polynomial.add (⟨[(0, -1), (1, 1)]⟩ : PolySparse.Polynomial ℤ)
          ⟨[(0, 1), (1, 1)]⟩)
        (PolySparse.Polynomial.add ⟨[(0, 1), (1, 1)]⟩ ⟨[(0, -1), (1, 1)]⟩) = true ∧
      PolySparse.Polynomial.eq
        (PolySparse.Polynomial.add (PolySparse.Polynomial.add
          (⟨[(0, -1), (1, 1)]⟩ : PolySparse.Polynomial ℤ) ⟨[(0, 1), (1, 1)]⟩) ⟨[(2, 2)]⟩)
        (PolySparse.Polynomial.add ⟨[(0, -1), (1, 1)]⟩
          (PolySparse.Polynomial.add ⟨[(0, 1), (1, 1)]⟩ ⟨[(2, 2)]⟩)) = true ∧
      PolySparse.Polynomial.eq
        (PolySparse.Polynomial.add (⟨[(0, -1), (1, 1)]⟩ : PolySparse.Polynomial ℤ)
          PolySparse.Polynomial.zero) ⟨[(0, -1), (1, 1)]⟩ = true ∧
      PolySparse.Polynomial.eq
        (PolySparse.Polynomial.sub (⟨[(0, -1), (1, 1)]⟩ : PolySparse.Polynomial ℤ)
          ⟨[(0, -1), (1, 1)]⟩) PolySparse.Polynomial.zero = true ∧
      PolySparse.Polynomial.eq
        (PolySparse.Polynomial.mul (⟨[(0, -1), (1, 1)]⟩ : PolySparse.Polynomial ℤ)
          (PolySparse.Polynomial.ofNum 1)) ⟨[(0, -1), (1, 1)]⟩ = true ∧
      PolySparse.Polynomial.eq
        (PolySparse.Polynomial.mul (⟨[(0, -1), (1, 1)]⟩ : PolySparse.Polynomial ℤ)
          ⟨[(0, 1), (1, 1)]⟩)
        (PolySparse.Polynomial.mul ⟨[(0, 1), (1, 1)]⟩ ⟨[(0, -1), (1, 1)]⟩) = true ∧
      PolySparse.Polynomial.eq
        (PolySparse.Polynomial.mul (PolySparse.Polynomial.mul
          (⟨[(0, -1), (1, 1)]⟩ : PolySparse.Polynomial ℤ) ⟨[(0, 1), (1, 1)]⟩) ⟨[(2, 2)]⟩)
        (PolySparse.Polynomial.mul ⟨[(0, -1), (1, 1)]⟩
          (PolySparse.Polynomial.mul ⟨[(0, 1), (1, 1)]⟩ ⟨[(2, 2)]⟩)) = true ∧
      PolySparse.Polynomial.eq
        (PolySparse.Polynomial.mul (⟨[(0, -1), (1, 1)]⟩ : PolySparse.Polynomial ℤ)
          (PolySparse.Polynomial.add ⟨[(0, 1), (1, 1)]⟩ ⟨[(2, 2)]⟩))
        (PolySparse.Polynomial.add
          (PolySparse.Polynomial.mul ⟨[(0, -1), (1, 1)]⟩ ⟨[(0, 1), (1, 1)]⟩)
          (PolySparse.Polynomial.mul ⟨[(0, -1), (1, 1)]⟩ ⟨[(2, 2)]⟩)) = true :=
  ring_laws ⟨[(0, -1), (1, 1)]⟩ ⟨[(0, 1), (1, 1)]⟩ ⟨[(2, 2)]⟩
    (by decide) (by decide) (by decide) (by decide)

/-- C9: over a commutative ring, `(a + b)[i] = a[i] + b[i]` and
`(a - b)[i] = a[i] - b[i]` at every exponent, and `operator[]` is zero at an
exponent that is not a key. -/
theorem add_sub_coefficient [CommRing N] [DecidableEq N] (a b : PolySparse.Polynomial N)
    (ha : a.ordered) (hb : b.ordered) (i : Nat) :
    (a.add b).coefficient i = a.coefficient i + b.coefficient i ∧
      (a.sub b).coefficient i = a.coefficient i - b.coefficient i ∧
      (a.addAssign b).coefficient i = a.coefficient i + b.coefficient i ∧
      (a.subAssign b).coefficient i = a.coefficient i - b.coefficient i ∧
      ((∀ kv ∈ a.coef_, kv.1 ≠ i) → a.coefficient i = 0) :=
  ⟨coefficient_addAssign ha hb i, coefficient_subAssign ha hb i,
    coefficient_addAssign ha hb i, coefficient_subAssign ha hb i,
    fun h => by rw [PolySparse.Polynomial.coefficient, find_eq_none_of_not_mem h]⟩

/-- C9 at `a = x^2 + 1`, `b = x^3 - 1` over the integers, exponent `3`
(present in `b` only). -/
theorem add_sub_coefficient_witness :
    (PolySparse.Polynomial.add (⟨[(0, 1), (2, 1)]⟩ : PolySparse.Polynomial ℤ)
        ⟨[(0, -1), (3, 1)]⟩).coefficient 3
      = (⟨[(0, 1), (2, 1)]⟩ : PolySparse.Polynomial ℤ).coefficient 3
        + (⟨[(0, -1), (3, 1)]⟩ : PolySparse.Polynomial ℤ).coefficient 3 ∧
      (PolySparse.Polynomial.sub (⟨[(0, 1), (2, 1)]⟩ : PolySparse.Polynomial ℤ)
        ⟨[(0, -1), (3, 1)]⟩).coefficient 3
      = (⟨[(0, 1), (2, 1)]⟩ : PolySparse.Polynomial ℤ).coefficient 3
        - (⟨[(0, -1), (3, 1)]⟩ : PolySparse.Polynomial ℤ).coefficient 3 ∧
      (PolySparse.Polynomial.addAssign (⟨[(0, 1), (2, 1)]⟩ : PolySparse.Polynomial ℤ)
        ⟨[(0, -1), (3, 1)]⟩).coefficient 3
      = (⟨[(0, 1), (2, 1)]⟩ : PolySparse.Polynomial ℤ).coefficient 3
        + (⟨[(0, -1), (3, 1)]⟩ : PolySparse.Polynomial ℤ).coefficient 3 ∧
      (PolySparse.Polynomial.subAssign (⟨[(0, 1), (2, 1)]⟩ : PolySparse.Polynomial ℤ)
        ⟨[(0, -1), (3, 1)]⟩).coefficient 3
      = (⟨[(0, 1), (2, 1)]⟩ : PolySparse.Polynomial ℤ).coefficient 3
        - (⟨[(0, -1), (3, 1)]⟩ : PolySparse.Polynomial ℤ).coefficient 3 ∧
      ((∀ kv ∈ (⟨[(0, 1), (2, 1)]⟩ : PolySparse.Polynomial ℤ).coef_, kv.1 ≠ 3) →
        (⟨[(0, 1), (2, 1)]⟩ : PolySparse.Polynomial ℤ).coefficient 3 = 0) :=
  add_sub_coefficient ⟨[(0, 1), (2, 1)]⟩ ⟨[(0, -1), (3, 1)]⟩ (by decide) (by decide) 3

/-- C10: over a commutative ring, `operator()` is additive and multiplicative:
`(a + b)(x0) = a(x0) + b(x0)` and `(a * b)(x0) = a(x0) * b(x0)`. -/
theorem eval_add_mul [CommRing N] [DecidableEq N] (a b : PolySparse.Polynomial N)
    (ha : a.ordered) (hb : b.ordered) (x0 : N) :
    (a.add b).eval x0 = a.eval x0 + b.eval x0 ∧
      (a.mul b).eval x0 = a.eval x0 * b.eval x0 := by
  obtain ⟨A, hA⟩ := represents_exists a ha
  obtain ⟨B, hB⟩ := represents_exists b hb
  rw [eval_represents (ordered_add _ ha) (represents_add ha hb hA hB),
    eval_represents (ordered_mul _ _) (represents_mul ha hb hA hB),
    eval_represents ha hA, eval_represents hb hB, Polynomial.eval_add, Polynomial.eval_mul]
  exact ⟨rfl, rfl⟩

/-- C10 at `a = 2x^2 + 3x + 5`, `b = x - 1`, `x0 = 4` over the integers,
with `a(4) = 49`. -/
theorem eval_add_mul_witness :
    PolySparse.Polynomial.eval (PolySparse.Polynomial.ofVector [(5 : ℤ), 3, 2]) 4 = 49 ∧
      PolySparse.Polynomial.ofVector [(5 : ℤ), 3, 2] = ⟨[(0, 5), (1, 3), (2, 2)]⟩ ∧
      (PolySparse.Polynomial.eval (PolySparse.Polynomial.add
          (⟨[(0, 5), (1, 3), (2, 2)]⟩ : PolySparse.Polynomial ℤ) ⟨[(0, -1), (1, 1)]⟩) 4
        = PolySparse.Polynomial.eval
            (⟨[(0, 5), (1, 3), (2, 2)]⟩ : PolySparse.Polynomial ℤ) 4
          + PolySparse.Polynomial.eval (⟨[(0, -1), (1, 1)]⟩ : PolySparse.Polynomial ℤ) 4 ∧
        PolySparse.Polynomial.eval (PolySparse.Polynomial.mul
          (⟨[(0, 5), (1, 3), (2, 2)]⟩ : PolySparse.Polynomial ℤ) ⟨[(0, -1), (1, 1)]⟩) 4
        = PolySparse.Polynomial.eval
            (⟨[(0, 5), (1, 3), (2, 2)]⟩ : PolySparse.Polynomial ℤ) 4
          * PolySparse.Polynomial.eval (⟨[(0, -1), (1, 1)]⟩ : PolySparse.Polynomial ℤ) 4) :=
  ⟨by decide, by decide,
    eval_add_mul ⟨[(0, 5), (1, 3), (2, 2)]⟩ ⟨[(0, -1), (1, 1)]⟩ (by decide) (by decide) 4⟩

end ClaimsRing

end PolySparseSpec

namespace PolySparseSpec

open PolySparse (find assign slot Asc)

section ClaimsCompose

variable {N : Type}

/-- C11: over a commutative ring, evaluating the composition is composing
the evaluations: `(a & b)(x0) = a(b(x0))`. -/
theorem compose_eval [CommRing N] [DecidableEq N] (a b : PolySparse.Polynomial N)
    (ha : a.ordered) (hb : b.ordered) (x0 : N) :
    (a.compose b).eval x0 = a.eval (b.eval x0) := by
  obtain ⟨A, hA⟩ := represents_exists a ha
  obtain ⟨B, hB⟩ := represents_exists b hb
  obtain ⟨hc, hC⟩ := represents_compose ha hb hA hB
  rw [eval_represents hc hC, eval_represents ha hA, eval_represents hb hB,
    Polynomial.eval_comp]

/-- C11 at `a = x^2 + 1`, `b = x + 1`, `x0 = 3` over the integers, with
`a & b == x^2 + 2x + 2`. -/
theorem compose_eval_witness :
    PolySparse.Polynomial.eq
        (PolySparse.Polynomial.compose (⟨[(0, 1), (2, 1)]⟩ : PolySparse.Polynomial ℤ)
          ⟨[(0, 1), (1, 1)]⟩) ⟨[(0, 2), (1, 2), (2, 1)]⟩ = true ∧
      PolySparse.Polynomial.eval
          (PolySparse.Polynomial.compose (⟨[(0, 1), (2, 1)]⟩ : PolySparse.Polynomial ℤ)
            ⟨[(0, 1), (1, 1)]⟩) 3
        = PolySparse.Polynomial.eval (⟨[(0, 1), (2, 1)]⟩ : PolySparse.Polynomial ℤ)
            (PolySparse.Polynomial.eval (⟨[(0, 1), (1, 1)]⟩ : PolySparse.Polynomial ℤ) 3) :=
  ⟨by decide, compose_eval ⟨[(0, 1), (2, 1)]⟩ ⟨[(0, 1), (1, 1)]⟩ (by decide) (by decide) 3⟩

/-- C12: for every carrier, every dividend `A` and every budget, division by
the zero polynomial returns without running the loop: `A / 0` is the zero
polynomial and `A % 0` is `A` itself (so `A /= 0` leaves zero and `A %= 0`
leaves `A`). -/
theorem div_by_zero [Zero N] [Add N] [Sub N] [Mul N] [DecidableEq N] (dv : N → N → N)
    (fuel : Nat) (A : PolySparse.Polynomial N) :
    A.divmod dv fuel PolySparse.Polynomial.zero = some (PolySparse.Polynomial.zero, A) ∧
      A.div dv fuel PolySparse.Polynomial.zero = some PolySparse.Polynomial.zero ∧
      A.mod dv fuel PolySparse.Polynomial.zero = some A ∧
      (∀ R, A.mod dv fuel PolySparse.Polynomial.zero = some R → R.eq A = true) := by
  have h0 : (PolySparse.Polynomial.zero : PolySparse.Polynomial N).Degree = -1 := by
    rw [zero_eq]; rfl
  have hd : A.divmod dv fuel PolySparse.Polynomial.zero
      = some (PolySparse.Polynomial.zero, A) := by
    unfold PolySparse.Polynomial.divmod
    rw [if_pos h0]
  refine ⟨hd, ?_, ?_, ?_⟩
  · rw [PolySparse.Polynomial.div, hd]; rfl
  · rw [PolySparse.Polynomial.mod, hd]; rfl
  · intro R hR
    rw [PolySparse.Polynomial.mod, hd] at hR
    cases hR
    simp [PolySparse.Polynomial.eq]

/-- C12 at `A = x + 1` over the integers: `(x + 1) / 0 = 0` and
`(x + 1) % 0 = x + 1`. -/
theorem div_by_zero_witness :
    PolySparse.Polynomial.divmod Int.tdiv 0 (⟨[(0, 1), (1, 1)]⟩ : PolySparse.Polynomial ℤ)
        PolySparse.Polynomial.zero
        = some (PolySparse.Polynomial.zero, ⟨[(0, 1), (1, 1)]⟩) ∧
      PolySparse.Polynomial.div Int.tdiv 0 (⟨[(0, 1), (1, 1)]⟩ : PolySparse.Polynomial ℤ)
        PolySparse.Polynomial.zero = some PolySparse.Polynomial.zero ∧
      PolySparse.Polynomial.mod Int.tdiv 0 (⟨[(0, 1), (1, 1)]⟩ : PolySparse.Polynomial ℤ)
        PolySparse.Polynomial.zero = some ⟨[(0, 1), (1, 1)]⟩ ∧
      (∀ R, PolySparse.Polynomial.mod Int.tdiv 0
          (⟨[(0, 1), (1, 1)]⟩ : PolySparse.Polynomial ℤ) PolySparse.Polynomial.zero = some R →
        R.eq ⟨[(0, 1), (1, 1)]⟩ = true) :=
  div_by_zero Int.tdiv 0 ⟨[(0, 1), (1, 1)]⟩

/-- C13: for an integer polynomial without stored zeros, the text written by
`operator <<` is the text the specification describes (`printSpec`: `0` for
the zero polynomial, else sign, magnitude, `*`, `x`, `^` and exponent of each
stored term), and the terms are taken in strictly descending exponent
order. -/
theorem print_matches_spec (p : PolySparse.Polynomial ℤ) (hp : p.ordered)
    (zp : p.noZero) :
    p.print = p.printSpec ∧
      p.coef_.reverse.Pairwise (fun a b => a.1 > b.1) ∧
      (p = PolySparse.Polynomial.zero → p.print = "0") := by
  refine ⟨print_eq_printSpec p zp, List.pairwise_reverse.2 hp, ?_⟩
  intro h0
  rw [print_eq_printSpec p zp, h0]
  rfl

/-- C13 on the examples of the specification. -/
theorem print_matches_spec_witness :
    (PolySparse.Polynomial.ofVector [0, 0, 3, 0, (-1 : ℤ)]).print = "-x^4+3*x^2" ∧
      (PolySparse.Polynomial.print ⟨[(2, 2)]⟩ = "2*x^2" ∧
        PolySparse.Polynomial.print ⟨[(0, -1), (2, 1)]⟩ = "x^2-1" ∧
        PolySparse.Polynomial.print ⟨[(0, 1), (1, 1), (2, 1)]⟩ = "x^2+x+1" ∧
        PolySparse.Polynomial.print ⟨[]⟩ = "0" ∧
        PolySparse.Polynomial.print ⟨[(1, -1)]⟩ = "-x" ∧
        PolySparse.Polynomial.print ⟨[(0, -1)]⟩ = "-1" ∧
        PolySparse.Polynomial.print ⟨[(1, 1)]⟩ = "x") ∧
      ((⟨[(2, 3), (4, -1)]⟩ : PolySparse.Polynomial ℤ).print
          = (⟨[(2, 3), (4, -1)]⟩ : PolySparse.Polynomial ℤ).printSpec ∧
        (⟨[(2, 3), (4, -1)]⟩ : PolySparse.Polynomial ℤ).coef_.reverse.Pairwise
          (fun a b => a.1 > b.1) ∧
        ((⟨[(2, 3), (4, -1)]⟩ : PolySparse.Polynomial ℤ) = PolySparse.Polynomial.zero →
          (⟨[(2, 3), (4, -1)]⟩ : PolySparse.Polynomial ℤ).print = "0")) :=
  ⟨by decide, by decide, print_matches_spec ⟨[(2, 3), (4, -1)]⟩ (by decide) (by decide)⟩

/-- C14: for every carrier and every finite sequence `cs`, the polynomial
built from it stores exactly the pairs `(i, cs[i])` with `cs[i] ≠ 0`, in
ascending key order; `operator[]` reads `cs[i]` below the length and zero
beyond; `Degree` is the largest index holding a nonzero element, and `-1`
when there is none.  The scalar constructor at zero and the default
constructor give the empty map, and `Degree = -1` exactly for the zero
polynomial. -/
theorem constructor_contents [Zero N] [DecidableEq N] (cs : List N) :
    (∀ i v, (i, v) ∈ (PolySparse.Polynomial.ofVector cs).coef_ ↔ (cs[i]? = some v ∧ v ≠ 0)) ∧
      (PolySparse.Polynomial.ofVector cs).ordered ∧
      (∀ i, (PolySparse.Polynomial.ofVector cs).coefficient i = cs.getD i 0) ∧
      (∀ i : Nat, (PolySparse.Polynomial.ofVector cs).Degree < (i : Int) → cs.getD i 0 = 0) ∧
      ((PolySparse.Polynomial.ofVector cs).Degree ≠ -1 →
        0 ≤ (PolySparse.Polynomial.ofVector cs).Degree ∧
        cs.getD (PolySparse.Polynomial.ofVector cs).Degree.toNat 0 ≠ 0) ∧
      ((∀ i, cs.getD i 0 = 0) → (PolySparse.Polynomial.ofVector cs).Degree = -1) ∧
      (PolySparse.Polynomial.ofNum (0 : N)).coef_ = [] ∧
      (PolySparse.Polynomial.zero : PolySparse.Polynomial N).coef_ = [] ∧
      (PolySparse.Polynomial.zero : PolySparse.Polynomial N).Degree = -1 ∧
      (∀ p : PolySparse.Polynomial N, p.Degree = -1 ↔ p = PolySparse.Polynomial.zero) := by
  have hord : (PolySparse.Polynomial.ofVector cs).ordered := ordered_ofIter cs
  have hz : (PolySparse.Polynomial.ofVector cs).noZero := noZero_normalize _
  have hcoef : ∀ i, (PolySparse.Polynomial.ofVector cs).coefficient i = cs.getD i 0 :=
    coefficient_ofIter cs
  have hdeg : (PolySparse.Polynomial.ofVector cs).Degree ≠ -1 →
      0 ≤ (PolySparse.Polynomial.ofVector cs).Degree ∧
      cs.getD (PolySparse.Polynomial.ofVector cs).Degree.toNat 0 ≠ 0 := by
    intro hne
    have hne' : (PolySparse.Polynomial.ofVector cs).coef_ ≠ [] :=
      fun e => hne ((Degree_eq_neg_one_iff _).2 e)
    refine ⟨Degree_nonneg hne, ?_⟩
    rw [← hcoef, coefficient_Degree hord hne']
    exact leading_ne_zero hz hne'
  refine ⟨mem_ofIter cs, hord, hcoef, ?_, hdeg, ?_, zero_coef, zero_coef, ?_, ?_⟩
  · intro i hi
    rw [← hcoef]
    exact coefficient_eq_zero_of_Degree_lt hord hi
  · intro hall
    by_contra hne
    exact (hdeg hne).2 (hall _)
  · rw [zero_eq]; rfl
  · intro p
    exact (eq_zero_iff_Degree p).symm

/-- C14 at the sequence `(0, 0, 3, 0, -1)` over the integers: the terms are
`{(2, 3), (4, -1)}` and `Degree` is `4`. -/
theorem constructor_contents_witness :
    PolySparse.Polynomial.ofVector [0, 0, 3, 0, (-1 : ℤ)] = ⟨[(2, 3), (4, -1)]⟩ ∧
      (PolySparse.Polynomial.ofVector [0, 0, 3, 0, (-1 : ℤ)]).Degree = 4 ∧
      (PolySparse.Polynomial.ofVector [0, 0, 3, 0, (-1 : ℤ)]).ordered ∧
      (∀ i, (PolySparse.Polynomial.ofVector [0, 0, 3, 0, (-1 : ℤ)]).coefficient i
        = [0, 0, 3, 0, (-1 : ℤ)].getD i 0) :=
  ⟨by decide, by decide,
    (constructor_contents [0, 0, 3, 0, (-1 : ℤ)]).2.1,
    (constructor_contents [0, 0, 3, 0, (-1 : ℤ)]).2.2.1⟩

/-- C15: for canonical `a` and `b` over any carrier, `a == b` holds exactly
when `a[i] = b[i]` at every exponent, and `a != b` is the negation of
`a == b`. -/
theorem eq_iff_coefficients [Zero N] [DecidableEq N] (a b : PolySparse.Polynomial N)
    (ha : a.ordered) (za : a.noZero) (hb : b.ordered) (zb : b.noZero) :
    (a.eq b = true ↔ ∀ i, a.coefficient i = b.coefficient i) ∧
      a.ne b = !(a.eq b) := by
  constructor
  · constructor
    · intro h i
      simp only [PolySparse.Polynomial.eq, decide_eq_true_eq] at h
      unfold PolySparse.Polynomial.coefficient
      rw [h]
    · intro h
      have := polynomial_ext ha hb za zb h
      simp only [PolySparse.Polynomial.eq, decide_eq_true_eq]
      rw [this]
  · simp [PolySparse.Polynomial.eq, PolySparse.Polynomial.ne]

/-- C15 at `a = x^2 - 1`, `b = x^2 + 1` over the integers. -/
theorem eq_iff_coefficients_witness :
    (PolySparse.Polynomial.eq (⟨[(0, -1), (2, 1)]⟩ : PolySparse.Polynomial ℤ)
          ⟨[(0, 1), (2, 1)]⟩ = true ↔
        ∀ i, (⟨[(0, -1), (2, 1)]⟩ : PolySparse.Polynomial ℤ).coefficient i
          = (⟨[(0, 1), (2, 1)]⟩ : PolySparse.Polynomial ℤ).coefficient i) ∧
      PolySparse.Polynomial.ne (⟨[(0, -1), (2, 1)]⟩ : PolySparse.Polynomial ℤ)
          ⟨[(0, 1), (2, 1)]⟩
        = !(PolySparse.Polynomial.eq (⟨[(0, -1), (2, 1)]⟩ : PolySparse.Polynomial ℤ)
          ⟨[(0, 1), (2, 1)]⟩) :=
  eq_iff_coefficients ⟨[(0, -1), (2, 1)]⟩ ⟨[(0, 1), (2, 1)]⟩
    (by decide) (by decide) (by decide) (by decide)

end ClaimsCompose

end PolySparseSpec

namespace PolySparseSpec

open PolySparse (find assign slot Asc)

section ClaimsDivision

variable {N : Type}

/-- C16: for every carrier and every `operator /`: each pass of the loop of
`divmod` by a nonzero `B` strictly lowers `Degree` of the running remainder,
the loop exits within `Degree A - Degree B + 1` passes, each pass of the loop
of `operator ,` strictly lowers `Degree` of the second operand, and
`operator ,` returns. -/
theorem division_and_gcd_terminate [Zero N] [Add N] [Sub N] [Mul N] [DecidableEq N]
    (dv : N → N → N) (A B : PolySparse.Polynomial N) (hA : A.ordered) (hB : B.ordered) :
    (B ≠ PolySparse.Polynomial.zero →
        (∀ st : PolySparse.Polynomial N × PolySparse.Polynomial N, st.1.ordered →
          st.1.Degree ≥ B.Degree →
          (PolySparse.Polynomial.divmodStep dv B st).1.Degree < st.1.Degree) ∧
        (∃ r, PolySparse.Polynomial.divmodLoop dv B (A.Degree - B.Degree + 1).toNat
          (A, PolySparse.Polynomial.zero) = some r) ∧
        (∃ r, A.divmod dv (A.Degree - B.Degree + 1).toNat B = some r)) ∧
      (∀ inner (that other : PolySparse.Polynomial N) qr, that.ordered →
        other.Degree ≠ -1 → that.divmod dv inner other = some qr →
        qr.2.Degree < other.Degree) ∧
      (∃ fuel g, A.gcd dv fuel B = some g) := by
  refine ⟨?_, ?_, ?_⟩
  · intro hB0
    have h0 := (ne_zero_iff_Degree B).1 hB0
    have hloop := divmodLoop_terminates dv B h0 (A.Degree - B.Degree + 1).toNat
      (A, PolySparse.Polynomial.zero) hA ordered_zero (le_refl _)
    refine ⟨fun st h1 hge => divmodStep_Degree_lt dv B st h1 hge h0, hloop, ?_⟩
    obtain ⟨r, hr⟩ := hloop
    unfold PolySparse.Polynomial.divmod
    rw [if_neg h0, hr]
    exact ⟨_, rfl⟩
  · intro inner that other qr ht h0 hd
    exact (divmod_shape dv inner that other ht h0 qr hd).2.2.2.2
  · obtain ⟨g, hg⟩ := gcd_terminates dv A B hA hB
      (max (A.Degree + 1).toNat (B.Degree + 1).toNat) (le_max_left _ _) (le_max_right _ _)
    exact ⟨_, g, hg⟩

/-- C16 at the integers with truncating division, `A = x`, `B = 2x`. -/
theorem division_and_gcd_terminate_witness :
    ((⟨[(1, 2)]⟩ : PolySparse.Polynomial ℤ) ≠ PolySparse.Polynomial.zero →
        (∀ st : PolySparse.Polynomial ℤ × PolySparse.Polynomial ℤ, st.1.ordered →
          st.1.Degree ≥ (⟨[(1, 2)]⟩ : PolySparse.Polynomial ℤ).Degree →
          (PolySparse.Polynomial.divmodStep Int.tdiv ⟨[(1, 2)]⟩ st).1.Degree < st.1.Degree) ∧
        (∃ r, PolySparse.Polynomial.divmodLoop Int.tdiv ⟨[(1, 2)]⟩
          ((⟨[(1, 1)]⟩ : PolySparse.Polynomial ℤ).Degree
            - (⟨[(1, 2)]⟩ : PolySparse.Polynomial ℤ).Degree + 1).toNat
          (⟨[(1, 1)]⟩, PolySparse.Polynomial.zero) = some r) ∧
        (∃ r, PolySparse.Polynomial.divmod Int.tdiv
          ((⟨[(1, 1)]⟩ : PolySparse.Polynomial ℤ).Degree
            - (⟨[(1, 2)]⟩ : PolySparse.Polynomial ℤ).Degree + 1).toNat
          ⟨[(1, 1)]⟩ ⟨[(1, 2)]⟩ = some r)) ∧
      (∀ inner (that other : PolySparse.Polynomial ℤ) qr, that.ordered →
        other.Degree ≠ -1 → that.divmod Int.tdiv inner other = some qr →
        qr.2.Degree < other.Degree) ∧
      (∃ fuel g, PolySparse.Polynomial.gcd Int.tdiv fuel
        (⟨[(1, 1)]⟩ : PolySparse.Polynomial ℤ) ⟨[(1, 2)]⟩ = some g) :=
  division_and_gcd_terminate Int.tdiv ⟨[(1, 1)]⟩ ⟨[(1, 2)]⟩ (by decide) (by decide)

/-- C17: over the integers with truncating division the division identity
can fail: for `A = x` and `B = 2x` the guard is taken (the subtraction leaves
`Degree` at `1`), `divmod` returns quotient `0` and remainder `0` for every
positive budget, and `A != Q * B + R`. -/
theorem int_division_identity_fails :
    (⟨[(1, 1)]⟩ : PolySparse.Polynomial ℤ).ordered ∧
      (⟨[(1, 1)]⟩ : PolySparse.Polynomial ℤ).noZero ∧
      (⟨[(1, 2)]⟩ : PolySparse.Polynomial ℤ).ordered ∧
      (⟨[(1, 2)]⟩ : PolySparse.Polynomial ℤ).noZero ∧
      (⟨[(1, 2)]⟩ : PolySparse.Polynomial ℤ) ≠ PolySparse.Polynomial.zero ∧
      (PolySparse.Polynomial.divmodStepNoGuard Int.tdiv ⟨[(1, 2)]⟩
          ((⟨[(1, 1)]⟩ : PolySparse.Polynomial ℤ), PolySparse.Polynomial.zero)).1.Degree
        = (⟨[(1, 1)]⟩ : PolySparse.Polynomial ℤ).Degree ∧
      (∀ fuel, PolySparse.Polynomial.divmod Int.tdiv (fuel + 1)
          (⟨[(1, 1)]⟩ : PolySparse.Polynomial ℤ) ⟨[(1, 2)]⟩
        = some (PolySparse.Polynomial.zero, PolySparse.Polynomial.zero)) ∧
      PolySparse.Polynomial.ne (⟨[(1, 1)]⟩ : PolySparse.Polynomial ℤ)
        ((PolySparse.Polynomial.mul PolySparse.Polynomial.zero ⟨[(1, 2)]⟩).add
          PolySparse.Polynomial.zero) = true := by
  refine ⟨by decide, by decide, by decide, by decide, by decide, by decide, ?_, by decide⟩
  intro fuel
  have h1 : PolySparse.Polynomial.divmod Int.tdiv 1
      (⟨[(1, 1)]⟩ : PolySparse.Polynomial ℤ) ⟨[(1, 2)]⟩
      = some (PolySparse.Polynomial.zero, PolySparse.Polynomial.zero) := by decide
  have := divmod_mono Int.tdiv 1 fuel _ _ _ h1
  rwa [Nat.add_comm] at this

/-- C18: over a field, for canonical `A` and nonzero canonical `B`: in every
pass of the loop of `divmod` the subtraction alone strictly lowers `Degree`
of the remainder, the loop body equals the body without the guard, and
`divmod` returns what the loop without the guard returns. -/
theorem guard_dead_over_field [Field N] [DecidableEq N] (A B : PolySparse.Polynomial N)
    (hA : A.ordered) (hB : B.ordered) (zB : B.noZero)
    (hB0 : B ≠ PolySparse.Polynomial.zero) :
    (∀ st : PolySparse.Polynomial N × PolySparse.Polynomial N, st.1.ordered →
        st.2.ordered → st.1.Degree ≥ B.Degree →
        (PolySparse.Polynomial.divmodStepNoGuard (fun x y => x / y) B st).1.Degree
            < st.1.Degree ∧
          PolySparse.Polynomial.divmodStep (fun x y => x / y) B st
            = PolySparse.Polynomial.divmodStepNoGuard (fun x y => x / y) B st) ∧
      (∀ fuel, A.divmod (fun x y => x / y) fuel B
        = A.divmodNoGuard (fun x y => x / y) fuel B) ∧
      (∃ fuel r, A.divmod (fun x y => x / y) fuel B = some r ∧
        A.divmodNoGuard (fun x y => x / y) fuel B = some r) := by
  have h0 := (ne_zero_iff_Degree B).1 hB0
  have hall : ∀ fuel, A.divmod (fun x y => x / y) fuel B
      = A.divmodNoGuard (fun x y => x / y) fuel B :=
    fun fuel => divmod_eq_noGuard _ A B hA hB (field_exact zB h0) fuel
  refine ⟨?_, hall, ?_⟩
  · intro st h1 h2 hge
    obtain ⟨PB, hPB⟩ := represents_exists B hB
    obtain ⟨R, hR⟩ := represents_exists st.1 h1
    obtain ⟨Q, hQ⟩ := represents_exists st.2 h2
    have := divmodStep_exact (fun x y => x / y) B st hB h0 h1 h2 hge
      (field_exact zB h0 _) hPB hR hQ
    rw [divmodStepNoGuard_eq]
    exact ⟨this.1, Prod.ext this.2.1 (divmodStep_snd _ B st)⟩
  · obtain ⟨r, hr⟩ := divmod_terminates (fun x y => x / y) A B hA _ (le_refl _)
    exact ⟨_, r, hr, by rw [← hall]; exact hr⟩

/-- C18 at `A = x^3 - 1`, `B = x - 1` over the rationals. -/
theorem guard_dead_over_field_witness :
    (∀ st : PolySparse.Polynomial ℚ × PolySparse.Polynomial ℚ, st.1.ordered →
        st.2.ordered → st.1.Degree ≥ (⟨[(0, -1), (1, 1)]⟩ : PolySparse.Polynomial ℚ).Degree →
        (PolySparse.Polynomial.divmodStepNoGuard (fun x y : ℚ => x / y)
            ⟨[(0, -1), (1, 1)]⟩ st).1.Degree < st.1.Degree ∧
          PolySparse.Polynomial.divmodStep (fun x y : ℚ => x / y) ⟨[(0, -1), (1, 1)]⟩ st
            = PolySparse.Polynomial.divmodStepNoGuard (fun x y : ℚ => x / y)
                ⟨[(0, -1), (1, 1)]⟩ st) ∧
      (∀ fuel, PolySparse.Polynomial.divmod (fun x y : ℚ => x / y) fuel
          ⟨[(0, -1), (3, 1)]⟩ ⟨[(0, -1), (1, 1)]⟩
        = PolySparse.Polynomial.divmodNoGuard (fun x y : ℚ => x / y) fuel
          ⟨[(0, -1), (3, 1)]⟩ ⟨[(0, -1), (1, 1)]⟩) ∧
      (∃ fuel r, PolySparse.Polynomial.divmod (fun x y : ℚ => x / y) fuel
          ⟨[(0, -1), (3, 1)]⟩ ⟨[(0, -1), (1, 1)]⟩ = some r ∧
        PolySparse.Polynomial.divmodNoGuard (fun x y : ℚ => x / y) fuel
          ⟨[(0, -1), (3, 1)]⟩ ⟨[(0, -1), (1, 1)]⟩ = some r) :=
  guard_dead_over_field ⟨[(0, -1), (3, 1)]⟩ ⟨[(0, -1), (1, 1)]⟩
    (by decide) (by decide) (by decide) (by decide)

/-- C19: for every carrier and every `operator /`, every `A` and every
nonzero `B`: `divmod` returns, `Degree (A % B) < Degree B`, and the quotient
`A / B` is zero when `Degree A < Degree B` and has `Degree` at most
`Degree A - Degree B` otherwise. -/
theorem remainder_and_quotient_degree [Zero N] [Add N] [Sub N] [Mul N] [DecidableEq N]
    (dv : N → N → N) (A B : PolySparse.Polynomial N) (hA : A.ordered)
    (hB0 : B ≠ PolySparse.Polynomial.zero) :
    (∃ fuel Q R, A.div dv fuel B = some Q ∧ A.mod dv fuel B = some R) ∧
      ∀ fuel Q R, A.div dv fuel B = some Q → A.mod dv fuel B = some R →
        R.Degree < B.Degree ∧
        (A.Degree < B.Degree → Q = PolySparse.Polynomial.zero) ∧
        (B.Degree ≤ A.Degree → Q.Degree ≤ A.Degree - B.Degree) := by
  have h0 := (ne_zero_iff_Degree B).1 hB0
  constructor
  · obtain ⟨r, hr⟩ := divmod_terminates dv A B hA _ (le_refl _)
    exact ⟨(A.Degree + 1).toNat, r.1, r.2, by rw [PolySparse.Polynomial.div, hr]; rfl,
      by rw [PolySparse.Polynomial.mod, hr]; rfl⟩
  · intro fuel Q R hQ hR
    cases hr : A.divmod dv fuel B with
    | none => simp [PolySparse.Polynomial.div, hr] at hQ
    | some r =>
      simp only [PolySparse.Polynomial.div, hr, Option.map_some', Option.some.injEq] at hQ
      simp only [PolySparse.Polynomial.mod, hr, Option.map_some', Option.some.injEq] at hR
      subst hQ hR
      refine ⟨(divmod_shape dv fuel A B hA h0 r hr).2.2.2.2, ?_, ?_⟩
      · intro hlt
        rw [divmod_of_Degree_lt dv fuel A B h0 hlt] at hr
        cases hr
        exact normalize_of_noZero noZero_zero
      · intro hle
        exact Degree_le_of_keys (by omega) (divmod_quotient_keys dv fuel A B hA h0 r hr)

/-- C19 at the integers with truncating division, `A = 3x^2 + 1`,
`B = 2x`. -/
theorem remainder_and_quotient_degree_witness :
    (∃ fuel Q R, PolySparse.Polynomial.div Int.tdiv fuel
          (⟨[(0, 1), (2, 3)]⟩ : PolySparse.Polynomial ℤ) ⟨[(1, 2)]⟩ = some Q ∧
        PolySparse.Polynomial.mod Int.tdiv fuel
          (⟨[(0, 1), (2, 3)]⟩ : PolySparse.Polynomial ℤ) ⟨[(1, 2)]⟩ = some R) ∧
      ∀ fuel Q R, PolySparse.Polynomial.div Int.tdiv fuel
          (⟨[(0, 1), (2, 3)]⟩ : PolySparse.Polynomial ℤ) ⟨[(1, 2)]⟩ = some Q →
        PolySparse.Polynomial.mod Int.tdiv fuel
          (⟨[(0, 1), (2, 3)]⟩ : PolySparse.Polynomial ℤ) ⟨[(1, 2)]⟩ = some R →
        R.Degree < (⟨[(1, 2)]⟩ : PolySparse.Polynomial ℤ).Degree ∧
        ((⟨[(0, 1), (2, 3)]⟩ : PolySparse.Polynomial ℤ).Degree
            < (⟨[(1, 2)]⟩ : PolySparse.Polynomial ℤ).Degree →
          Q = PolySparse.Polynomial.zero) ∧
        ((⟨[(1, 2)]⟩ : PolySparse.Polynomial ℤ).Degree
            ≤ (⟨[(0, 1), (2, 3)]⟩ : PolySparse.Polynomial ℤ).Degree →
          Q.Degree ≤ (⟨[(0, 1), (2, 3)]⟩ : PolySparse.Polynomial ℤ).Degree
            - (⟨[(1, 2)]⟩ : PolySparse.Polynomial ℤ).Degree) :=
  remainder_and_quotient_degree Int.tdiv ⟨[(0, 1), (2, 3)]⟩ ⟨[(1, 2)]⟩
    (by decide) (by decide)

/-- C20: over the integers with truncating division, for canonical `A` and a
`B` whose leading coefficient is `1`: `divmod` returns, `A == Q * B + R`,
`Degree R < Degree B`, and the guard is never taken (the loop body equals the
body without the guard, and `divmod` the version without the guard). -/
theorem int_monic_division_exact (A B : PolySparse.Polynomial ℤ) (hA : A.ordered)
    (zA : A.noZero) (hB : B.ordered) (hB1 : B.leading = 1) :
    (∃ fuel Q R, A.div Int.tdiv fuel B = some Q ∧ A.mod Int.tdiv fuel B = some R) ∧
      (∀ fuel Q R, A.div Int.tdiv fuel B = some Q → A.mod Int.tdiv fuel B = some R →
        A.eq ((Q.mul B).add R) = true ∧ R.Degree < B.Degree) ∧
      (∀ st : PolySparse.Polynomial ℤ × PolySparse.Polynomial ℤ, st.1.ordered →
        st.2.ordered → st.1.Degree ≥ B.Degree →
        PolySparse.Polynomial.divmodStep Int.tdiv B st
          = PolySparse.Polynomial.divmodStepNoGuard Int.tdiv B st) ∧
      (∀ fuel, A.divmod Int.tdiv fuel B = A.divmodNoGuard Int.tdiv fuel B) := by
  have h0 : B.Degree ≠ -1 := by
    intro e
    have hnil := (Degree_eq_neg_one_iff B).1 e
    have : B.leading = 0 := by
      simp [PolySparse.Polynomial.leading, hnil]
    omega
  have hex : ∀ x, B.leading * Int.tdiv x B.leading = x := by
    intro x
    rw [hB1, Int.tdiv_one, one_mul]
  refine ⟨?_, ?_, ?_, fun fuel => divmod_eq_noGuard Int.tdiv A B hA hB hex fuel⟩
  · obtain ⟨r, hr⟩ := divmod_terminates Int.tdiv A B hA _ (le_refl _)
    exact ⟨(A.Degree + 1).toNat, r.1, r.2, by rw [PolySparse.Polynomial.div, hr]; rfl,
      by rw [PolySparse.Polynomial.mod, hr]; rfl⟩
  · intro fuel Q R hQ hR
    cases hr : A.divmod Int.tdiv fuel B with
    | none => simp [PolySparse.Polynomial.div, hr] at hQ
    | some r =>
      simp only [PolySparse.Polynomial.div, hr, Option.map_some', Option.some.injEq] at hQ
      simp only [PolySparse.Polynomial.mod, hr, Option.map_some', Option.some.injEq] at hR
      subst hQ hR
      obtain ⟨PA, hPA⟩ := represents_exists A hA
      obtain ⟨PB, hPB⟩ := represents_exists B hB
      obtain ⟨Q, R, hQ, hR, e⟩ := divmod_exact Int.tdiv fuel A B hA hB h0 hex hPA hPB r hr
      obtain ⟨o1, z1, o2, z2, hdeg⟩ := divmod_shape Int.tdiv fuel A B hA h0 r hr
      refine ⟨?_, hdeg⟩
      have hsum : Represents ((r.1.mul B).add r.2) PA := by
        rw [e]
        exact represents_addAssign (ordered_mul _ _) o2 (represents_mul o1 hB hQ hPB) hR
      exact eq_true_of_represents hA zA (ordered_add _ (ordered_mul _ _)) (noZero_add _ _)
        hPA hsum rfl
  · intro st h1 h2 hge
    obtain ⟨PB, hPB⟩ := represents_exists B hB
    obtain ⟨R, hR⟩ := represents_exists st.1 h1
    obtain ⟨Q, hQ⟩ := represents_exists st.2 h2
    have := divmodStep_exact Int.tdiv B st hB h0 h1 h2 hge (hex _) hPB hR hQ
    rw [divmodStepNoGuard_eq]
    exact Prod.ext this.2.1 (divmodStep_snd _ B st)

/-- C20 at `A = x^3 - 1`, `B = x - 1`: the quotient is `x^2 + x + 1` and the
remainder `0`. -/
theorem int_monic_division_exact_witness :
    PolySparse.Polynomial.divmod Int.tdiv 3 (⟨[(0, -1), (3, 1)]⟩ : PolySparse.Polynomial ℤ)
        ⟨[(0, -1), (1, 1)]⟩
        = some (⟨[(0, 1), (1, 1), (2, 1)]⟩, PolySparse.Polynomial.zero) ∧
      ((∃ fuel Q R, PolySparse.Polynomial.div Int.tdiv fuel
            (⟨[(0, -1), (3, 1)]⟩ : PolySparse.Polynomial ℤ) ⟨[(0, -1), (1, 1)]⟩ = some Q ∧
          PolySparse.Polynomial.mod Int.tdiv fuel
            (⟨[(0, -1), (3, 1)]⟩ : PolySparse.Polynomial ℤ) ⟨[(0, -1), (1, 1)]⟩ = some R) ∧
        (∀ fuel Q R, PolySparse.Polynomial.div Int.tdiv fuel
            (⟨[(0, -1), (3, 1)]⟩ : PolySparse.Polynomial ℤ) ⟨[(0, -1), (1, 1)]⟩ = some Q →
          PolySparse.Polynomial.mod Int.tdiv fuel
            (⟨[(0, -1), (3, 1)]⟩ : PolySparse.Polynomial ℤ) ⟨[(0, -1), (1, 1)]⟩ = some R →
          PolySparse.Polynomial.eq (⟨[(0, -1), (3, 1)]⟩ : PolySparse.Polynomial ℤ)
              ((Q.mul ⟨[(0, -1), (1, 1)]⟩).add R) = true ∧
            R.Degree < (⟨[(0, -1), (1, 1)]⟩ : PolySparse.Polynomial ℤ).Degree) ∧
        (∀ st : PolySparse.Polynomial ℤ × PolySparse.Polynomial ℤ, st.1.ordered →
          st.2.ordered →
          st.1.Degree ≥ (⟨[(0, -1), (1, 1)]⟩ : PolySparse.Polynomial ℤ).Degree →
          PolySparse.Polynomial.divmodStep Int.tdiv ⟨[(0, -1), (1, 1)]⟩ st
            = PolySparse.Polynomial.divmodStepNoGuard Int.tdiv ⟨[(0, -1), (1, 1)]⟩ st) ∧
        (∀ fuel, PolySparse.Polynomial.divmod Int.tdiv fuel
            (⟨[(0, -1), (3, 1)]⟩ : PolySparse.Polynomial ℤ) ⟨[(0, -1), (1, 1)]⟩
          = PolySparse.Polynomial.divmodNoGuard Int.tdiv fuel
            (⟨[(0, -1), (3, 1)]⟩ : PolySparse.Polynomial ℤ) ⟨[(0, -1), (1, 1)]⟩)) :=
  ⟨by decide,
    int_monic_division_exact ⟨[(0, -1), (3, 1)]⟩ ⟨[(0, -1), (1, 1)]⟩
      (by decide) (by decide) (by decide) (by decide)⟩

end ClaimsDivision

end PolySparseSpec
